import Mathlib

/-!
# Verification of the Pyslvs undo/redo command layer

Shallow embedding of `src/core/widgets/undo_redo.py` together with the parts
of `src/core/widgets/tables.py` that the commands call (`row_text`,
`edit_point`, `edit_link`, `rename`, the Qt `QTableWidget` cell model and the
`QListWidget` list model).

Python strings are modelled as `List Char`; `str.split(sep)` (single-character
separator), `','.join`, and `str.replace` are reimplemented with Python's
semantics.  Qt table cells are `Option (List Char)` — a cell that never
received a `QTableWidgetItem` is `none`, and calling `.text()` on it is a
runtime error, so every operation that reads cells unconditionally returns
`Option`.  `list.remove` raising `ValueError` and dict lookup raising
`KeyError` are modelled the same way.
-/

set_option maxRecDepth 4096

namespace Pyslvs

/-- Python strings, modelled character by character. -/
abbrev Str := List Char

/-- Python `s.split(sep)` for a one-character separator `sep`:
always returns one more part than there are separator occurrences,
in particular `''.split(sep) = ['']`. -/
def splitCh (sep : Char) : Str → List Str
  | [] => [[]]
  | c :: rest =>
    match splitCh sep rest with
    | [] => [[c]]
    | t :: ts => if c = sep then [] :: t :: ts else (c :: t) :: ts

/-- Python `sep.join(parts)` for a one-character separator. -/
def joinCh (sep : Char) : List Str → Str
  | [] => []
  | [t] => t
  | t :: t' :: ts => t ++ sep :: joinCh sep (t' :: ts)

/-- Model of `s.split(',')`. -/
def splitComma : Str → List Str := splitCh ','

/-- Model of `','.join`. -/
def joinComma : List Str → Str := joinCh ','

theorem splitCh_ne_nil (sep : Char) (s : Str) : splitCh sep s ≠ [] := by
  cases s with
  | nil => simp [splitCh]
  | cons c rest =>
    simp only [splitCh]
    cases splitCh sep rest with
    | nil => simp
    | cons t ts =>
      by_cases h : c = sep <;> simp [h]

/-- Splitting a separator-free string returns the string as the only part. -/
theorem splitCh_of_not_mem {sep : Char} {s : Str} (h : sep ∉ s) :
    splitCh sep s = [s] := by
  induction s with
  | nil => rfl
  | cons c rest ih =>
    simp only [List.mem_cons, not_or] at h
    simp only [splitCh, ih h.2]
    have : ¬ c = sep := fun hc => h.1 hc.symm
    simp [this]

/-- Splitting `a ++ s` when `a` is separator-free prepends `a` to the first
part of `splitCh sep s`. -/
theorem splitCh_append {sep : Char} {a : Str} (h : sep ∉ a) (s : Str)
    {t : Str} {ts : List Str} (hs : splitCh sep s = t :: ts) :
    splitCh sep (a ++ s) = (a ++ t) :: ts := by
  induction a with
  | nil => simpa using hs
  | cons c a ih =>
    simp only [List.mem_cons, not_or] at h
    have hc : ¬ c = sep := fun hc => h.1 hc.symm
    simp only [List.cons_append, splitCh, List.append_eq, ih h.2, if_neg hc]

/-- Model of `split` after `join` restores the list of parts, provided there is at
least one part and no part contains the separator. -/
theorem splitCh_joinCh {sep : Char} :
    ∀ {l : List Str}, l ≠ [] → (∀ t ∈ l, sep ∉ t) →
      splitCh sep (joinCh sep l) = l := by
  intro l
  induction l with
  | nil => intro h; exact absurd rfl h
  | cons t ts ih =>
    intro _ hfree
    cases ts with
    | nil =>
      simpa [joinCh] using splitCh_of_not_mem (hfree t (by simp))
    | cons t' ts' =>
      have htfree : sep ∉ t := hfree t (by simp)
      have hrest : splitCh sep (joinCh sep (t' :: ts')) = t' :: ts' :=
        ih (by simp) (fun u hu => hfree u (List.mem_cons_of_mem _ hu))
      have hsep : splitCh sep (sep :: joinCh sep (t' :: ts')) = [] :: t' :: ts' := by
        simp [splitCh, hrest]
      simp only [joinCh]
      rw [splitCh_append htfree _ hsep]
      simp

/-- Model of `join` after `split` always restores the original string. -/
theorem joinCh_splitCh (sep : Char) (s : Str) :
    joinCh sep (splitCh sep s) = s := by
  induction s with
  | nil => rfl
  | cons c rest ih =>
    simp only [splitCh]
    cases hs : splitCh sep rest with
    | nil => exact absurd hs (splitCh_ne_nil sep rest)
    | cons t ts =>
      rw [hs] at ih
      by_cases hc : c = sep
      · subst hc
        simpa [joinCh] using ih
      · simp only [if_neg hc]
        cases ts with
        | nil => simpa [joinCh] using ih
        | cons u us => simpa [joinCh] using ih

/-- Every character of a part produced by `splitCh` occurs in the source
string. -/
theorem mem_of_mem_splitCh {sep : Char} {s : Str} {t : Str}
    (ht : t ∈ splitCh sep s) {c : Char} (hc : c ∈ t) : c ∈ s := by
  induction s generalizing t with
  | nil =>
    simp only [splitCh, List.mem_singleton] at ht
    subst ht
    exact absurd hc (List.not_mem_nil c)
  | cons d rest ih =>
    simp only [splitCh] at ht
    cases hs : splitCh sep rest with
    | nil => exact absurd hs (splitCh_ne_nil sep rest)
    | cons u us =>
      rw [hs] at ht
      by_cases hd : d = sep
      · simp only [if_pos hd, List.mem_cons] at ht
        rcases ht with h | h | h
        · subst h; exact absurd hc (List.not_mem_nil c)
        · exact List.mem_cons_of_mem _ (ih (t := t) (by rw [hs]; exact h ▸ List.mem_cons_self u us) hc)
        · exact List.mem_cons_of_mem _ (ih (t := t) (by rw [hs]; exact List.mem_cons_of_mem u h) hc)
      · simp only [if_neg hd, List.mem_cons] at ht
        rcases ht with h | h
        · subst h
          rcases List.mem_cons.1 hc with h | h
          · exact List.mem_cons.2 (Or.inl h)
          · exact List.mem_cons_of_mem _ (ih (t := u) (by rw [hs]; exact List.mem_cons_self u us) h)
        · exact List.mem_cons_of_mem _ (ih (t := t) (by rw [hs]; exact List.mem_cons_of_mem u h) hc)

/-- No part produced by splitting contains the separator. -/
theorem not_mem_of_mem_splitCh {sep : Char} {s : Str} {t : Str}
    (ht : t ∈ splitCh sep s) : sep ∉ t := by
  induction s generalizing t with
  | nil =>
    simp only [splitCh, List.mem_singleton] at ht
    subst ht; exact List.not_mem_nil sep
  | cons d rest ih =>
    simp only [splitCh] at ht
    cases hs : splitCh sep rest with
    | nil => exact absurd hs (splitCh_ne_nil sep rest)
    | cons u us =>
      rw [hs] at ht
      by_cases hd : d = sep
      · simp only [if_pos hd, List.mem_cons] at ht
        rcases ht with h | h | h
        · subst h; exact List.not_mem_nil sep
        · exact ih (t := t) (by rw [hs]; exact h ▸ List.mem_cons_self u us)
        · exact ih (t := t) (by rw [hs]; exact List.mem_cons_of_mem u h)
      · simp only [if_neg hd, List.mem_cons] at ht
        rcases ht with h | h
        · subst h
          intro hmem
          rcases List.mem_cons.1 hmem with h | h
          · exact hd h.symm
          · exact ih (t := u) (by rw [hs]; exact List.mem_cons_self u us) h
        · exact ih (t := t) (by rw [hs]; exact List.mem_cons_of_mem u h)

/-- Python `s.replace(old, new)` for an empty pattern: `new` is inserted
before every character and at the end. -/
def interReplace (new : Str) : Str → Str
  | [] => new
  | c :: rest => new ++ c :: interReplace new rest

/-- Fuelled worker for non-empty-pattern replacement; the fuel is a bound
on the string length, so the kernel can evaluate it structurally. -/
def replaceAux (old new : Str) : Nat → Str → Str
  | _, [] => []
  | 0, s => s
  | fuel + 1, c :: rest =>
    if old.isPrefixOf (c :: rest) then
      new ++ replaceAux old new fuel ((c :: rest).drop old.length)
    else
      c :: replaceAux old new fuel rest

/-- Python `s.replace(old, new)` for a non-empty pattern: leftmost,
non-overlapping occurrences. -/
def replaceNE (old new s : Str) : Str := replaceAux old new s.length s

theorem replaceAux_fuel {old new : Str} (hold : old ≠ []) :
    ∀ (f1 : Nat) (s : Str) (f2 : Nat), s.length ≤ f1 → s.length ≤ f2 →
      replaceAux old new f1 s = replaceAux old new f2 s := by
  intro f1
  induction f1 with
  | zero =>
    intro s f2 h1 _
    have : s = [] := List.length_eq_zero.1 (Nat.le_zero.1 h1)
    subst this
    cases f2 <;> rfl
  | succ f1 ih =>
    intro s f2 h1 h2
    cases s with
    | nil => cases f2 <;> rfl
    | cons c rest =>
      cases f2 with
      | zero => simp at h2
      | succ f2 =>
        simp only [replaceAux]
        by_cases hp : old.isPrefixOf (c :: rest)
        · rw [if_pos hp, if_pos hp]
          have hlen : ((c :: rest).drop old.length).length ≤ rest.length := by
            simp only [List.length_drop, List.length_cons]
            have : 1 ≤ old.length := List.length_pos.2 hold
            omega
          have h1' : ((c :: rest).drop old.length).length ≤ f1 := by
            simp only [List.length_cons] at h1; omega
          have h2' : ((c :: rest).drop old.length).length ≤ f2 := by
            simp only [List.length_cons] at h2; omega
          rw [ih _ f2 h1' h2']
        · rw [if_neg hp, if_neg hp]
          have h1' : rest.length ≤ f1 := by simp only [List.length_cons] at h1; omega
          have h2' : rest.length ≤ f2 := by simp only [List.length_cons] at h2; omega
          rw [ih _ f2 h1' h2']

theorem replaceNE_nil (old new : Str) : replaceNE old new [] = [] := rfl

/-- One-step unfolding of `replaceNE` for a non-empty pattern. -/
theorem replaceNE_cons {old : Str} (hold : old ≠ []) (new : Str) (c : Char) (rest : Str) :
    replaceNE old new (c :: rest) =
      if old.isPrefixOf (c :: rest) then
        new ++ replaceNE old new ((c :: rest).drop old.length)
      else
        c :: replaceNE old new rest := by
  unfold replaceNE
  simp only [List.length_cons, replaceAux]
  by_cases hp : old.isPrefixOf (c :: rest)
  · rw [if_pos hp, if_pos hp]
    have hlen : ((c :: rest).drop old.length).length ≤ rest.length := by
      simp only [List.length_drop, List.length_cons]
      have : 1 ≤ old.length := List.length_pos.2 hold
      omega
    rw [replaceAux_fuel hold rest.length _ _ hlen (le_refl _)]
  · rw [if_neg hp, if_neg hp]

/-- Python `s.replace(old, new)`. -/
def pyReplace (old new s : Str) : Str :=
  if old = [] then interReplace new s else replaceNE old new s

/-- A pattern whose head character does not occur in `s` never matches,
so replacing it leaves `s` unchanged. -/
theorem replaceNE_of_head_not_mem {o : Char} {old' new s : Str}
    (h : o ∉ s) : replaceNE (o :: old') new s = s := by
  induction s with
  | nil => rfl
  | cons c rest ih =>
    simp only [List.mem_cons, not_or] at h
    rw [replaceNE_cons (by simp)]
    have hpre : ¬ (o :: old').isPrefixOf (c :: rest) := by
      intro hp
      simp only [List.isPrefixOf, Bool.and_eq_true, beq_iff_eq] at hp
      exact h.1 hp.1
    rw [if_neg hpre, ih h.2]

theorem mem_replaceAux {old new : Str} {c : Char} :
    ∀ {fuel : Nat} {s : Str}, c ∈ replaceAux old new fuel s → c ∈ s ∨ c ∈ new := by
  intro fuel
  induction fuel with
  | zero =>
    intro s h
    cases s with
    | nil => simp [replaceAux] at h
    | cons d rest => exact Or.inl h
  | succ fuel ih =>
    intro s h
    cases s with
    | nil => simp [replaceAux] at h
    | cons d rest =>
      simp only [replaceAux] at h
      by_cases hp : old.isPrefixOf (d :: rest)
      · rw [if_pos hp] at h
        rcases List.mem_append.1 h with h | h
        · exact Or.inr h
        · rcases ih h with h | h
          · exact Or.inl (List.mem_of_mem_drop h)
          · exact Or.inr h
      · rw [if_neg hp] at h
        rcases List.mem_cons.1 h with h | h
        · exact Or.inl (List.mem_cons.2 (Or.inl h))
        · rcases ih h with h | h
          · exact Or.inl (List.mem_cons_of_mem _ h)
          · exact Or.inr h

/-- Every character of `replaceNE old new s` comes from `s` or from `new`. -/
theorem mem_replaceNE {old new s : Str} {c : Char}
    (h : c ∈ replaceNE old new s) : c ∈ s ∨ c ∈ new :=
  mem_replaceAux h

/-- If `old` is a prefix of `s`, `replaceNE` consumes it. -/
theorem replaceNE_consume {old new rest : Str} (hne : old ≠ []) :
    replaceNE old new (old ++ rest) = new ++ replaceNE old new rest := by
  cases old with
  | nil => exact absurd rfl hne
  | cons o old' =>
    rw [List.cons_append, replaceNE_cons (by simp)]
    have hpre : (o :: old').isPrefixOf (o :: old' ++ rest) :=
      List.isPrefixOf_iff_prefix.2 (List.prefix_append _ _)
    rw [if_pos (by simpa using hpre)]
    congr 1
    rw [← List.cons_append]
    congr 1
    simp

/-! ### Decimal printing and parsing

`f'Point{p}'` prints a natural number in decimal; `int(...)` parses it.
(The model's parser accepts exactly non-empty all-digit strings; Python's
`int` additionally accepts signs and whitespace, which never occur in the
canonical fields the commands write.) -/

/-- The decimal digit character for `d < 10`. -/
def digitChar (d : Nat) : Char := Char.ofNat (48 + d)

/-- Fuelled worker for decimal printing (structural, so the kernel can
evaluate it); the fuel is any strict upper bound of `n`. -/
def natToStrAux : Nat → Nat → Str → Str
  | 0, _, acc => acc
  | fuel + 1, n, acc =>
    if n < 10 then digitChar n :: acc
    else natToStrAux fuel (n / 10) (digitChar (n % 10) :: acc)

/-- Decimal representation of a natural number (Python `str(n)` / f-string). -/
def natToStr (n : Nat) : Str := natToStrAux (n + 1) n []

theorem natToStrAux_acc :
    ∀ {fuel n : Nat}, n < fuel → ∀ acc, natToStrAux fuel n acc = natToStrAux fuel n [] ++ acc := by
  intro fuel
  induction fuel with
  | zero => intro n h; omega
  | succ fuel ih =>
    intro n h acc
    simp only [natToStrAux]
    by_cases h10 : n < 10
    · rw [if_pos h10, if_pos h10]
      rfl
    · rw [if_neg h10, if_neg h10]
      have hdiv : n / 10 < n := Nat.div_lt_self (by omega) (by decide)
      have hlt : n / 10 < fuel := by omega
      rw [ih hlt, ih hlt [digitChar (n % 10)]]
      simp

theorem natToStrAux_fuel :
    ∀ {f1 : Nat} {n : Nat} {f2 : Nat}, n < f1 → n < f2 →
      natToStrAux f1 n [] = natToStrAux f2 n [] := by
  intro f1
  induction f1 with
  | zero => intro n f2 h; omega
  | succ f1 ih =>
    intro n f2 h1 h2
    cases f2 with
    | zero => omega
    | succ f2 =>
      simp only [natToStrAux]
      by_cases h10 : n < 10
      · rw [if_pos h10, if_pos h10]
      · rw [if_neg h10, if_neg h10]
        have hdiv : n / 10 < n := Nat.div_lt_self (by omega) (by decide)
        have hd1 : n / 10 < f1 := by omega
        have hd2 : n / 10 < f2 := by omega
        rw [natToStrAux_acc hd1, natToStrAux_acc hd2, ih hd1 hd2]

/-- The recursive unfolding of `natToStr` (matching Python's algorithm). -/
theorem natToStr_eq (n : Nat) :
    natToStr n = if n < 10 then [digitChar n] else natToStr (n / 10) ++ [digitChar (n % 10)] := by
  show natToStrAux (n + 1) n [] = _
  simp only [natToStrAux]
  by_cases h10 : n < 10
  · rw [if_pos h10, if_pos h10]
  · rw [if_neg h10, if_neg h10]
    have hdiv : n / 10 < n := Nat.div_lt_self (by omega) (by decide)
    rw [natToStrAux_acc (by omega)]
    congr 1
    exact natToStrAux_fuel (by omega) (Nat.lt_succ_self _)

/-- Is `c` one of `'0'..'9'`? -/
def isDigitCh (c : Char) : Bool := 48 ≤ c.toNat ∧ c.toNat ≤ 57

/-- Python `int(s)` restricted to non-empty all-digit strings; everything
else is a `ValueError`, i.e. `none`. -/
def strToNat? (s : Str) : Option Nat :=
  if s ≠ [] ∧ s.all isDigitCh then
    some (s.foldl (fun a c => 10 * a + (c.toNat - 48)) 0)
  else none

theorem digitChar_toNat {d : Nat} (h : d < 10) : (digitChar d).toNat = 48 + d := by
  interval_cases d <;> decide

theorem isDigitCh_digitChar {d : Nat} (h : d < 10) : isDigitCh (digitChar d) = true := by
  interval_cases d <;> decide

theorem natToStr_ne_nil (n : Nat) : natToStr n ≠ [] := by
  rw [natToStr_eq]
  split <;> simp

theorem natToStr_all_digits (n : Nat) : ∀ c ∈ natToStr n, isDigitCh c = true := by
  induction n using Nat.strong_induction_on with
  | _ n ih =>
    intro c hc
    rw [natToStr_eq] at hc
    split at hc
    · next h =>
      simp only [List.mem_singleton] at hc
      subst hc
      exact isDigitCh_digitChar h
    · next h =>
      rcases List.mem_append.1 hc with hm | hm
      · exact ih (n / 10) (Nat.div_lt_self (by omega) (by omega)) c hm
      · simp only [List.mem_singleton] at hm
        subst hm
        exact isDigitCh_digitChar (Nat.mod_lt _ (by omega))

/-- The digit characters used by `natToStr` are never `','`, `'P'`, `':'`. -/
theorem natToStr_digit_ne {n : Nat} {c : Char} (hc : c ∈ natToStr n) :
    c ≠ ',' ∧ c ≠ 'P' ∧ c ≠ ':' := by
  have hd := natToStr_all_digits n c hc
  simp only [isDigitCh, decide_eq_true_eq] at hd
  refine ⟨?_, ?_, ?_⟩ <;> rintro rfl <;> simp at hd <;> omega

/-- Folding the parse function over an appended digit. -/
theorem foldl_parse_append (xs : Str) (c : Char) (a : Nat) :
    (xs ++ [c]).foldl (fun a c => 10 * a + (c.toNat - 48)) a =
      10 * xs.foldl (fun a c => 10 * a + (c.toNat - 48)) a + (c.toNat - 48) := by
  rw [List.foldl_append]
  rfl

theorem strToNat?_natToStr (n : Nat) : strToNat? (natToStr n) = some n := by
  have key : ∀ m : Nat, (natToStr m).foldl (fun a c => 10 * a + (c.toNat - 48)) 0 = m := by
    intro m
    induction m using Nat.strong_induction_on with
    | _ m ih =>
      rw [natToStr_eq]
      split
      · next h =>
        simp only [List.foldl_cons, List.foldl_nil, digitChar_toNat h]
        omega
      · next h =>
        rw [foldl_parse_append, ih (m / 10) (Nat.div_lt_self (by omega) (by omega)),
          digitChar_toNat (Nat.mod_lt _ (by omega))]
        omega
  unfold strToNat?
  rw [if_pos ⟨natToStr_ne_nil n, List.all_eq_true.2 (natToStr_all_digits n)⟩, key]

/-! ### Point references

The point table names its rows `Point{index}`; link rows reference points by
those names, parsed with `int(p.replace('Point', ''))`. -/

/-- The literal `'Point'`. -/
def pointWord : Str := ['P', 'o', 'i', 'n', 't']

/-- Model of `f'Point{n}'`. -/
def pointName (n : Nat) : Str := pointWord ++ natToStr n

/-- Model of `int(p.replace('Point', ''))` — `none` models the `ValueError`. -/
def parsePointTok (t : Str) : Option Nat := strToNat? (pyReplace pointWord [] t)

theorem parsePointTok_pointName (n : Nat) : parsePointTok (pointName n) = some n := by
  unfold parsePointTok pointName pyReplace
  rw [if_neg (by simp [pointWord])]
  have h1 : replaceNE pointWord [] (pointWord ++ natToStr n) =
      [] ++ replaceNE pointWord [] (natToStr n) :=
    replaceNE_consume (by simp [pointWord])
  have h2 : replaceNE pointWord [] (natToStr n) = natToStr n := by
    unfold pointWord
    exact replaceNE_of_head_not_mem (fun hm => (natToStr_digit_ne hm).2.1 rfl)
  rw [h1, h2, List.nil_append, strToNat?_natToStr]

theorem pointName_ne_nil (n : Nat) : pointName n ≠ [] := by
  simp [pointName, pointWord]

theorem comma_not_mem_pointName (n : Nat) : ',' ∉ pointName n := by
  intro h
  rcases List.mem_append.1 h with h | h
  · simp [pointWord] at h
  · exact (natToStr_digit_ne h).1 rfl

theorem pointName_injective : Function.Injective pointName := by
  intro a b hab
  have := parsePointTok_pointName a
  rw [hab, parsePointTok_pointName b] at this
  exact (Option.some_injective _ this).symm

/-! ### The Qt table model

A `Table` is the observable text state of a `QTableWidget`: a fixed column
count and a list of rows, each cell holding either a `QTableWidgetItem`
(modelled by its text — flags and icons are cosmetic) or no item at all
(`none`; calling `.text()` on it is a Python `AttributeError`). -/

structure Table where
  cols : Nat
  rows : List (List (Option Str))
deriving DecidableEq

namespace Table

/-- Model of `rowCount()`. -/
def rowCount (t : Table) : Nat := t.rows.length

/-- Model of `item(r, c)`: `none` when the cell has no item (Qt returns a null
pointer, also for out-of-range indices). -/
def item (t : Table) (r c : Nat) : Option Str :=
  match t.rows[r]? with
  | none => none
  | some row => (row[c]?).join

/-- Model of `setItem(r, c, QTableWidgetItem(s))`; out-of-range indices are ignored,
as in Qt. -/
def setItem (t : Table) (r c : Nat) (s : Str) : Table :=
  match t.rows[r]? with
  | none => t
  | some row => { t with rows := t.rows.set r (row.set c (some s)) }

/-- Model of `insertRow(r)`: a fresh row has no items. -/
def insertRow (t : Table) (r : Nat) : Table :=
  { t with rows := t.rows.take r ++ [List.replicate t.cols none] ++ t.rows.drop r }

/-- Model of `removeRow(r)`. -/
def removeRow (t : Table) (r : Nat) : Table :=
  { t with rows := t.rows.eraseIdx r }

/-- The text a `row_text`-style read sees: `''` for a missing item
(`tables.py` line 90–93). -/
def itemText (t : Table) (r c : Nat) : Str := (t.item r c).getD []

/-- Model of `PointTableWidget.rename(row)` (`tables.py` line 234): stamp every row
from `row` on with its current index. -/
def renameFrom (t : Table) (row : Nat) : Table :=
  (List.range' row (t.rowCount - row)).foldl (fun tb j => tb.setItem j 0 (pointName j)) t

end Table

/-- Model of `_no_empty_string` (`undo_redo.py` line 44). -/
def noEmpty (l : List Str) : List Str := l.filter (· ≠ [])

/-- Model of `f"({x}, {y})"` — the `Current` column written by `edit_point`. -/
def currentText (x y : Str) : Str := '(' :: (x ++ ',' :: ' ' :: (y ++ [')']))

/-- Model of `PointTableWidget.edit_point(row, links, type_str, color, x, y)`
(`tables.py` line 225): writes all seven columns, the name column as
`f'Point{row}'` and the current position as `f"({x}, {y})"`. -/
def editPoint (t : Table) (row : Nat) (links typ color x y : Str) : Table :=
  ((((((t.setItem row 0 (pointName row)).setItem row 1 links).setItem row 2 typ).setItem
      row 3 color).setItem row 4 x).setItem row 5 y).setItem row 6 (currentText x y)

/-- Model of `LinkTableWidget.edit_link(row, name, color, points)` (`tables.py`
line 319). -/
def editLink (t : Table) (row : Nat) (name color points : Str) : Table :=
  ((t.setItem row 0 name).setItem row 1 color).setItem row 2 points

/-- The two coupled tables. The point table has 7 columns
(Number, Links, Type, Color, X, Y, Current), the link table 3
(Name, Color, Points). -/
structure Sheets where
  pointTable : Table
  linkTable : Table
deriving DecidableEq

/-- Model of `PointTableWidget.get_links(row)` (`tables.py` line 268): the non-empty
comma-separated entries of the Links column, `[]` when the cell has no item. -/
def getLinks (t : Table) (r : Nat) : List Str :=
  match t.item r 1 with
  | none => []
  | some s => noEmpty (splitComma s)

/-- The non-empty tokens of a link row's Points column (the list
`LinkTableWidget.get_points` parses, `tables.py` line 343). -/
def linkPointTokens (t : Table) (r : Nat) : List Str :=
  match t.item r 2 with
  | none => []
  | some s => noEmpty (splitComma s)

/-- Reads "link row `l`'s points field contains point index `p`": some token of
the Points column parses (as `get_points` does) to `p`. -/
def refersTo (t : Table) (l p : Nat) : Prop :=
  ∃ tok ∈ linkPointTokens t l, parsePointTok tok = some p

instance (t : Table) (l p : Nat) : Decidable (refersTo t l p) := by
  unfold refersTo; infer_instance

/-- The bidirectional referential invariant (§3 of the spec): every link
named by a point's Links field is a link row whose Points field contains the
point's index, and every point index in a link row's Points field is a valid
point row whose Links field names that link. -/
def Invariant (s : Sheets) : Prop :=
  (∀ p ∈ List.range s.pointTable.rowCount, ∀ L ∈ getLinks s.pointTable p,
    ∃ l ∈ List.range s.linkTable.rowCount,
      s.linkTable.itemText l 0 = L ∧ refersTo s.linkTable l p) ∧
  (∀ l ∈ List.range s.linkTable.rowCount, ∀ tok ∈ linkPointTokens s.linkTable l,
    ∀ p ∈ (parsePointTok tok).toList,
      p ∈ List.range s.pointTable.rowCount ∧
        s.linkTable.itemText l 0 ∈ getLinks s.pointTable p)

instance (s : Sheets) : Decidable (Invariant s) := by
  unfold Invariant; infer_instance

/-! ### Commands (`undo_redo.py`)

Each Qt `QUndoCommand` is embedded as captured data (what `__init__` reads
from the widgets) plus `redo`/`undo` state transformers.  `redo` runs when
the command is pushed on the stack; `undo`/`redo` alternate afterwards.
Reads of absent items, failing `int(...)` parses, failing `list.remove` and
failing dict lookups are Python runtime errors, modelled by `Option`. -/

/-- Python `list.remove(x)`: drop the first occurrence, `ValueError`
(`none`) when `x` is absent. -/
def pyRemove (l : List Str) (x : Str) : Option (List Str) :=
  if x ∈ l then some (l.erase x) else none

/-- Model of `AddTable.redo` (`undo_redo.py` line 61): insert a row at the end, then
set empty items — note the source iterates `range(row)`, the *old row
count*, not `range(columnCount())`. -/
def addTableRedo (t : Table) : Table :=
  let row := t.rowCount
  (List.range row).foldl (fun tb c => tb.setItem row c []) (t.insertRow row)

/-- Model of `AddTable.undo` (line 68): remove the last row. -/
def addTableUndo (t : Table) : Table := t.removeRow (t.rowCount - 1)

/-- Model of `DeleteTable.redo` (line 92): remove the row; when `is_rename`, restamp
the names of the rows from `row` on. -/
def deleteTableRedo (row : Nat) (isRename : Bool) (t : Table) : Table :=
  let t1 := t.removeRow row
  if isRename then t1.renameFrom row else t1

/-- Model of `DeleteTable.undo` (line 98): rename first, then insert an empty row and
fill every column with an empty item. -/
def deleteTableUndo (row : Nat) (isRename : Bool) (t : Table) : Table :=
  let t1 := if isRename then t.renameFrom row else t
  let t2 := t1.insertRow row
  (List.range t2.cols).foldl (fun tb c => tb.setItem row c []) t2

/-- Model of `FixSequenceNumber.__sorting(bs)` (line 134), acting on the Points
column of one link-table row: empty text is a no-op; otherwise every
comma-separated part is parsed with `int(p.replace('Point', ''))`, shifted
against the benchmark, and the row is rewritten canonically. -/
def fixSeqSorting (rowIdx benchmark : Nat) (bs : Bool) (t : Table) : Option Table := do
  let f ← t.item rowIdx 2
  if f = [] then
    return t
  else
    let ps ← (splitComma f).mapM parsePointTok
    let ps' := if bs then ps.map (fun p => if benchmark < p then p - 1 else p)
               else ps.map (fun p => if benchmark ≤ p then p + 1 else p)
    return t.setItem rowIdx 2 (joinComma (ps'.map pointName))

/-- Model of `FixSequenceNumber.redo` (line 128). -/
def fixSeqRedo (rowIdx benchmark : Nat) (t : Table) : Option Table :=
  fixSeqSorting rowIdx benchmark true t

/-- Model of `FixSequenceNumber.undo` (line 131). -/
def fixSeqUndo (rowIdx benchmark : Nat) (t : Table) : Option Table :=
  fixSeqSorting rowIdx benchmark false t

/-- The five editable point columns (Links, Type, Color, X, Y), as captured
by `row_text(row, has_name=False)` over `effective_range` 1..5. -/
structure PointArgs where
  links : Str
  typ : Str
  color : Str
  x : Str
  y : Str
deriving DecidableEq

/-- The three link columns (Name, Color, Points), as captured by
`row_text(row, has_name=True)`. -/
structure LinkArgs where
  name : Str
  color : Str
  points : Str
deriving DecidableEq

/-- Model of `row_text(row)` on the point table (columns 1–5, missing items read as
`''`). -/
def pointArgsOfRow (t : Table) (r : Nat) : PointArgs :=
  { links := t.itemText r 1, typ := t.itemText r 2, color := t.itemText r 3,
    x := t.itemText r 4, y := t.itemText r 5 }

/-- Model of `row_text(row, has_name=True)` on the link table (columns 0–2). -/
def linkArgsOfRow (t : Table) (r : Nat) : LinkArgs :=
  { name := t.itemText r 0, color := t.itemText r 1, points := t.itemText r 2 }

/-- Model of `edit_point` applied to a `PointArgs` bundle. -/
def editPointArgs (t : Table) (row : Nat) (a : PointArgs) : Table :=
  editPoint t row a.links a.typ a.color a.x a.y

/-- Model of `edit_link` applied to a `LinkArgs` bundle. -/
def editLinkArgs (t : Table) (row : Nat) (a : LinkArgs) : Table :=
  editLink t row a.name a.color a.points

/-- Model of `EditPointTable` captured state (`undo_redo.py` line 154): the edited
row, new and old argument tuples, and the link rows gaining/losing this
point, resolved by name at construction time. -/
structure EditPointCmd where
  row : Nat
  args : PointArgs
  oldArgs : PointArgs
  newLinkItems : List Nat
  oldLinkItems : List Nat
deriving DecidableEq

/-- Model of `EditPointTable.__init__`: `new_links`/`old_links` are the Python
*sets* of raw comma-separated parts (unfiltered, so `''` can be a member);
the loop reads every link row's name with `.text()` (an absent name item is
an `AttributeError`) and collects row indices in ascending order. -/
def mkEditPoint (row : Nat) (args : PointArgs) (s : Sheets) : Option EditPointCmd := do
  let oldArgs := pointArgsOfRow s.pointTable row
  let newL := splitComma args.links
  let oldL := splitComma oldArgs.links
  let names ← (List.range s.linkTable.rowCount).mapM (fun r => s.linkTable.item r 0)
  let pairs := (List.range s.linkTable.rowCount).zip names
  return { row := row, args := args, oldArgs := oldArgs,
           newLinkItems := (pairs.filter
             (fun rc => newL.contains rc.2 && !(oldL.contains rc.2))).map (·.1),
           oldLinkItems := (pairs.filter
             (fun rc => oldL.contains rc.2 && !(newL.contains rc.2))).map (·.1) }

/-- Model of `EditPointTable.__set_cell` (line 211) applied after appending the point
name to a link row's parts. -/
def appendPointAt (pname : Str) (link : Table) (r : Nat) : Option Table := do
  let f ← link.item r 2
  return link.setItem r 2 (joinComma (noEmpty (splitComma f ++ [pname])))

/-- Model of `__set_cell` after `new_points.remove(point_name)`; the `remove` raises
when the name is absent. -/
def removePointAt (pname : Str) (link : Table) (r : Nat) : Option Table := do
  let f ← link.item r 2
  let pts ← pyRemove (splitComma f) pname
  return link.setItem r 2 (joinComma (noEmpty pts))

/-- Model of `EditPointTable.__write_rows(items1, items2)` (line 191). -/
def epWriteRows (pname : Str) (items1 items2 : List Nat) (link : Table) : Option Table := do
  let t1 ← items1.foldlM (appendPointAt pname) link
  items2.foldlM (removePointAt pname) t1

/-- Model of `EditPointTable.redo` (line 181): write the arguments, then patch the
dependent link rows. -/
def EditPointCmd.redo (c : EditPointCmd) (s : Sheets) : Option Sheets := do
  let pt := editPointArgs s.pointTable c.row c.args
  let lk ← epWriteRows (pointName c.row) c.newLinkItems c.oldLinkItems s.linkTable
  return { pointTable := pt, linkTable := lk }

/-- Model of `EditPointTable.undo` (line 186): patch the dependents back, then
restore the old arguments. -/
def EditPointCmd.undo (c : EditPointCmd) (s : Sheets) : Option Sheets := do
  let lk ← epWriteRows (pointName c.row) c.oldLinkItems c.newLinkItems s.linkTable
  return { pointTable := editPointArgs s.pointTable c.row c.oldArgs, linkTable := lk }

/-- Model of `parsePoints` — the comprehension in `EditLinkTable.__init__`
(line 238): split, drop empties, parse each part. -/
def parsePoints (s : Str) : Option (List Nat) :=
  (noEmpty (splitComma s)).mapM parsePointTok

/-- Model of `EditLinkTable` captured state (line 224). -/
structure EditLinkCmd where
  row : Nat
  args : LinkArgs
  oldArgs : LinkArgs
  newPointItems : List Nat
  oldPointItems : List Nat
deriving DecidableEq

/-- Model of `EditLinkTable.__init__`: the gained/lost point-row index sets
`new_points - old_points` / `old_points - new_points`.  (CPython iterates a
set of small naturals in a fixed order; the embedding uses first-appearance
order — the patched rows are distinct, so the resulting state does not
depend on the order.) -/
def mkEditLink (row : Nat) (args : LinkArgs) (s : Sheets) : Option EditLinkCmd := do
  let oldArgs := linkArgsOfRow s.linkTable row
  let newP ← parsePoints args.points
  let oldP ← parsePoints oldArgs.points
  return { row := row, args := args, oldArgs := oldArgs,
           newPointItems := newP.dedup.filter (fun p => p ∉ oldP),
           oldPointItems := oldP.dedup.filter (fun p => p ∉ newP) }

/-- One iteration of `EditLinkTable.__rename` (line 263): parse the point
token, read the point's Links cell, replace the old name by the new one in
every part (a Python substring `replace`), drop empties, rejoin. -/
def renamePointRow (oldName newName : Str) (pt : Table) (tok : Str) : Option Table := do
  let r ← parsePointTok tok
  let f ← pt.item r 1
  return pt.setItem r 1
    (joinComma (noEmpty ((splitComma f).map (fun w => pyReplace oldName newName w))))

/-- Model of `EditLinkTable.__rename(arg1, arg2)`: skip when the name is unchanged,
otherwise visit every non-empty token of `arg2`'s points field. -/
def elRename (arg1 arg2 : LinkArgs) (pt : Table) : Option Table :=
  if arg2.name = arg1.name then some pt
  else (noEmpty (splitComma arg2.points)).foldlM (renamePointRow arg2.name arg1.name) pt

/-- Model of `EditLinkTable.__set_cell` after appending `name` to a point row's
Links parts. -/
def appendLinkAt (name : Str) (pt : Table) (r : Nat) : Option Table := do
  let f ← pt.item r 1
  return pt.setItem r 1 (joinComma (noEmpty (splitComma f ++ [name])))

/-- Model of `__set_cell` after `new_links.remove(name)` — the removal is guarded by
`if name:` (line 296), so an empty name removes nothing. -/
def removeLinkAt (name : Str) (pt : Table) (r : Nat) : Option Table := do
  let f ← pt.item r 1
  let lks ← if name = [] then some (splitComma f) else pyRemove (splitComma f) name
  return pt.setItem r 1 (joinComma (noEmpty lks))

/-- Model of `EditLinkTable.__write_rows(name, items1, items2)` (line 279). -/
def elWriteRows (name : Str) (items1 items2 : List Nat) (pt : Table) : Option Table := do
  let t1 ← items1.foldlM (appendLinkAt name) pt
  items2.foldlM (removeLinkAt name) t1

/-- Model of `EditLinkTable.redo` (line 251): write the link arguments, propagate a
rename over the *old* point set, then patch point memberships. -/
def EditLinkCmd.redo (c : EditLinkCmd) (s : Sheets) : Option Sheets := do
  let lk := editLinkArgs s.linkTable c.row c.args
  let pt1 ← elRename c.args c.oldArgs s.pointTable
  let pt2 ← elWriteRows c.args.name c.newPointItems c.oldPointItems pt1
  return { pointTable := pt2, linkTable := lk }

/-- Model of `EditLinkTable.undo` (line 257): inverse order — patch memberships back,
rename back over the *new* point set, restore the old link arguments. -/
def EditLinkCmd.undo (c : EditLinkCmd) (s : Sheets) : Option Sheets := do
  let pt1 ← elWriteRows c.oldArgs.name c.oldPointItems c.newPointItems s.pointTable
  let pt2 ← elRename c.oldArgs c.args pt1
  return { pointTable := pt2, linkTable := editLinkArgs s.linkTable c.row c.oldArgs }

/-! ### Path, storage and variable commands

`AddPath`/`DeletePath` mutate a `QListWidget` of text items and a Python
dict (insertion-ordered, modelled as an association list).  Coordinates are
floating-point pairs the commands only store and move, never compute with,
so they are modelled by an opaque pair of integers. -/

/-- Stand-in for a stored `(x, y)` float pair (opaque to the commands). -/
abbrev Coord := Int × Int

/-- One recorded path: one coordinate sequence per tracked point. -/
abbrev PathData := List (List Coord)

/-- The record list widget (item texts) and the path dict. -/
structure PathState where
  widget : List Str
  data : List (Str × PathData)
deriving DecidableEq

/-- Python `data[name] = value`: overwrite in place if the key exists,
otherwise append. -/
def dictSet (d : List (Str × PathData)) (k : Str) (v : PathData) : List (Str × PathData) :=
  if d.any (fun kv => kv.1 = k) then
    d.map (fun kv => if kv.1 = k then (k, v) else kv)
  else d ++ [(k, v)]

/-- Python `data[name]`: `KeyError` is `none`. -/
def dictGet? (d : List (Str × PathData)) (k : Str) : Option PathData :=
  (d.find? (fun kv => kv.1 = k)).map (·.2)

/-- Python `del data[name]`: `KeyError` is `none`. -/
def dictDel (d : List (Str × PathData)) (k : Str) : Option (List (Str × PathData)) :=
  if d.any (fun kv => kv.1 = k) then some (d.eraseP (fun kv => kv.1 = k)) else none

/-- Multi-character `sep.join(parts)`. -/
def joinWith (sep : Str) : List Str → Str
  | [] => []
  | [t] => t
  | t :: t' :: ts => t ++ sep ++ joinWith sep (t' :: ts)

/-- The text `AddPath.redo` gives the new list item (line 326):
`f"{name}: " + ", ".join(f"[{i}]" for i, d in enumerate(path) if d)`. -/
def pathItemText (name : Str) (path : PathData) : Str :=
  name ++ ':' :: ' ' ::
    joinWith [',', ' ']
      (((path.enum).filter (fun id => id.2 ≠ [])).map
        (fun id => '[' :: (natToStr id.1 ++ [']'])))

/-- Model of `AddPath` captured state (line 310). -/
structure AddPathCmd where
  name : Str
  path : PathData
deriving DecidableEq

/-- Model of `AddPath.redo` (line 323): store the data and append a list item. -/
def AddPathCmd.redo (c : AddPathCmd) (st : PathState) : PathState :=
  { widget := st.widget ++ [pathItemText c.name c.path],
    data := dictSet st.data c.name c.path }

/-- Model of `AddPath.undo` (line 330): take the *last* item and delete the dict
entry (`takeItem` of an invalid row is a Qt no-op; the failing `del` is a
`KeyError`). -/
def AddPathCmd.undo (c : AddPathCmd) (st : PathState) : Option PathState := do
  let d ← dictDel st.data c.name
  return { widget := st.widget.dropLast, data := d }

/-- Model of `DeletePath` captured state (line 340): the item text at `row`, the name
parsed from it (`text().split(':')[0]`), and the stored path. -/
structure DeletePathCmd where
  row : Nat
  oldItemText : Str
  name : Str
  oldPath : PathData
deriving DecidableEq

/-- Model of `DeletePath.__init__` — reading a missing item or a missing dict entry
raises. -/
def mkDeletePath (row : Nat) (st : PathState) : Option DeletePathCmd := do
  let itemText ← st.widget[row]?
  let name := (splitCh ':' itemText).headD []
  let oldPath ← dictGet? st.data name
  return { row := row, oldItemText := itemText, name := name, oldPath := oldPath }

/-- Model of `DeletePath.redo` (line 354): take the item at the captured row and
delete the dict entry. -/
def DeletePathCmd.redo (c : DeletePathCmd) (st : PathState) : Option PathState := do
  let d ← dictDel st.data c.name
  return { widget := st.widget.eraseIdx c.row, data := d }

/-- Model of `DeletePath.undo` (line 359): restore the dict entry (key re-parsed from
the kept item's text) and *append* the kept item at the end of the list. -/
def DeletePathCmd.undo (c : DeletePathCmd) (st : PathState) : PathState :=
  { widget := st.widget ++ [c.oldItemText],
    data := dictSet st.data ((splitCh ':' c.oldItemText).headD []) c.oldPath }

/-- A storage list item: display text and the `expr` attribute (the icon is
cosmetic). -/
structure SItem where
  text : Str
  expr : Str
deriving DecidableEq

/-- Model of `AddStorage` captured state (line 370). -/
structure AddStorageCmd where
  name : Str
  mechanism : Str
deriving DecidableEq

/-- Model of `AddStorage.redo` (line 376): append an item carrying the expression. -/
def AddStorageCmd.redo (c : AddStorageCmd) (w : List SItem) : List SItem :=
  w ++ [{ text := c.name, expr := c.mechanism }]

/-- Model of `AddStorage.undo` (line 383): take the last item. -/
def AddStorageCmd.undo (_ : AddStorageCmd) (w : List SItem) : List SItem :=
  w.dropLast

/-- Model of `DeleteStorage` captured state (line 392): name and expression read from
the row at construction time. -/
structure DeleteStorageCmd where
  row : Nat
  name : Str
  mechanism : Str
deriving DecidableEq

/-- Model of `DeleteStorage.__init__`. -/
def mkDeleteStorage (row : Nat) (w : List SItem) : Option DeleteStorageCmd := do
  let it ← w[row]?
  return { row := row, name := it.text, mechanism := it.expr }

/-- Model of `DeleteStorage.redo` (line 399). -/
def DeleteStorageCmd.redo (c : DeleteStorageCmd) (w : List SItem) : List SItem :=
  w.eraseIdx c.row

/-- Model of `DeleteStorage.undo` (line 403): rebuild the item and insert it at the
captured row. -/
def DeleteStorageCmd.undo (c : DeleteStorageCmd) (w : List SItem) : List SItem :=
  w.take c.row ++ [{ text := c.name, expr := c.mechanism }] ++ w.drop c.row

/-- Model of `AddVariable` captured state (line 451): the command owns one list item
(text and tooltip are both the given text). -/
structure AddVariableCmd where
  text : Str
deriving DecidableEq

/-- Model of `AddVariable.redo` (line 457): append the owned item. -/
def AddVariableCmd.redo (c : AddVariableCmd) (w : List Str) : List Str :=
  w ++ [c.text]

/-- Model of `AddVariable.undo` (line 461): `takeItem(widget.row(self.item))` — the
owned item is located and removed; if it is absent, `row` is `-1` and
`takeItem` is a no-op, which is exactly `List.erase`. -/
def AddVariableCmd.undo (c : AddVariableCmd) (w : List Str) : List Str :=
  w.erase c.text

/-- Model of `DeleteVariable` captured state (line 470): the command keeps the item
found at `row`. -/
structure DeleteVariableCmd where
  itemText : Str
deriving DecidableEq

/-- Model of `DeleteVariable.__init__`. -/
def mkDeleteVariable (row : Nat) (w : List Str) : Option DeleteVariableCmd := do
  let t ← w[row]?
  return { itemText := t }

/-- Model of `DeleteVariable.redo` (line 475): remove the owned item where it
currently is. -/
def DeleteVariableCmd.redo (c : DeleteVariableCmd) (w : List Str) : List Str :=
  w.erase c.itemText

/-- Model of `DeleteVariable.undo` (line 479): append the owned item. -/
def DeleteVariableCmd.undo (c : DeleteVariableCmd) (w : List Str) : List Str :=
  w ++ [c.itemText]

/-! ### Auxiliary readers and concrete states for the scenario claims -/

/-- Convenience: the character list of a string literal. -/
def lit (s : String) : Str := s.data

/-- The reference set of a link row read as `get_points` reads it (tokens
that fail to parse are dropped; on the canonical states below every token
parses). -/
def linkRefs (t : Table) (r : Nat) : List Nat :=
  (linkPointTokens t r).filterMap parsePointTok

/-- A canonical point-table row as `edit_point` would have written it. -/
def pointRow (i : Nat) (links : Str) : List (Option Str) :=
  [some (pointName i), some links, some (lit "R"), some (lit "Red"), some (lit "0"),
   some (lit "0"), some (currentText (lit "0") (lit "0"))]

/-- A link-table row as `edit_link` would have written it. -/
def linkRow (name color points : Str) : List (Option Str) :=
  [some name, some color, some points]

/-- C8's start state: ground-only link table, two points with empty links. -/
def s8 : Sheets :=
  { pointTable := { cols := 7, rows := [pointRow 0 [], pointRow 1 []] },
    linkTable := { cols := 3, rows := [linkRow (lit "ground") (lit "White") []] } }

/-- C8 after `push(AddTable)` on the link table. -/
def s8a : Sheets := { s8 with linkTable := addTableRedo s8.linkTable }

/-- C8's `EditLinkTable(1, ("L1", "Red", "Point0,Point1"))`. -/
def s8Cmd : Option EditLinkCmd :=
  mkEditLink 1 ⟨lit "L1", lit "Red", lit "Point0,Point1"⟩ s8a

/-- C8 after the edit is pushed. -/
def s8Redo : Option Sheets := s8Cmd.bind (fun c => c.redo s8a)

/-- C8 after the subsequent `undo()`. -/
def s8Undo : Option Sheets := s8Redo.bind (fun s1 => s8Cmd.bind (fun c => c.undo s1))

/-- C5's start state: point rows 0–4, link `L1` referencing `{1, 2, 3}`. -/
def s5 : Sheets :=
  { pointTable := { cols := 7, rows :=
      [pointRow 0 [], pointRow 1 (lit "L1"), pointRow 2 (lit "L1"),
       pointRow 3 (lit "L1"), pointRow 4 []] },
    linkTable := { cols := 3, rows :=
      [linkRow (lit "ground") (lit "White") [],
       linkRow (lit "L1") (lit "Red") (lit "Point1,Point2,Point3")] } }

/-- C5, literal composition: `push(FixSequenceNumber(L1 row, benchmark 2))`. -/
def c5sA : Option Sheets :=
  (fixSeqRedo 1 2 s5.linkTable).map (fun lk => { s5 with linkTable := lk })

/-- then `push(DeleteTable(2, point table, is_rename))`. -/
def c5sB : Option Sheets :=
  c5sA.map (fun s => { s with pointTable := deleteTableRedo 2 true s.pointTable })

/-- then `undo()` of the deletion. -/
def c5sC : Option Sheets :=
  c5sB.map (fun s => { s with pointTable := deleteTableUndo 2 true s.pointTable })

/-- then `undo()` of the renumbering. -/
def c5sD : Option Sheets :=
  c5sC.bind (fun s => (fixSeqUndo 1 2 s.linkTable).map (fun lk => { s with linkTable := lk }))

/-- The point-clearing edit the UI's delete flow pushes first. -/
def clearArgs : PointArgs := ⟨[], lit "R", lit "Red", lit "0", lit "0"⟩

/-- C5 amended flow: the command clearing point 2's links. -/
def c5eCmd : Option EditPointCmd := mkEditPoint 2 clearArgs s5

/-- C5 amended flow, pushes: clear, renumber, delete. -/
def c5t1 : Option Sheets := c5eCmd.bind (fun c => c.redo s5)

/-- Renumber after the clear. -/
def c5t2 : Option Sheets :=
  c5t1.bind (fun s => (fixSeqRedo 1 2 s.linkTable).map (fun lk => { s with linkTable := lk }))

/-- Delete after the renumber. -/
def c5t3 : Option Sheets :=
  c5t2.map (fun s => { s with pointTable := deleteTableRedo 2 true s.pointTable })

/-- C5 amended flow, undos in stack order. -/
def c5u1 : Option Sheets :=
  c5t3.map (fun s => { s with pointTable := deleteTableUndo 2 true s.pointTable })

/-- Undo of the renumbering. -/
def c5u2 : Option Sheets :=
  c5u1.bind (fun s => (fixSeqUndo 1 2 s.linkTable).map (fun lk => { s with linkTable := lk }))

/-- Undo of the clearing edit. -/
def c5u3 : Option Sheets := c5u2.bind (fun s => c5eCmd.bind (fun c => c.undo s))

/-- C6's scenario state: link row 1 `L1` with point 3, point 3 references
`L1`. -/
def s6 : Sheets :=
  { pointTable := { cols := 7, rows :=
      [pointRow 0 [], pointRow 1 [], pointRow 2 [], pointRow 3 (lit "L1")] },
    linkTable := { cols := 3, rows :=
      [linkRow (lit "ground") (lit "White") [],
       linkRow (lit "L1") (lit "Blue") (lit "Point3")] } }

/-- C6's rename command `L1 → L2`. -/
def c6Cmd : Option EditLinkCmd := mkEditLink 1 ⟨lit "L2", lit "Blue", lit "Point3"⟩ s6

/-- C6 scenario after push. -/
def c6Redo : Option Sheets := c6Cmd.bind (fun c => c.redo s6)

/-- C6 scenario after undo. -/
def c6Undo : Option Sheets := c6Redo.bind (fun s1 => c6Cmd.bind (fun c => c.undo s1))

/-- C6 counterexample state: point 0 belongs to both `L1` and `L10`;
the invariant holds. -/
def s6b : Sheets :=
  { pointTable := { cols := 7, rows := [pointRow 0 (lit "L1,L10")] },
    linkTable := { cols := 3, rows :=
      [linkRow (lit "ground") (lit "White") [],
       linkRow (lit "L1") (lit "Blue") (lit "Point0"),
       linkRow (lit "L10") (lit "Red") (lit "Point0")] } }

/-- Renaming `L1 → L2` on the counterexample state. -/
def c6bCmd : Option EditLinkCmd := mkEditLink 1 ⟨lit "L2", lit "Blue", lit "Point0"⟩ s6b

/-- The C6 counterexample state after push. -/
def c6bRedo : Option Sheets := c6bCmd.bind (fun c => c.redo s6b)

/-- C2 counterexample (FixSequenceNumber): a link row referencing exactly
the benchmark index. -/
def tFix : Table := { cols := 3, rows := [linkRow (lit "L1") (lit "Red") (lit "Point2")] }

/-- C2 counterexample (DeleteTable with rename): two canonical point rows. -/
def tDel : Table := { cols := 7, rows := [pointRow 0 [], pointRow 1 []] }

/-- C2 counterexample (EditPointTable): a point whose Current column is not
derived from its X/Y columns (as after a simulation). -/
def sCur : Sheets :=
  { pointTable := { cols := 7, rows :=
      [[some (pointName 0), some [], some (lit "R"), some (lit "Red"), some (lit "0"),
        some (lit "0"), some (lit "(9.0, 9.0)")]] },
    linkTable := { cols := 3, rows := [linkRow (lit "ground") (lit "White") []] } }

/-- An identity-shaped edit of that point (same five argument columns). -/
def cCurCmd : Option EditPointCmd :=
  mkEditPoint 0 ⟨[], lit "R", lit "Red", lit "0", lit "0"⟩ sCur

/-- The C2 EditPointTable counterexample after apply and revert. -/
def cCurRT : Option Sheets :=
  (cCurCmd.bind (fun c => c.redo sCur)).bind (fun s1 => cCurCmd.bind (fun c => c.undo s1))

/-- C2 counterexample (EditPointTable link fields): `L1` holds points 0 and
1 in that order; removing point 0 and undoing reorders the field. -/
def sRe : Sheets :=
  { pointTable := { cols := 7, rows := [pointRow 0 (lit "L1"), pointRow 1 (lit "L1")] },
    linkTable := { cols := 3, rows :=
      [linkRow (lit "ground") (lit "White") [],
       linkRow (lit "L1") (lit "Red") (lit "Point0,Point1")] } }

/-- Removing point 0 from `L1`. -/
def cReCmd : Option EditPointCmd := mkEditPoint 0 clearArgs sRe

/-- The C2 link-field counterexample after apply and revert. -/
def cReRT : Option Sheets :=
  (cReCmd.bind (fun c => c.redo sRe)).bind (fun s1 => cReCmd.bind (fun c => c.undo s1))

/-- A three-entry path state `[A, B, C]`. -/
def pstate : PathState :=
  { widget := [pathItemText (lit "A") [[(1, 1)]], pathItemText (lit "B") [[(2, 2)]],
               pathItemText (lit "C") [[(3, 3)]]],
    data := [(lit "A", [[(1, 1)]]), (lit "B", [[(2, 2)]]), (lit "C", [[(3, 3)]])] }

/-- `DeletePath(1)` — deleting `B`, which is not the last row. -/
def dpCmd : Option DeletePathCmd := mkDeletePath 1 pstate

/-- The state after `push(DeletePath(1))`. -/
def dp1 : Option PathState := dpCmd.bind (fun c => c.redo pstate)

/-- After the subsequent `undo()`. -/
def dp2 : Option PathState := dp1.bind (fun s => dpCmd.map (fun c => c.undo s))

/-- After the subsequent `redo()`. -/
def dp3 : Option PathState := dp2.bind (fun s => dpCmd.bind (fun c => c.redo s))

/-- C9 concrete state: point 0 claims membership of `L1`, but `L1`'s points
field does not contain `Point0` — the §3 invariant is already broken. -/
def s9bad : Sheets :=
  { pointTable := { cols := 7, rows := [pointRow 0 (lit "L1")] },
    linkTable := { cols := 3, rows :=
      [linkRow (lit "ground") (lit "White") [],
       linkRow (lit "L1") (lit "Red") []] } }

/-- The edit that must remove `Point0` from `L1`'s points field. -/
def c9Cmd : Option EditPointCmd := mkEditPoint 0 clearArgs s9bad

/-- Witness state for the edit-command laws: point 0 belongs to `L2`; moving
it to `L1` gains row 1 and loses row 2. -/
def sW : Sheets :=
  { pointTable := { cols := 7, rows := [pointRow 0 (lit "L2")] },
    linkTable := { cols := 3, rows :=
      [linkRow (lit "ground") (lit "White") [],
       linkRow (lit "L1") (lit "Blue") [],
       linkRow (lit "L2") (lit "Green") (lit "Point0")] } }

/-- The new point tuple of the witness edit: move point 0 onto `L1`. -/
def argsW : PointArgs := ⟨lit "L1", lit "R", lit "Red", lit "0", lit "0"⟩

/-- The captured command of the witness edit, written out. -/
def cW : EditPointCmd :=
  { row := 0, args := argsW,
    oldArgs := ⟨lit "L2", lit "R", lit "Red", lit "0", lit "0"⟩,
    newLinkItems := [1], oldLinkItems := [2] }

/-- The witness `EditLinkTable` edit: recolour `L2` and clear its points
(no rename), losing point row 0. -/
def argsLW : LinkArgs := ⟨lit "L2", lit "Red", lit ""⟩

/-- The captured link command of the witness edit, written out. -/
def cLW : EditLinkCmd :=
  { row := 2, args := argsLW,
    oldArgs := ⟨lit "L2", lit "Green", lit "Point0"⟩,
    newPointItems := [], oldPointItems := [0] }

/-- Witness data for the path-command laws. -/
def pwData : List (Str × PathData) := [(lit "A", [[(0, 0)]])]

/-- The captured `DeletePath` of the witness (last row, last key). -/
def dpW : DeletePathCmd :=
  { row := 1, oldItemText := lit "B: [0]", name := lit "B", oldPath := [[(1, 2)]] }

/-- Witness storage widget. -/
def swW : List SItem := [⟨lit "s0", lit "e0"⟩, ⟨lit "s1", lit "e1"⟩]

/-! ### Supporting lemmas about canonical reference fields -/

theorem joinComma_pointNames_ne_nil {ps : List Nat} (h : ps ≠ []) :
    joinComma (ps.map pointName) ≠ [] := by
  cases ps with
  | nil => exact absurd rfl h
  | cons p ps =>
    cases ps with
    | nil => simpa [joinComma, joinCh] using pointName_ne_nil p
    | cons q ps =>
      simp only [List.map_cons, joinComma, joinCh]
      intro hcontra
      rcases List.append_eq_nil.1 hcontra with ⟨h1, _⟩
      exact pointName_ne_nil p h1

theorem splitComma_joinComma_pointNames {ps : List Nat} (h : ps ≠ []) :
    splitComma (joinComma (ps.map pointName)) = ps.map pointName := by
  unfold splitComma joinComma
  exact splitCh_joinCh (by simpa using h)
    (fun t ht => by
      rcases List.mem_map.1 ht with ⟨p, _, rfl⟩
      exact comma_not_mem_pointName p)

theorem mapM_parsePointTok_pointNames (ps : List Nat) :
    (ps.map pointName).mapM parsePointTok = some ps := by
  induction ps with
  | nil => rfl
  | cons p ps ih =>
    rw [List.map_cons, List.mapM_cons, parsePointTok_pointName, ih]
    rfl

/-- Characters of Python's empty-pattern replacement come from the
replacement string or the source. -/
theorem mem_interReplace {new s : Str} {c : Char}
    (h : c ∈ interReplace new s) : c ∈ s ∨ c ∈ new := by
  induction s with
  | nil => exact Or.inr (by simpa [interReplace] using h)
  | cons d rest ih =>
    simp only [interReplace] at h
    rcases List.mem_append.1 h with h | h
    · exact Or.inr h
    · rcases List.mem_cons.1 h with h | h
      · exact Or.inl (List.mem_cons.2 (Or.inl h))
      · rcases ih h with h | h
        · exact Or.inl (List.mem_cons_of_mem _ h)
        · exact Or.inr h

/-- Characters of `pyReplace old new w` come from `w` or from `new`. -/
theorem mem_pyReplace {old new w : Str} {c : Char}
    (h : c ∈ pyReplace old new w) : c ∈ w ∨ c ∈ new := by
  unfold pyReplace at h
  by_cases hold : old = []
  · rw [if_pos hold] at h
    exact mem_interReplace h
  · rw [if_neg hold] at h
    exact mem_replaceNE h

/-- Replacing the pattern by itself in the pattern alone yields the
replacement: `pyReplace old new old = new` for non-empty `old`. -/
theorem pyReplace_self {old new : Str} (h : old ≠ []) :
    pyReplace old new old = new := by
  unfold pyReplace
  rw [if_neg h]
  have := @replaceNE_consume old new [] h
  simpa [replaceNE_nil] using this

/-- The well-formedness the spec asks of written fields: the empty string,
or a comma-join with no empty part — equivalently no leading, trailing or
doubled comma. -/
def wellJoined (s : Str) : Prop := s = [] ∨ ∀ t ∈ splitComma s, t ≠ []

/-- Joining the non-empty members of any list of comma-free strings yields a
well-joined field. -/
theorem wellJoined_join_noEmpty (l : List Str) (h : ∀ t ∈ l, ',' ∉ t) :
    wellJoined (joinComma (noEmpty l)) := by
  by_cases hne : noEmpty l = []
  · left
    rw [hne]
    rfl
  · right
    have hfree : ∀ t ∈ noEmpty l, ',' ∉ t :=
      fun t ht => h t (List.mem_of_mem_filter ht)
    have : splitComma (joinComma (noEmpty l)) = noEmpty l := splitCh_joinCh hne hfree
    rw [this]
    intro t ht
    have := List.mem_filter.1 ht
    simpa using this.2

/-! ### Cell-level lemmas about the table model -/

theorem Table.item_eq_some_iff {t : Table} {r c : Nat} {f : Str} :
    t.item r c = some f ↔ ∃ row, t.rows[r]? = some row ∧ row[c]? = some (some f) := by
  unfold Table.item
  cases hrow : t.rows[r]? with
  | none => simp
  | some row =>
    simp only [Option.some.injEq]
    constructor
    · intro h
      exact ⟨row, rfl, Option.join_eq_some.1 h⟩
    · rintro ⟨row', hrow', hc⟩
      obtain rfl : row = row' := hrow'
      rw [hc]
      rfl

theorem Table.item_setItem_self {t : Table} {r c : Nat} {s f : Str}
    (h : t.item r c = some f) : (t.setItem r c s).item r c = some s := by
  rcases Table.item_eq_some_iff.1 h with ⟨row, hrow, hc⟩
  have hr : r < t.rows.length := (List.getElem?_eq_some.1 hrow).1
  have hcl : c < row.length := (List.getElem?_eq_some.1 hc).1
  apply Table.item_eq_some_iff.2
  refine ⟨row.set c (some s), ?_, ?_⟩
  · simp only [Table.setItem, hrow]
    exact List.getElem?_set_eq_of_lt _ hr
  · exact List.getElem?_set_eq_of_lt _ hcl

theorem Table.item_setItem_other {t : Table} {r c r' c' : Nat} {s : Str}
    (h : r' ≠ r ∨ c' ≠ c) : (t.setItem r c s).item r' c' = t.item r' c' := by
  unfold Table.setItem
  cases hrow : t.rows[r]? with
  | none => rfl
  | some row =>
    unfold Table.item
    simp only
    rcases h with h | h
    · rw [List.getElem?_set_ne (fun hx => h hx.symm)]
    · by_cases hr : r' = r
      · subst hr
        have hrlen : r' < t.rows.length := (List.getElem?_eq_some.1 hrow).1
        rw [List.getElem?_set_eq_of_lt _ hrlen, hrow]
        simp only [List.getElem?_set_ne (fun hx => h hx.symm)]
      · rw [List.getElem?_set_ne (fun hx => hr hx.symm)]

theorem Table.rowCount_setItem (t : Table) (r c : Nat) (s : Str) :
    (t.setItem r c s).rowCount = t.rowCount := by
  unfold Table.setItem Table.rowCount
  cases hrow : t.rows[r]? <;> simp

theorem Table.cols_setItem (t : Table) (r c : Nat) (s : Str) :
    (t.setItem r c s).cols = t.cols := by
  unfold Table.setItem
  cases hrow : t.rows[r]? <;> simp

theorem list_set_self {α : Type} : ∀ {l : List α} {r : Nat} {a : α},
    l[r]? = some a → l.set r a = l := by
  intro l
  induction l with
  | nil => intro r a h; simp at h
  | cons x xs ih =>
    intro r a h
    cases r with
    | zero =>
      simp only [List.getElem?_cons_zero, Option.some.injEq] at h
      simp [h]
    | succ r =>
      simp only [List.getElem?_cons_succ] at h
      simp [ih h]

/-- Writing a cell with the value it already holds changes nothing. -/
theorem Table.setItem_eq_self {t : Table} {r c : Nat} {f : Str}
    (h : t.item r c = some f) : t.setItem r c f = t := by
  rcases Table.item_eq_some_iff.1 h with ⟨row, hrow, hc⟩
  unfold Table.setItem
  simp only [hrow]
  have hrw : row.set c (some f) = row := list_set_self hc
  rw [hrw, list_set_self hrow]

/-- Two writes to the same cell collapse to the second. -/
theorem Table.setItem_setItem {t : Table} {r c : Nat} {a b : Str} {f : Str}
    (h : t.item r c = some f) :
    (t.setItem r c a).setItem r c b = t.setItem r c b := by
  rcases Table.item_eq_some_iff.1 h with ⟨row, hrow, hcell⟩
  unfold Table.setItem
  have hr : r < t.rows.length := (List.getElem?_eq_some.1 hrow).1
  simp only [hrow, List.getElem?_set_eq_of_lt _ hr]
  simp [List.set_set]

theorem Table.rowCount_insertRow (t : Table) (r : Nat) :
    (t.insertRow r).rowCount = t.rowCount + 1 := by
  unfold Table.insertRow Table.rowCount
  simp only [List.length_append, List.length_take, List.length_drop,
    List.length_singleton]
  omega

/-! ### A generic description of the per-row Option folds

`EditPointTable.__write_rows` and `EditLinkTable.__write_rows` iterate a
read-transform-write step over a list of row indices, all touching one
fixed column.  The fold is characterised once, generically in the
transformation `G`. -/

/-- The shape shared by `appendPointAt`, `removePointAt`, `appendLinkAt` and
`removeLinkAt`: read the cell, transform (possibly failing), write back. -/
def rowStep (col : Nat) (G : Str → Option Str) (t : Table) (r : Nat) : Option Table :=
  (t.item r col).bind (fun f => (G f).map (fun v => t.setItem r col v))

theorem appendPointAt_eq_rowStep (pname : Str) :
    appendPointAt pname = fun link r =>
      rowStep 2 (fun f => some (joinComma (noEmpty (splitComma f ++ [pname])))) link r := by
  funext link r
  simp [appendPointAt, rowStep, Option.bind_eq_bind]

theorem removePointAt_eq_rowStep (pname : Str) :
    removePointAt pname = fun link r =>
      rowStep 2 (fun f => (pyRemove (splitComma f) pname).map
        (fun pts => joinComma (noEmpty pts))) link r := by
  funext link r
  simp only [removePointAt, rowStep, Option.bind_eq_bind, Option.pure_def]
  cases link.item r 2 with
  | none => rfl
  | some f =>
    simp only [Option.some_bind]
    cases pyRemove (splitComma f) pname <;> rfl

theorem appendLinkAt_eq_rowStep (name : Str) :
    appendLinkAt name = fun pt r =>
      rowStep 1 (fun f => some (joinComma (noEmpty (splitComma f ++ [name])))) pt r := by
  funext pt r
  simp [appendLinkAt, rowStep, Option.bind_eq_bind]

theorem removeLinkAt_eq_rowStep (name : Str) :
    removeLinkAt name = fun pt r =>
      rowStep 1 (fun f =>
        (if name = [] then some (splitComma f) else pyRemove (splitComma f) name).map
          (fun lks => joinComma (noEmpty lks))) pt r := by
  funext pt r
  simp only [removeLinkAt, rowStep, Option.bind_eq_bind, Option.pure_def]
  cases pt.item r 1 with
  | none => rfl
  | some f =>
    simp only [Option.some_bind]
    by_cases hname : name = []
    · simp [hname]
    · simp only [if_neg hname]
      cases pyRemove (splitComma f) name <;> rfl

/-- Characterisation of a fold of `rowStep` over distinct row indices:
it succeeds exactly on the described cells, transforms each listed row's
column once, and leaves everything else unchanged. -/
theorem foldlM_rowStep {col : Nat} {G : Str → Option Str} :
    ∀ (items : List Nat), items.Nodup →
      ∀ (t : Table), (∀ r ∈ items, ∃ f v, t.item r col = some f ∧ G f = some v) →
      ∃ t', items.foldlM (rowStep col G) t = some t'
        ∧ (∀ r ∈ items, ∃ f v, t.item r col = some f ∧ G f = some v ∧ t'.item r col = some v)
        ∧ (∀ r, r ∉ items → t'.item r col = t.item r col)
        ∧ (∀ r c', c' ≠ col → t'.item r c' = t.item r c')
        ∧ t'.rowCount = t.rowCount ∧ t'.cols = t.cols := by
  intro items
  induction items with
  | nil =>
    intro _ t _
    exact ⟨t, rfl, by simp, fun r _ => rfl, fun r c' _ => rfl, rfl, rfl⟩
  | cons r0 rs ih =>
    intro hnd t hsucc
    rcases hsucc r0 (List.mem_cons_self r0 rs) with ⟨f0, v0, hf0, hv0⟩
    have hstep : rowStep col G t r0 = some (t.setItem r0 col v0) := by
      simp [rowStep, hf0, hv0]
    have hnd' : rs.Nodup := (List.nodup_cons.1 hnd).2
    have hr0 : r0 ∉ rs := (List.nodup_cons.1 hnd).1
    have hsucc' : ∀ r ∈ rs, ∃ f v, (t.setItem r0 col v0).item r col = some f ∧ G f = some v := by
      intro r hr
      have hne : r ≠ r0 := fun h => hr0 (h ▸ hr)
      rw [Table.item_setItem_other (Or.inl hne)]
      exact hsucc r (List.mem_cons_of_mem _ hr)
    rcases ih hnd' (t.setItem r0 col v0) hsucc' with ⟨t', hfold, hlisted, hout, hocol, hrc, hcols⟩
    refine ⟨t', ?_, ?_, ?_, ?_, ?_, ?_⟩
    · rw [List.foldlM_cons, hstep]
      exact hfold
    · intro r hr
      rcases List.mem_cons.1 hr with rfl | hr
      · refine ⟨f0, v0, hf0, hv0, ?_⟩
        rw [hout r hr0]
        exact Table.item_setItem_self hf0
      · rcases hlisted r hr with ⟨f, v, hf, hv, hv'⟩
        have hne : r ≠ r0 := fun h => hr0 (h ▸ hr)
        rw [Table.item_setItem_other (Or.inl hne)] at hf
        exact ⟨f, v, hf, hv, hv'⟩
    · intro r hr
      have hne : r ≠ r0 := fun h => hr (h ▸ List.mem_cons_self r0 rs)
      rw [hout r (fun hmem => hr (List.mem_cons_of_mem _ hmem)),
        Table.item_setItem_other (Or.inl hne)]
    · intro r c' hc'
      rw [hocol r c' hc', Table.item_setItem_other (Or.inr hc')]
    · rw [hrc, Table.rowCount_setItem]
    · rw [hcols, Table.cols_setItem]

/-! ### Token views of reference fields

`tokensOf f` is the list of non-empty comma-separated parts of a field —
exactly what `get_links`/`get_points` iterate. -/

/-- The non-empty parts of a comma-joined field. -/
def tokensOf (f : Str) : List Str := noEmpty (splitComma f)

theorem tokensOf_sub_split {f : Str} : ∀ t ∈ tokensOf f, t ∈ splitComma f :=
  fun t ht => List.mem_of_mem_filter ht

theorem tokensOf_ne_nil {f t : Str} (h : t ∈ tokensOf f) : t ≠ [] := by
  have := (List.mem_filter.1 h).2
  simpa using this

theorem tokensOf_comma_free {f : Str} : ∀ t ∈ tokensOf f, ',' ∉ t :=
  fun t ht => not_mem_of_mem_splitCh (tokensOf_sub_split t ht)

/-- For a well-joined field, joining its tokens reproduces it exactly. -/
theorem joinComma_tokensOf {f : Str} (h : wellJoined f) :
    joinComma (tokensOf f) = f := by
  rcases h with h | h
  · subst h
    rfl
  · unfold tokensOf noEmpty
    rw [List.filter_eq_self.2 (fun t ht => by simpa using h t ht)]
    exact joinCh_splitCh ',' f

/-- Splitting the join of non-empty comma-free tokens gives them back, and
they are their own `tokensOf`. -/
theorem tokensOf_joinComma {l : List Str} (hne : l ≠ [])
    (hnil : ∀ t ∈ l, t ≠ []) (hfree : ∀ t ∈ l, ',' ∉ t) :
    splitComma (joinComma l) = l ∧ tokensOf (joinComma l) = l := by
  have hs : splitComma (joinComma l) = l := splitCh_joinCh hne hfree
  refine ⟨hs, ?_⟩
  unfold tokensOf noEmpty
  rw [hs, List.filter_eq_self.2 (fun t ht => by simpa using hnil t ht)]

/-- The field written after appending a name to the parts. -/
def appendWrite (f P : Str) : Str := joinComma (noEmpty (splitComma f ++ [P]))

/-- The field written after removing a name from the parts. -/
def removeWrite (f P : Str) : Str := joinComma (noEmpty ((splitComma f).erase P))

theorem tokensOf_appendWrite {f P : Str} (hP : P ≠ []) (hfree : ',' ∉ P) :
    splitComma (appendWrite f P) = tokensOf f ++ [P]
    ∧ tokensOf (appendWrite f P) = tokensOf f ++ [P] := by
  have hfilter : noEmpty (splitComma f ++ [P]) = tokensOf f ++ [P] := by
    unfold noEmpty tokensOf
    rw [List.filter_append]
    congr 1
    simp [hP]
  unfold appendWrite
  rw [hfilter]
  exact tokensOf_joinComma (by simp)
    (fun t ht => by
      rcases List.mem_append.1 ht with h | h
      · exact tokensOf_ne_nil h
      · simpa using (List.mem_singleton.1 h) ▸ hP)
    (fun t ht => by
      rcases List.mem_append.1 ht with h | h
      · exact tokensOf_comma_free t h
      · rw [List.mem_singleton.1 h]; exact hfree)

theorem noEmpty_erase {P : Str} (hP : P ≠ []) :
    ∀ (l : List Str), noEmpty (l.erase P) = (noEmpty l).erase P := by
  intro l
  induction l with
  | nil => rfl
  | cons t ts ih =>
    by_cases ht : t = P
    · subst ht
      have l2 : noEmpty (t :: ts) = t :: noEmpty ts := by simp [noEmpty, hP]
      rw [List.erase_cons_head, l2, List.erase_cons_head]
    · rw [List.erase_cons_tail (by simp [ht])]
      by_cases hemp : t = []
      · subst hemp
        have l1 : noEmpty ([] :: ts.erase P) = noEmpty (ts.erase P) := by simp [noEmpty]
        have l2 : noEmpty (([] : Str) :: ts) = noEmpty ts := by simp [noEmpty]
        rw [l1, l2, ih]
      · have l1 : noEmpty (t :: ts.erase P) = t :: noEmpty (ts.erase P) := by
          simp [noEmpty, hemp]
        have l2 : noEmpty (t :: ts) = t :: noEmpty ts := by simp [noEmpty, hemp]
        rw [l1, l2, List.erase_cons_tail (by simp [ht]), ih]

theorem tokensOf_removeWrite {f P : Str} (hP : P ≠ []) :
    tokensOf (removeWrite f P) = (tokensOf f).erase P := by
  have hcomm : noEmpty ((splitComma f).erase P) = (tokensOf f).erase P :=
    noEmpty_erase hP (splitComma f)
  unfold removeWrite
  rw [hcomm]
  by_cases hnil : (tokensOf f).erase P = []
  · rw [hnil]
    rfl
  · exact (tokensOf_joinComma hnil
      (fun t ht => tokensOf_ne_nil (List.mem_of_mem_erase ht))
      (fun t ht => tokensOf_comma_free t (List.mem_of_mem_erase ht))).2

/-- Apply-then-revert on a gained row is byte-exact: appending a fresh name
and removing it again reproduces the original well-joined field. -/
theorem removeWrite_appendWrite {f P : Str} (hw : wellJoined f)
    (hmem : P ∉ splitComma f) (hP : P ≠ []) (hfree : ',' ∉ P) :
    P ∈ splitComma (appendWrite f P)
    ∧ removeWrite (appendWrite f P) P = f := by
  rcases tokensOf_appendWrite (f := f) hP hfree with ⟨hsplit, _⟩
  have hmem' : P ∈ splitComma (appendWrite f P) := by
    rw [hsplit]; simp
  refine ⟨hmem', ?_⟩
  unfold removeWrite
  rw [hsplit]
  have hnot : P ∉ tokensOf f := fun h => hmem (tokensOf_sub_split P h)
  rw [List.erase_append_right _ hnot, List.erase_cons_head, List.append_nil]
  have : noEmpty (tokensOf f) = tokensOf f :=
    List.filter_eq_self.2 (fun t ht => by simpa using tokensOf_ne_nil ht)
  rw [this]
  exact joinComma_tokensOf hw

/-- Revert-then-apply on a lost row: removing a once-occurring name and
appending it again permutes the tokens (the name moves to the end). -/
theorem appendWrite_removeWrite {f P : Str} (hP : P ≠ []) (hfree : ',' ∉ P) :
    tokensOf (appendWrite (removeWrite f P) P) = (tokensOf f).erase P ++ [P] := by
  rcases tokensOf_appendWrite (f := removeWrite f P) hP hfree with ⟨_, htok⟩
  rw [htok, tokensOf_removeWrite hP]

/-- Full characterisation of `EditPointTable.__write_rows` over distinct,
disjoint row index lists: each gained row's points field becomes
`appendWrite`, each lost row's becomes `removeWrite`, everything else is
untouched. -/
theorem epWriteRows_spec (pname : Str) (items1 items2 : List Nat) (link : Table)
    (hnd1 : items1.Nodup) (hnd2 : items2.Nodup)
    (hdisj : ∀ r ∈ items2, r ∉ items1)
    (h1 : ∀ r ∈ items1, ∃ f, link.item r 2 = some f)
    (h2 : ∀ r ∈ items2, ∃ f, link.item r 2 = some f ∧ pname ∈ splitComma f) :
    ∃ link', epWriteRows pname items1 items2 link = some link'
      ∧ (∀ r ∈ items1, ∃ f, link.item r 2 = some f
          ∧ link'.item r 2 = some (appendWrite f pname))
      ∧ (∀ r ∈ items2, ∃ f, link.item r 2 = some f ∧ pname ∈ splitComma f
          ∧ link'.item r 2 = some (removeWrite f pname))
      ∧ (∀ r, r ∉ items1 → r ∉ items2 → link'.item r 2 = link.item r 2)
      ∧ (∀ r c', c' ≠ 2 → link'.item r c' = link.item r c')
      ∧ link'.rowCount = link.rowCount ∧ link'.cols = link.cols := by
  have hsucc1 : ∀ r ∈ items1, ∃ f v, link.item r 2 = some f
      ∧ (fun f => some (joinComma (noEmpty (splitComma f ++ [pname])))) f = some v := by
    intro r hr
    rcases h1 r hr with ⟨f, hf⟩
    exact ⟨f, appendWrite f pname, hf, rfl⟩
  rcases foldlM_rowStep items1 hnd1 link hsucc1 with
    ⟨t1, hf1, hl1, hout1, hcol1, hrc1, hcols1⟩
  have hsucc2 : ∀ r ∈ items2, ∃ f v, t1.item r 2 = some f
      ∧ (fun f => (pyRemove (splitComma f) pname).map
          (fun pts => joinComma (noEmpty pts))) f = some v := by
    intro r hr
    rcases h2 r hr with ⟨f, hf, hmem⟩
    refine ⟨f, removeWrite f pname, ?_, ?_⟩
    · rw [hout1 r (hdisj r hr)]
      exact hf
    · simp only [pyRemove, if_pos hmem, Option.map_some']
      rfl
  rcases foldlM_rowStep items2 hnd2 t1 hsucc2 with
    ⟨t2, hf2, hl2, hout2, hcol2, hrc2, hcols2⟩
  refine ⟨t2, ?_, ?_, ?_, ?_, ?_, ?_, ?_⟩
  · unfold epWriteRows
    rw [appendPointAt_eq_rowStep, removePointAt_eq_rowStep]
    simp only [Option.bind_eq_bind]
    rw [hf1, Option.some_bind]
    exact hf2
  · intro r hr
    rcases hl1 r hr with ⟨f, v, hf, hv, hv'⟩
    refine ⟨f, hf, ?_⟩
    have hnot2 : r ∉ items2 := fun hr2 => hdisj r hr2 hr
    rw [hout2 r hnot2, hv']
    injection hv with hv
    rw [← hv]
    rfl
  · intro r hr
    rcases hl2 r hr with ⟨f', v', hf', hv', hv''⟩
    rcases h2 r hr with ⟨f, hf, hmem⟩
    have hsame : f' = f := by
      rw [hout1 r (hdisj r hr), hf] at hf'
      injection hf' with hx
      exact hx.symm
    subst hsame
    refine ⟨f', hf, hmem, ?_⟩
    simp only [pyRemove, if_pos hmem, Option.map_some'] at hv'
    rw [hv'']
    injection hv' with hv'
    rw [← hv']
    rfl
  · intro r hr1 hr2
    rw [hout2 r hr2, hout1 r hr1]
  · intro r c' hc'
    rw [hcol2 r c' hc', hcol1 r c' hc']
  · rw [hrc2, hrc1]
  · rw [hcols2, hcols1]

/-- The same characterisation for `EditLinkTable.__write_rows` with a
non-empty link name, acting on the point table's Links column. -/
theorem elWriteRows_spec (name : Str) (hname : name ≠ [])
    (items1 items2 : List Nat) (pt : Table)
    (hnd1 : items1.Nodup) (hnd2 : items2.Nodup)
    (hdisj : ∀ r ∈ items2, r ∉ items1)
    (h1 : ∀ r ∈ items1, ∃ f, pt.item r 1 = some f)
    (h2 : ∀ r ∈ items2, ∃ f, pt.item r 1 = some f ∧ name ∈ splitComma f) :
    ∃ pt', elWriteRows name items1 items2 pt = some pt'
      ∧ (∀ r ∈ items1, ∃ f, pt.item r 1 = some f
          ∧ pt'.item r 1 = some (appendWrite f name))
      ∧ (∀ r ∈ items2, ∃ f, pt.item r 1 = some f ∧ name ∈ splitComma f
          ∧ pt'.item r 1 = some (removeWrite f name))
      ∧ (∀ r, r ∉ items1 → r ∉ items2 → pt'.item r 1 = pt.item r 1)
      ∧ (∀ r c', c' ≠ 1 → pt'.item r c' = pt.item r c')
      ∧ pt'.rowCount = pt.rowCount ∧ pt'.cols = pt.cols := by
  have hsucc1 : ∀ r ∈ items1, ∃ f v, pt.item r 1 = some f
      ∧ (fun f => some (joinComma (noEmpty (splitComma f ++ [name])))) f = some v := by
    intro r hr
    rcases h1 r hr with ⟨f, hf⟩
    exact ⟨f, appendWrite f name, hf, rfl⟩
  rcases foldlM_rowStep items1 hnd1 pt hsucc1 with
    ⟨t1, hf1, hl1, hout1, hcol1, hrc1, hcols1⟩
  have hsucc2 : ∀ r ∈ items2, ∃ f v, t1.item r 1 = some f
      ∧ (fun f => (if name = [] then some (splitComma f) else pyRemove (splitComma f) name).map
          (fun lks => joinComma (noEmpty lks))) f = some v := by
    intro r hr
    rcases h2 r hr with ⟨f, hf, hmem⟩
    refine ⟨f, removeWrite f name, ?_, ?_⟩
    · rw [hout1 r (hdisj r hr)]
      exact hf
    · simp only [if_neg hname, pyRemove, if_pos hmem, Option.map_some']
      rfl
  rcases foldlM_rowStep items2 hnd2 t1 hsucc2 with
    ⟨t2, hf2, hl2, hout2, hcol2, hrc2, hcols2⟩
  refine ⟨t2, ?_, ?_, ?_, ?_, ?_, ?_, ?_⟩
  · unfold elWriteRows
    rw [appendLinkAt_eq_rowStep, removeLinkAt_eq_rowStep]
    simp only [Option.bind_eq_bind]
    rw [hf1, Option.some_bind]
    exact hf2
  · intro r hr
    rcases hl1 r hr with ⟨f, v, hf, hv, hv'⟩
    refine ⟨f, hf, ?_⟩
    have hnot2 : r ∉ items2 := fun hr2 => hdisj r hr2 hr
    rw [hout2 r hnot2, hv']
    injection hv with hv
    rw [← hv]
    rfl
  · intro r hr
    rcases hl2 r hr with ⟨f', v', hf', hv', hv''⟩
    rcases h2 r hr with ⟨f, hf, hmem⟩
    have hsame : f' = f := by
      rw [hout1 r (hdisj r hr), hf] at hf'
      injection hf' with hx
      exact hx.symm
    subst hsame
    refine ⟨f', hf, hmem, ?_⟩
    simp only [if_neg hname, pyRemove, if_pos hmem, Option.map_some'] at hv'
    rw [hv'']
    injection hv' with hv'
    rw [← hv']
    rfl
  · intro r hr1 hr2
    rw [hout2 r hr2, hout1 r hr1]
  · intro r c' hc'
    rw [hcol2 r c' hc', hcol1 r c' hc']
  · rw [hrc2, hrc1]
  · rw [hcols2, hcols1]

theorem Table.setItem_rows {t : Table} {r : Nat} {rw : List (Option Str)} {c : Nat} {s : Str}
    (h : t.rows[r]? = some rw) :
    (t.setItem r c s).rows = t.rows.set r (rw.set c (some s)) := by
  unfold Table.setItem
  simp only [h]

/-- The row list of `edit_point`: all seven cells of the edited row are
overwritten in sequence. -/
theorem editPoint_rows {pt : Table} {row : Nat} {rw : List (Option Str)}
    (h : pt.rows[row]? = some rw) (links typ color x y : Str) :
    (editPoint pt row links typ color x y).rows =
      pt.rows.set row
        (((((((rw.set 0 (some (pointName row))).set 1 (some links)).set 2 (some typ)).set 3
            (some color)).set 4 (some x)).set 5 (some y)).set 6
          (some (currentText x y))) := by
  have hlen : row < pt.rows.length := (List.getElem?_eq_some.1 h).1
  unfold editPoint
  have s0 := Table.setItem_rows (c := 0) (s := pointName row) h
  have h0 : (pt.setItem row 0 (pointName row)).rows[row]? =
      some (rw.set 0 (some (pointName row))) := by
    rw [s0]
    exact List.getElem?_set_eq_of_lt _ (by simpa using hlen)
  have s1 := Table.setItem_rows (c := 1) (s := links) h0
  have h1 : ((pt.setItem row 0 (pointName row)).setItem row 1 links).rows[row]? =
      some ((rw.set 0 (some (pointName row))).set 1 (some links)) := by
    rw [s1]
    exact List.getElem?_set_eq_of_lt _ (by simp [s0, hlen])
  have s2 := Table.setItem_rows (c := 2) (s := typ) h1
  have h2 : (((pt.setItem row 0 (pointName row)).setItem row 1 links).setItem row 2 typ).rows[row]? =
      some (((rw.set 0 (some (pointName row))).set 1 (some links)).set 2 (some typ)) := by
    rw [s2]
    exact List.getElem?_set_eq_of_lt _ (by simp [s1, s0, hlen])
  have s3 := Table.setItem_rows (c := 3) (s := color) h2
  have h3 : ((((pt.setItem row 0 (pointName row)).setItem row 1 links).setItem row 2
      typ).setItem row 3 color).rows[row]? =
      some ((((rw.set 0 (some (pointName row))).set 1 (some links)).set 2 (some typ)).set 3
        (some color)) := by
    rw [s3]
    exact List.getElem?_set_eq_of_lt _ (by simp [s2, s1, s0, hlen])
  have s4 := Table.setItem_rows (c := 4) (s := x) h3
  have h4 : (((((pt.setItem row 0 (pointName row)).setItem row 1 links).setItem row 2
      typ).setItem row 3 color).setItem row 4 x).rows[row]? =
      some (((((rw.set 0 (some (pointName row))).set 1 (some links)).set 2 (some typ)).set 3
        (some color)).set 4 (some x)) := by
    rw [s4]
    exact List.getElem?_set_eq_of_lt _ (by simp [s3, s2, s1, s0, hlen])
  have s5 := Table.setItem_rows (c := 5) (s := y) h4
  have h5 : ((((((pt.setItem row 0 (pointName row)).setItem row 1 links).setItem row 2
      typ).setItem row 3 color).setItem row 4 x).setItem row 5 y).rows[row]? =
      some ((((((rw.set 0 (some (pointName row))).set 1 (some links)).set 2 (some typ)).set 3
        (some color)).set 4 (some x)).set 5 (some y)) := by
    rw [s5]
    exact List.getElem?_set_eq_of_lt _ (by simp [s4, s3, s2, s1, s0, hlen])
  have s6 := Table.setItem_rows (c := 6) (s := currentText x y) h5
  rw [s6, s5, s4, s3, s2, s1, s0]
  simp [List.set_set]

/-- `edit_point` leaves every other row's cells unchanged. -/
theorem editPoint_item_other {pt : Table} {row q : Nat} (hq : q ≠ row)
    (links typ color x y : Str) (c : Nat) :
    (editPoint pt row links typ color x y).item q c = pt.item q c := by
  unfold editPoint
  rw [Table.item_setItem_other (Or.inl hq), Table.item_setItem_other (Or.inl hq),
    Table.item_setItem_other (Or.inl hq), Table.item_setItem_other (Or.inl hq),
    Table.item_setItem_other (Or.inl hq), Table.item_setItem_other (Or.inl hq),
    Table.item_setItem_other (Or.inl hq)]

theorem editPoint_rowCount (pt : Table) (row : Nat) (links typ color x y : Str) :
    (editPoint pt row links typ color x y).rowCount = pt.rowCount := by
  unfold editPoint
  simp [Table.rowCount_setItem]

theorem editPoint_cols (pt : Table) (row : Nat) (links typ color x y : Str) :
    (editPoint pt row links typ color x y).cols = pt.cols := by
  unfold editPoint
  simp [Table.cols_setItem]

/-- Reading back the edited row when the table is well-shaped with the
point table's seven columns. -/
theorem editPoint_item_self {pt : Table} {row : Nat} {rw : List (Option Str)}
    (h : pt.rows[row]? = some rw) (hlen : rw.length = 7)
    (links typ color x y : Str) :
    (editPoint pt row links typ color x y).item row 0 = some (pointName row)
    ∧ (editPoint pt row links typ color x y).item row 1 = some links
    ∧ (editPoint pt row links typ color x y).item row 2 = some typ
    ∧ (editPoint pt row links typ color x y).item row 3 = some color
    ∧ (editPoint pt row links typ color x y).item row 4 = some x
    ∧ (editPoint pt row links typ color x y).item row 5 = some y
    ∧ (editPoint pt row links typ color x y).item row 6 = some (currentText x y) := by
  have hrows := editPoint_rows h links typ color x y
  have hrlen : row < pt.rows.length := (List.getElem?_eq_some.1 h).1
  have hrow' : (editPoint pt row links typ color x y).rows[row]? =
      some (((((((rw.set 0 (some (pointName row))).set 1 (some links)).set 2 (some typ)).set 3
        (some color)).set 4 (some x)).set 5 (some y)).set 6 (some (currentText x y))) := by
    rw [hrows]
    exact List.getElem?_set_eq_of_lt _ (by simpa using hrlen)
  refine ⟨?_, ?_, ?_, ?_, ?_, ?_, ?_⟩ <;>
    · apply Table.item_eq_some_iff.2
      refine ⟨_, hrow', ?_⟩
      simp [List.getElem?_set, hlen]

/-- Composing two `edit_point`s on the same row collapses to the second. -/
theorem editPoint_editPoint {pt : Table} {row : Nat} {rw : List (Option Str)}
    (h : pt.rows[row]? = some rw)
    (l1 t1 c1 x1 y1 l2 t2 c2 x2 y2 : Str) :
    editPoint (editPoint pt row l1 t1 c1 x1 y1) row l2 t2 c2 x2 y2 =
      editPoint pt row l2 t2 c2 x2 y2 := by
  have hrlen : row < pt.rows.length := (List.getElem?_eq_some.1 h).1
  have hrows1 := editPoint_rows h l1 t1 c1 x1 y1
  have hrow1 : (editPoint pt row l1 t1 c1 x1 y1).rows[row]? =
      some (((((((rw.set 0 (some (pointName row))).set 1 (some l1)).set 2 (some t1)).set 3
        (some c1)).set 4 (some x1)).set 5 (some y1)).set 6 (some (currentText x1 y1))) := by
    rw [hrows1]
    exact List.getElem?_set_eq_of_lt _ (by simpa using hrlen)
  have hrows2 := editPoint_rows hrow1 l2 t2 c2 x2 y2
  have hrows3 := editPoint_rows h l2 t2 c2 x2 y2
  have hcols : (editPoint pt row l1 t1 c1 x1 y1).cols = pt.cols := editPoint_cols pt row _ _ _ _ _
  have hcols2 : (editPoint (editPoint pt row l1 t1 c1 x1 y1) row l2 t2 c2 x2 y2).cols = pt.cols := by
    rw [editPoint_cols, hcols]
  have hcols3 : (editPoint pt row l2 t2 c2 x2 y2).cols = pt.cols := editPoint_cols pt row _ _ _ _ _
  have hrweq :
      (((((((((((((rw.set 0 (some (pointName row))).set 1 (some l1)).set 2 (some t1)).set 3
        (some c1)).set 4 (some x1)).set 5 (some y1)).set 6 (some (currentText x1 y1))).set 0
        (some (pointName row))).set 1 (some l2)).set 2 (some t2)).set 3 (some c2)).set 4
        (some x2)).set 5 (some y2)).set 6 (some (currentText x2 y2)) =
      ((((((rw.set 0 (some (pointName row))).set 1 (some l2)).set 2 (some t2)).set 3
        (some c2)).set 4 (some x2)).set 5 (some y2)).set 6 (some (currentText x2 y2)) := by
    apply List.ext_getElem?
    intro i
    by_cases hi : i < 7
    · interval_cases i <;> simp [List.getElem?_set]
    · have h0 : i ≠ 0 := by omega
      have h1 : i ≠ 1 := by omega
      have h2 : i ≠ 2 := by omega
      have h3 : i ≠ 3 := by omega
      have h4 : i ≠ 4 := by omega
      have h5 : i ≠ 5 := by omega
      have h6 : i ≠ 6 := by omega
      simp [List.getElem?_set_ne (Ne.symm h0), List.getElem?_set_ne (Ne.symm h1),
        List.getElem?_set_ne (Ne.symm h2), List.getElem?_set_ne (Ne.symm h3),
        List.getElem?_set_ne (Ne.symm h4), List.getElem?_set_ne (Ne.symm h5),
        List.getElem?_set_ne (Ne.symm h6)]
  have : (editPoint (editPoint pt row l1 t1 c1 x1 y1) row l2 t2 c2 x2 y2).rows =
      (editPoint pt row l2 t2 c2 x2 y2).rows := by
    rw [hrows2, hrows3, hrows1]
    rw [List.set_set]
    rw [hrweq]
  cases heq1 : editPoint (editPoint pt row l1 t1 c1 x1 y1) row l2 t2 c2 x2 y2 with
  | mk cA rowsA =>
    cases heq2 : editPoint pt row l2 t2 c2 x2 y2 with
    | mk cB rowsB =>
      have hc : cA = cB := by
        have := hcols2
        rw [heq1] at this
        have h2 := hcols3
        rw [heq2] at h2
        simp only at this h2
        rw [this, h2]
      have hr : rowsA = rowsB := by
        have := this
        rw [heq1, heq2] at this
        simpa using this
      rw [hc, hr]

/-! ### Row-list algebra for the structural commands -/

/-- Every row list has exactly the column count of cells (true of the
tables the widgets build, and preserved by all operations). -/
def RowsWf (t : Table) : Prop := ∀ rw ∈ t.rows, rw.length = t.cols

instance (t : Table) : Decidable (RowsWf t) := by
  unfold RowsWf; infer_instance

theorem list_set_middle {α : Type} : ∀ (A : List α) (a b : α) (B : List α),
    (A ++ a :: B).set A.length b = A ++ b :: B := by
  intro A
  induction A with
  | nil => intro a b B; rfl
  | cons x xs ih => intro a b B; simp [ih]

theorem list_eraseIdx_middle {α : Type} : ∀ (A : List α) (a : α) (B : List α),
    (A ++ a :: B).eraseIdx A.length = A ++ B := by
  intro A
  induction A with
  | nil => intro a B; rfl
  | cons x xs ih => intro a B; simp [List.eraseIdx, ih]

theorem foldl_setItem_sameRow {r : Nat} {v : Str} :
    ∀ (cs : List Nat) (t : Table) (rw : List (Option Str)), t.rows[r]? = some rw →
      (cs.foldl (fun tb c => tb.setItem r c v) t).rows =
        t.rows.set r (cs.foldl (fun rww c => rww.set c (some v)) rw) := by
  intro cs
  induction cs with
  | nil =>
    intro t rw h
    simp [list_set_self h]
  | cons c cs ih =>
    intro t rw h
    have hr : r < t.rows.length := (List.getElem?_eq_some.1 h).1
    have hs := Table.setItem_rows (c := c) (s := v) h
    have h' : (t.setItem r c v).rows[r]? = some (rw.set c (some v)) := by
      rw [hs]
      exact List.getElem?_set_eq_of_lt _ (by simpa using hr)
    simp only [List.foldl_cons]
    rw [ih _ _ h', hs, List.set_set]

/-- Setting every column of a row of the right length fills it. -/
theorem fillRow_aux (v : Option Str) :
    ∀ (j : Nat) (rowl : List (Option Str)), j ≤ rowl.length →
      (List.range j).foldl (fun rw c => rw.set c v) rowl =
        List.replicate j v ++ rowl.drop j := by
  intro j
  induction j with
  | zero => intro rowl _; simp
  | succ j ih =>
    intro rowl hlen
    rw [List.range_succ, List.foldl_append]
    simp only [List.foldl_cons, List.foldl_nil]
    rw [ih rowl (by omega)]
    have hj : j < rowl.length := by omega
    rw [List.drop_eq_getElem_cons hj]
    have hrep : (List.replicate j v).length = j := List.length_replicate j v
    have hm := list_set_middle (List.replicate j v) (rowl[j]) v (rowl.drop (j + 1))
    rw [hrep] at hm
    rw [hm, List.replicate_succ' j v]
    simp

theorem fillRow (v : Option Str) (n : Nat) (rowl : List (Option Str))
    (hlen : rowl.length = n) :
    (List.range n).foldl (fun rw c => rw.set c v) rowl = List.replicate n v := by
  rw [fillRow_aux v n rowl (by omega)]
  simp [← hlen]

theorem Table.insertRow_rows (t : Table) (r : Nat) :
    (t.insertRow r).rows = t.rows.take r ++ List.replicate t.cols none :: t.rows.drop r := by
  unfold Table.insertRow
  simp

/-- C2's AddTable component: apply then revert is the identity, on any
table. -/
theorem addTable_roundtrip (t : Table) : addTableUndo (addTableRedo t) = t := by
  have hins : (t.insertRow t.rowCount).rows = t.rows ++ [List.replicate t.cols none] := by
    rw [Table.insertRow_rows]
    unfold Table.rowCount
    simp
  have hcell : (t.insertRow t.rowCount).rows[t.rowCount]? = some (List.replicate t.cols none) := by
    rw [hins]
    have : t.rowCount = t.rows.length := rfl
    rw [this]
    rw [List.getElem?_append_right (le_refl _)]
    simp
  have hfold := foldl_setItem_sameRow (r := t.rowCount) (v := [])
    (List.range t.rowCount) (t.insertRow t.rowCount) _ hcell
  unfold addTableRedo addTableUndo
  have hrows : ((List.range t.rowCount).foldl
      (fun tb c => tb.setItem t.rowCount c []) (t.insertRow t.rowCount)).rows =
      t.rows ++ [(List.range t.rowCount).foldl (fun rww c => rww.set c (some []))
        (List.replicate t.cols none)] := by
    rw [hfold, hins]
    exact list_set_middle t.rows (List.replicate t.cols none)
      ((List.range t.rowCount).foldl (fun rww c => rww.set c (some []))
        (List.replicate t.cols none)) []
  have hcols : ((List.range t.rowCount).foldl
      (fun tb c => tb.setItem t.rowCount c []) (t.insertRow t.rowCount)).cols = t.cols := by
    have : ∀ (cs : List Nat) (tb : Table),
        (cs.foldl (fun tb c => tb.setItem t.rowCount c []) tb).cols = tb.cols := by
      intro cs
      induction cs with
      | nil => intro tb; rfl
      | cons c cs ih => intro tb; rw [List.foldl_cons, ih, Table.cols_setItem]
    rw [this]
    rfl
  set t2 := (List.range t.rowCount).foldl
    (fun tb c => tb.setItem t.rowCount c []) (t.insertRow t.rowCount) with ht2
  have hrc : t2.rowCount = t.rowCount + 1 := by
    unfold Table.rowCount
    rw [hrows]
    simp
  unfold Table.removeRow
  rw [hrc]
  cases t with
  | mk tc trows =>
    simp only at hrows hcols ⊢
    have : t2.rows.eraseIdx (Table.rowCount { cols := tc, rows := trows } + 1 - 1) = trows := by
      rw [hrows]
      have : Table.rowCount { cols := tc, rows := trows } + 1 - 1 = trows.length := rfl
      rw [this, ← List.append_nil (trows ++ [_])]
      rw [List.append_assoc]
      have := list_eraseIdx_middle trows ((List.range (Table.rowCount { cols := tc, rows := trows })).foldl
        (fun rww c => rww.set c (some [])) (List.replicate tc none)) []
      simpa using this
    rw [hcols, this]

/-- C2's DeleteTable component (no rename): deleting a row whose items are
all empty strings — the documented precondition — and reverting restores
the table byte for byte. -/
theorem deleteTable_noRename_roundtrip (t : Table) (row : Nat)
    (hrow : t.rows[row]? = some (List.replicate t.cols (some []))) :
    deleteTableUndo row false (deleteTableRedo row false t) = t := by
  have hlt : row < t.rows.length := (List.getElem?_eq_some.1 hrow).1
  unfold deleteTableRedo deleteTableUndo
  simp only [if_neg (Bool.false_ne_true ∘ id), Bool.false_eq_true, if_false]
  set e := t.removeRow row with he
  have herows : e.rows = t.rows.take row ++ t.rows.drop (row + 1) := by
    rw [he]
    unfold Table.removeRow
    simp [List.eraseIdx_eq_take_drop_succ]
  have hecols : e.cols = t.cols := rfl
  have htake : (t.rows.take row).length = row := by
    simp [Nat.min_eq_left (by omega : row ≤ t.rows.length)]
  have hins : (e.insertRow row).rows =
      t.rows.take row ++ List.replicate t.cols none :: t.rows.drop (row + 1) := by
    rw [Table.insertRow_rows, herows, hecols]
    congr 1
    · have hx := List.take_left (t.rows.take row) (t.rows.drop (row + 1))
      rw [htake] at hx
      exact hx
    · congr 1
      have hx := List.drop_left (t.rows.take row) (t.rows.drop (row + 1))
      rw [htake] at hx
      exact hx
  have hcell : (e.insertRow row).rows[row]? = some (List.replicate t.cols none) := by
    rw [hins]
    rw [List.getElem?_append_right (le_of_eq htake)]
    simp [htake]
  have hfold := foldl_setItem_sameRow (r := row) (v := [])
    (List.range (e.insertRow row).cols) (e.insertRow row) _ hcell
  have hinscols : (e.insertRow row).cols = t.cols := by
    unfold Table.insertRow
    simpa using hecols
  have hrows2 : ((List.range (e.insertRow row).cols).foldl
      (fun tb c => tb.setItem row c []) (e.insertRow row)).rows = t.rows := by
    rw [hfold, hins]
    have hm := list_set_middle (t.rows.take row) (List.replicate t.cols none)
      ((List.range (e.insertRow row).cols).foldl (fun rww c => rww.set c (some []))
        (List.replicate t.cols none)) (t.rows.drop (row + 1))
    rw [htake] at hm
    rw [hm]
    rw [hinscols, fillRow (some []) t.cols _ (by simp)]
    conv_rhs => rw [← List.take_append_drop row t.rows]
    rw [List.drop_eq_getElem_cons hlt]
    congr 1
    congr 1
    have : t.rows[row] = List.replicate t.cols (some []) := by
      have := List.getElem?_eq_getElem hlt
      rw [hrow] at this
      injection this with hx
      exact hx.symm
    rw [this]
  have hcols2 : ((List.range (e.insertRow row).cols).foldl
      (fun tb c => tb.setItem row c []) (e.insertRow row)).cols = t.cols := by
    have hgen : ∀ (cs : List Nat) (tb : Table),
        (cs.foldl (fun tb c => tb.setItem row c []) tb).cols = tb.cols := by
      intro cs
      induction cs with
      | nil => intro tb; rfl
      | cons c cs ih => intro tb; rw [List.foldl_cons, ih, Table.cols_setItem]
    rw [hgen, hinscols]
  cases t with
  | mk tc trows =>
    simp only at hrows2 hcols2
    cases hfin : (List.range (e.insertRow row).cols).foldl
        (fun tb c => tb.setItem row c []) (e.insertRow row) with
    | mk fc frows =>
      rw [hfin] at hrows2 hcols2
      simp only at hrows2 hcols2
      rw [hrows2, hcols2]

/-! ### Claim theorems -/

/-- C8: starting from a ground-only link table and two points with empty
links fields, pushing `AddTable` on the link table adds a row 1 whose
columns all read as empty text; pushing
`EditLinkTable(1, ("L1", "Red", "Point0,Point1"))` makes both point 0's and
point 1's links fields contain `"L1"`, and the subsequent `undo()` removes
`"L1"` from both. -/
theorem c8_scenario :
    (addTableRedo s8.linkTable).rowCount = 2
  ∧ linkArgsOfRow (addTableRedo s8.linkTable) 1 = ⟨[], [], []⟩
  ∧ s8Redo.isSome
  ∧ (∀ s1 ∈ s8Redo, lit "L1" ∈ getLinks s1.pointTable 0 ∧ lit "L1" ∈ getLinks s1.pointTable 1)
  ∧ s8Undo.isSome
  ∧ (∀ s2 ∈ s8Undo, lit "L1" ∉ getLinks s2.pointTable 0 ∧ lit "L1" ∉ getLinks s2.pointTable 1) := by
  decide

/-- C5, counterexample: composing only `FixSequenceNumber` (benchmark 2 on
`L1`'s row) with the rename-enabled `DeleteTable` of point row 2 — as the
claim describes the operation — does leave `L1` referencing `{1, 2}`, but
the subsequent undo leaves `L1` referencing `{1, 3}`, not `{1, 2, 3}`:
renumbering a field that still references the benchmark index is not
reversible (`p ↦ p-1` for `p > 2` sends both 2 and 3 to the same name). -/
theorem c5_counterexample :
    c5sB.isSome
  ∧ (∀ s ∈ c5sB, (linkRefs s.linkTable 1).toFinset = ({1, 2} : Finset Nat))
  ∧ c5sD.isSome
  ∧ (∀ s ∈ c5sD, (linkRefs s.linkTable 1).toFinset = ({1, 3} : Finset Nat)
      ∧ (linkRefs s.linkTable 1).toFinset ≠ ({1, 2, 3} : Finset Nat)) := by
  decide

/-- C5, amended: when the deletion flow first clears point 2's links (the
`EditPointTable` push the UI issues before renumbering, which removes
`Point2` from `L1`'s points field), the delete leaves `L1` referencing
exactly `{1, 2}` and undoing the three commands restores exactly
`{1, 2, 3}`. -/
theorem c5_renumber_scenario :
    c5t3.isSome
  ∧ (∀ s ∈ c5t3, (linkRefs s.linkTable 1).toFinset = ({1, 2} : Finset Nat))
  ∧ c5u3.isSome
  ∧ (∀ s ∈ c5u3, (linkRefs s.linkTable 1).toFinset = ({1, 2, 3} : Finset Nat)) := by
  decide

/-- C6, counterexample: `__rename` replaces the old name as a *substring*
inside every comma-separated part, so a link name that merely contains the
old name is rewritten as well.  With point 0 a member of both `L1` and
`L10` (the invariant holds), renaming `L1 → L2` also corrupts the `L10`
reference into `L20` — not only the old name is rewritten. -/
theorem c6_counterexample :
    Invariant s6b
  ∧ c6bRedo.isSome
  ∧ (∀ s ∈ c6bRedo, lit "L10" ∉ getLinks s.pointTable 0
      ∧ lit "L20" ∈ getLinks s.pointTable 0) := by
  decide

/-- C7: `AddTable.redo` iterates `range(row)` — the previous row count —
instead of `range(columnCount())`, so on the initial one-row link table the
appended row gets an empty item only in column 0 while columns 1 and 2 are
left without items (reading them with `.text()` would crash); `undo`
removes the appended row exactly. -/
theorem c7_addtable_eval :
    (addTableRedo s8.linkTable).item 1 0 = some []
  ∧ (addTableRedo s8.linkTable).item 1 1 = none
  ∧ (addTableRedo s8.linkTable).item 1 2 = none
  ∧ addTableUndo (addTableRedo s8.linkTable) = s8.linkTable := by
  decide

/-- C1, counterexample: the invariant is not preserved after every push of
every stack command.  Pushing `FixSequenceNumber` alone on an
invariant-satisfying state breaks it (the link fields are renumbered while
the point table is not yet shifted), and pushing an `EditLinkTable` rename
on an invariant-satisfying state with substring-overlapping link names
(`L1`, `L10`) breaks it as well. -/
theorem c1_counterexample :
    (Invariant s5
      ∧ ∀ lk ∈ fixSeqRedo 1 2 s5.linkTable, ¬ Invariant { s5 with linkTable := lk })
  ∧ (Invariant s6b ∧ ∀ s ∈ c6bRedo, ¬ Invariant s) := by
  decide

/-- C3, counterexample: for `DeletePath` of a non-last row,
`push; undo; redo` does not reproduce the post-push state: `undo` appends
the kept item at the *end* of the list, and the second `redo` takes the
item at the originally captured row index, which now holds a different
entry ([A,B,C] → [A,C] → [A,C,B] → [A,B]). -/
theorem c3_counterexample :
    dp1.isSome
  ∧ dp3.isSome
  ∧ (∀ s1 ∈ dp1, ∀ s3 ∈ dp3, s3 ≠ s1 ∧ s3.widget ≠ s1.widget) := by
  decide

/-- C2, counterexample: `apply(); revert()` is not byte-exact for every
command.  (a) `FixSequenceNumber` over a field referencing the benchmark
turns `Point2` into `Point3`; (b) rename-enabled `DeleteTable` leaves the
row below the deleted one named `Point0` instead of `Point1`; (c)
`EditPointTable` rewrites the Current column from X/Y, losing
`"(9.0, 9.0)"`; (d) `EditPointTable` restores a link's points field with
the removed point name re-appended at the end, reordering
`Point0,Point1` into `Point1,Point0`; (e) `DeletePath` of a non-last row
moves the row to the end of the list. -/
theorem c2_counterexample :
    (∀ t ∈ (fixSeqRedo 0 2 tFix).bind (fixSeqUndo 0 2),
        t ≠ tFix ∧ t.item 0 2 = some (lit "Point3"))
  ∧ ((fixSeqRedo 0 2 tFix).bind (fixSeqUndo 0 2)).isSome
  ∧ deleteTableUndo 0 true (deleteTableRedo 0 true tDel) ≠ tDel
  ∧ (deleteTableUndo 0 true (deleteTableRedo 0 true tDel)).item 1 0 = some (pointName 0)
  ∧ cCurRT.isSome
  ∧ (∀ s ∈ cCurRT, s.pointTable.item 0 6 = some (lit "(0, 0)")
      ∧ s.pointTable.item 0 6 ≠ sCur.pointTable.item 0 6)
  ∧ cReRT.isSome
  ∧ (∀ s ∈ cReRT, s.linkTable.item 1 2 = some (lit "Point1,Point0")
      ∧ s.linkTable.item 1 2 ≠ sRe.linkTable.item 1 2)
  ∧ (∀ s1 ∈ dp1, ∀ s2 ∈ dp2, s2.widget ≠ pstate.widget ∧ s1.widget.length + 1 = s2.widget.length) := by
  decide

/-- Computation of both `FixSequenceNumber` directions on a canonical
points field. -/
theorem fixSeq_spec (t : Table) (r B : Nat) (ps : List Nat)
    (hitem : t.item r 2 = some (joinComma (ps.map pointName))) (hne : ps ≠ []) :
    fixSeqRedo r B t =
      some (t.setItem r 2 (joinComma ((ps.map (fun p => if B < p then p - 1 else p)).map pointName)))
    ∧ fixSeqUndo r B t =
      some (t.setItem r 2 (joinComma ((ps.map (fun p => if B ≤ p then p + 1 else p)).map pointName))) := by
  have hnil : joinComma (ps.map pointName) ≠ [] := joinComma_pointNames_ne_nil hne
  have hsplit : splitComma (joinComma (ps.map pointName)) = ps.map pointName :=
    splitComma_joinComma_pointNames hne
  constructor
  · unfold fixSeqRedo fixSeqSorting
    rw [hitem]
    simp only [Option.bind_eq_bind, Option.some_bind, Option.pure_def]
    rw [if_neg hnil, hsplit, mapM_parsePointTok_pointNames]
    simp only [Option.bind_eq_bind, Option.some_bind]
    simp [List.map_map]
  · unfold fixSeqUndo fixSeqSorting
    rw [hitem]
    simp only [Option.bind_eq_bind, Option.some_bind, Option.pure_def]
    rw [if_neg hnil, hsplit, mapM_parsePointTok_pointNames]
    simp only [Option.bind_eq_bind, Option.some_bind]
    simp [List.map_map]

/-- Both `FixSequenceNumber` directions are no-ops on an empty field. -/
theorem fixSeq_empty (t : Table) (r B : Nat) (hitem : t.item r 2 = some []) :
    fixSeqRedo r B t = some t ∧ fixSeqUndo r B t = some t := by
  constructor
  · simp [fixSeqRedo, fixSeqSorting, hitem]
  · simp [fixSeqUndo, fixSeqSorting, hitem]

/-- Apply-then-revert of `FixSequenceNumber` restores the table exactly
when the canonical field does not reference the benchmark. -/
theorem fixSeq_roundtrip (t : Table) (r B : Nat) (ps : List Nat)
    (hitem : t.item r 2 = some (joinComma (ps.map pointName)))
    (hne : ps ≠ []) (hB : B ∉ ps) :
    (fixSeqRedo r B t).bind (fixSeqUndo r B) = some t := by
  rcases fixSeq_spec t r B ps hitem hne with ⟨hredo, _⟩
  have hitem1 : (t.setItem r 2
      (joinComma ((ps.map (fun p => if B < p then p - 1 else p)).map pointName))).item r 2 =
      some (joinComma ((ps.map (fun p => if B < p then p - 1 else p)).map pointName)) :=
    Table.item_setItem_self hitem
  rcases fixSeq_spec _ r B (ps.map (fun p => if B < p then p - 1 else p)) hitem1
    (by simpa using hne) with ⟨_, hundo⟩
  rw [hredo, Option.some_bind, hundo]
  rw [Table.setItem_setItem hitem]
  have hps : (ps.map (fun p => if B < p then p - 1 else p)).map
      (fun p => if B ≤ p then p + 1 else p) = ps := by
    rw [List.map_map]
    have : ∀ p ∈ ps, ((fun p => if B ≤ p then p + 1 else p) ∘
        (fun p => if B < p then p - 1 else p)) p = id p := by
      intro p hp
      have hpB : p ≠ B := fun h => hB (h ▸ hp)
      simp only [Function.comp_apply, id_eq]
      split <;> split <;> omega
    rw [List.map_congr_left this, List.map_id]
  rw [hps, Table.setItem_eq_self hitem]

/-- Re-applying after revert reproduces the first application exactly
(`shift ∘ unshift ∘ shift = shift`, even on benchmark references). -/
theorem fixSeq_triple (t : Table) (r B : Nat) (ps : List Nat)
    (hitem : t.item r 2 = some (joinComma (ps.map pointName))) (hne : ps ≠ []) :
    (fixSeqRedo r B t).bind (fun t1 => (fixSeqUndo r B t1).bind (fixSeqRedo r B)) =
      fixSeqRedo r B t := by
  rcases fixSeq_spec t r B ps hitem hne with ⟨hredo, _⟩
  set ps1 := ps.map (fun p => if B < p then p - 1 else p) with hps1
  have hitem1 : (t.setItem r 2 (joinComma (ps1.map pointName))).item r 2 =
      some (joinComma (ps1.map pointName)) := Table.item_setItem_self hitem
  rcases fixSeq_spec _ r B ps1 hitem1 (by simp [hps1, hne]) with ⟨_, hundo⟩
  set ps2 := ps1.map (fun p => if B ≤ p then p + 1 else p) with hps2
  rw [hredo, Option.some_bind, hundo, Option.some_bind]
  rw [Table.setItem_setItem hitem]
  have hitem2 : (t.setItem r 2 (joinComma (ps2.map pointName))).item r 2 =
      some (joinComma (ps2.map pointName)) := Table.item_setItem_self hitem
  rcases fixSeq_spec _ r B ps2 hitem2 (by simp [hps2, hps1, hne]) with ⟨hredo2, _⟩
  rw [hredo2, Table.setItem_setItem hitem]
  have hps : ps2.map (fun p => if B < p then p - 1 else p) = ps1 := by
    rw [hps2, List.map_map]
    have hid : ∀ q ∈ ps1, ((fun p => if B < p then p - 1 else p) ∘
        (fun p => if B ≤ p then p + 1 else p)) q = id q := by
      intro q _
      by_cases h : B ≤ q
      · simp only [Function.comp_apply, if_pos h, id_eq]
        rw [if_pos (by omega)]
        omega
      · simp only [Function.comp_apply, if_neg h, id_eq]
        rw [if_neg (by omega)]
    rw [List.map_congr_left hid, List.map_id]
  rw [hps]

/-- C4: on a link row whose points field canonically encodes the reference
list `ps`, `FixSequenceNumber`'s apply decrements every referenced index
strictly greater than the benchmark and leaves the others unchanged, and
its revert increments every index greater than or equal to the benchmark;
when the field is the empty string both directions return the state
unchanged. -/
theorem c4_fix_sequence_number :
    (∀ (t : Table) (r B : Nat) (ps : List Nat),
       t.item r 2 = some (joinComma (ps.map pointName)) → ps ≠ [] →
       fixSeqRedo r B t =
         some (t.setItem r 2 (joinComma ((ps.map (fun p => if B < p then p - 1 else p)).map pointName)))
       ∧ fixSeqUndo r B t =
         some (t.setItem r 2 (joinComma ((ps.map (fun p => if B ≤ p then p + 1 else p)).map pointName))))
  ∧ (∀ (t : Table) (r B : Nat), t.item r 2 = some [] →
       fixSeqRedo r B t = some t ∧ fixSeqUndo r B t = some t) :=
  ⟨fun t r B ps hitem hne => fixSeq_spec t r B ps hitem hne,
   fun t r B hitem => fixSeq_empty t r B hitem⟩

/-- Witness for C4 at a concrete row: renumbering `Point2` against
benchmark 1 yields `Point1`, and the reverse direction yields `Point3`. -/
theorem c4_witness :
    fixSeqRedo 0 1 tFix =
      some (tFix.setItem 0 2 (joinComma ((([2] : List Nat).map
        (fun p => if 1 < p then p - 1 else p)).map pointName)))
    ∧ fixSeqUndo 0 1 tFix =
      some (tFix.setItem 0 2 (joinComma ((([2] : List Nat).map
        (fun p => if 1 ≤ p then p + 1 else p)).map pointName))) :=
  c4_fix_sequence_number.1 tFix 0 1 [2] (by decide) (by decide)

/-- C9: when a membership patch cannot resolve, the operation raises
instead of completing silently.  (a) `EditPointTable`'s removal step fails
(`list.remove` raises `ValueError`) whenever the point's name is not among
the link row's comma-separated parts; (b) `EditLinkTable`'s removal step
fails likewise for any non-empty link name absent from the point's parts;
(c) concretely, on a state whose §3 invariant is already broken (point 0
claims membership of `L1`, `L1`'s points field is empty), the whole
`EditPointTable.redo` returns the error. -/
theorem c9_patch_error_surfaces :
    (∀ (link : Table) (r : Nat) (f pname : Str),
       link.item r 2 = some f → pname ∉ splitComma f → removePointAt pname link r = none)
  ∧ (∀ (pt : Table) (r : Nat) (f name : Str),
       pt.item r 1 = some f → name ≠ [] → name ∉ splitComma f → removeLinkAt name pt r = none)
  ∧ (c9Cmd.isSome ∧ ∀ c ∈ c9Cmd, c.redo s9bad = none) := by
  refine ⟨?_, ?_, by decide⟩
  · intro link r f pname hitem hmem
    simp [removePointAt, hitem, pyRemove, hmem]
  · intro pt r f name hitem hname hmem
    simp [removeLinkAt, hitem, pyRemove, hname, hmem]

/-- Witness for C9: removing `Point0` from a row whose points field is
`Point2` errors. -/
theorem c9_witness : removePointAt (pointName 0) tFix 0 = none :=
  c9_patch_error_surfaces.1 tFix 0 (lit "Point2") (pointName 0) (by decide) (by decide)

/-- C10: every links/points field written by the membership-patching and
rename steps (`__set_cell` in both edit commands, and `__rename`'s write) is
a comma-join of non-empty parts — for every input field value, including
values containing empty parts, and every patch whose name carries no comma,
the written string has no leading, trailing or doubled commas.  Each
conjunct names the written value and asserts it well-joined. -/
theorem c10_no_empty_tokens :
    (∀ (pname : Str) (link : Table) (r : Nat) (f : Str),
       link.item r 2 = some f → ',' ∉ pname →
       appendPointAt pname link r =
         some (link.setItem r 2 (joinComma (noEmpty (splitComma f ++ [pname]))))
       ∧ wellJoined (joinComma (noEmpty (splitComma f ++ [pname]))))
  ∧ (∀ (pname : Str) (link : Table) (r : Nat) (f : Str),
       link.item r 2 = some f → pname ∈ splitComma f →
       removePointAt pname link r =
         some (link.setItem r 2 (joinComma (noEmpty ((splitComma f).erase pname))))
       ∧ wellJoined (joinComma (noEmpty ((splitComma f).erase pname))))
  ∧ (∀ (name : Str) (pt : Table) (r : Nat) (f : Str),
       pt.item r 1 = some f → ',' ∉ name →
       appendLinkAt name pt r =
         some (pt.setItem r 1 (joinComma (noEmpty (splitComma f ++ [name]))))
       ∧ wellJoined (joinComma (noEmpty (splitComma f ++ [name]))))
  ∧ (∀ (pt : Table) (r : Nat) (f : Str),
       pt.item r 1 = some f →
       removeLinkAt [] pt r = some (pt.setItem r 1 (joinComma (noEmpty (splitComma f))))
       ∧ wellJoined (joinComma (noEmpty (splitComma f))))
  ∧ (∀ (name : Str) (pt : Table) (r : Nat) (f : Str),
       pt.item r 1 = some f → name ≠ [] → name ∈ splitComma f →
       removeLinkAt name pt r =
         some (pt.setItem r 1 (joinComma (noEmpty ((splitComma f).erase name))))
       ∧ wellJoined (joinComma (noEmpty ((splitComma f).erase name))))
  ∧ (∀ (oldN newN : Str) (pt : Table) (tok : Str) (r : Nat) (f : Str),
       parsePointTok tok = some r → pt.item r 1 = some f → ',' ∉ newN →
       renamePointRow oldN newN pt tok =
         some (pt.setItem r 1 (joinComma (noEmpty ((splitComma f).map (pyReplace oldN newN)))))
       ∧ wellJoined (joinComma (noEmpty ((splitComma f).map (pyReplace oldN newN))))) := by
  have hsplitfree : ∀ (f t : Str), t ∈ splitComma f → ',' ∉ t :=
    fun f t ht => not_mem_of_mem_splitCh ht
  refine ⟨?_, ?_, ?_, ?_, ?_, ?_⟩
  · intro pname link r f hitem hfree
    refine ⟨by simp [appendPointAt, hitem], ?_⟩
    refine wellJoined_join_noEmpty _ (fun t ht => ?_)
    rcases List.mem_append.1 ht with h | h
    · exact hsplitfree f t h
    · simp only [List.mem_singleton] at h
      exact h ▸ hfree
  · intro pname link r f hitem hmem
    refine ⟨by simp [removePointAt, hitem, pyRemove, hmem], ?_⟩
    exact wellJoined_join_noEmpty _
      (fun t ht => hsplitfree f t (List.erase_subset _ _ ht))
  · intro name pt r f hitem hfree
    refine ⟨by simp [appendLinkAt, hitem], ?_⟩
    refine wellJoined_join_noEmpty _ (fun t ht => ?_)
    rcases List.mem_append.1 ht with h | h
    · exact hsplitfree f t h
    · simp only [List.mem_singleton] at h
      exact h ▸ hfree
  · intro pt r f hitem
    refine ⟨by simp [removeLinkAt, hitem], ?_⟩
    exact wellJoined_join_noEmpty _ (fun t ht => hsplitfree f t ht)
  · intro name pt r f hitem hname hmem
    refine ⟨by simp [removeLinkAt, hitem, pyRemove, hname, hmem], ?_⟩
    exact wellJoined_join_noEmpty _
      (fun t ht => hsplitfree f t (List.erase_subset _ _ ht))
  · intro oldN newN pt tok r f htok hitem hfree
    refine ⟨by simp [renamePointRow, htok, hitem], ?_⟩
    refine wellJoined_join_noEmpty _ (fun t ht => ?_)
    rcases List.mem_map.1 ht with ⟨w, hw, rfl⟩
    intro hc
    rcases mem_pyReplace hc with h | h
    · exact hsplitfree f w hw h
    · exact hfree h

/-- C6, amended: when `EditLinkTable` changes a link's name, the rename
step rewrites, inside the links field of every point of the link's
pre-rename point set, every substring occurrence of the old name by the new
name — so a point that referenced the old name carries the new name
afterwards (proved generally for the per-point rename step), but names
merely containing the old name are rewritten as well (the counterexample).
Concretely, editing link row 1 from `L1` to `L2` while point row 3
references `L1` results in point row 3 referencing exactly `L2`, and undo
restores exactly `L1`. -/
theorem c6_rename_propagation :
    (∀ (oldN newN : Str) (pt : Table) (tok : Str) (r : Nat) (f : Str),
       parsePointTok tok = some r → pt.item r 1 = some f →
       oldN ∈ noEmpty (splitComma f) → newN ≠ [] → ',' ∉ newN →
       ∀ t', renamePointRow oldN newN pt tok = some t' → newN ∈ getLinks t' r)
  ∧ (c6Redo.isSome
     ∧ (∀ s1 ∈ c6Redo, getLinks s1.pointTable 3 = [lit "L2"])
     ∧ c6Undo.isSome
     ∧ (∀ s2 ∈ c6Undo, getLinks s2.pointTable 3 = [lit "L1"])) := by
  refine ⟨?_, by decide⟩
  intro oldN newN pt tok r f htok hitem hold hnew hfree t' hren
  have ht' : t' = pt.setItem r 1
      (joinComma (noEmpty ((splitComma f).map (pyReplace oldN newN)))) := by
    have := hren
    simp only [renamePointRow, htok, hitem, Option.bind_eq_bind, Option.some_bind,
      Option.pure_def, Option.some.injEq] at this
    exact this.symm
  subst ht'
  have hitem' := Table.item_setItem_self
    (s := joinComma (noEmpty ((splitComma f).map (pyReplace oldN newN)))) hitem
  simp only [getLinks, hitem']
  have holdne : oldN ≠ [] := by
    have := (List.mem_filter.1 hold).2
    simpa using this
  have holdmem : oldN ∈ splitComma f := List.mem_of_mem_filter hold
  have hmapped : newN ∈ (splitComma f).map (pyReplace oldN newN) :=
    List.mem_map.2 ⟨oldN, holdmem, pyReplace_self holdne⟩
  have hmemNE : newN ∈ noEmpty ((splitComma f).map (pyReplace oldN newN)) :=
    List.mem_filter.2 ⟨hmapped, by simpa using hnew⟩
  have hfreeAll : ∀ u ∈ noEmpty ((splitComma f).map (pyReplace oldN newN)), ',' ∉ u := by
    intro u hu hc
    rcases List.mem_map.1 (List.mem_of_mem_filter hu) with ⟨w, hw, rfl⟩
    rcases mem_pyReplace hc with h | h
    · exact not_mem_of_mem_splitCh hw h
    · exact hfree h
  have hne' : noEmpty ((splitComma f).map (pyReplace oldN newN)) ≠ [] := by
    intro hnil
    rw [hnil] at hmemNE
    exact absurd hmemNE (List.not_mem_nil _)
  have hsplit : splitComma (joinComma (noEmpty ((splitComma f).map (pyReplace oldN newN)))) =
      noEmpty ((splitComma f).map (pyReplace oldN newN)) :=
    splitCh_joinCh hne' hfreeAll
  rw [hsplit]
  exact List.mem_filter.2 ⟨hmemNE, by simpa using hnew⟩

/-- Witness for C6's general conjunct: renaming `L1 → L2` at point row 3 of
the scenario table puts `L2` into the rewritten links field. -/
theorem c6_witness :
    lit "L2" ∈ getLinks
      (Table.setItem s6.pointTable 3 1
        (joinComma (noEmpty ((splitComma (lit "L1")).map (pyReplace (lit "L1") (lit "L2")))))) 3 :=
  c6_rename_propagation.1 (lit "L1") (lit "L2") s6.pointTable (lit "Point3") 3 (lit "L1")
    (by decide) (by decide) (by decide) (by decide) (by decide)
    (Table.setItem s6.pointTable 3 1
      (joinComma (noEmpty ((splitComma (lit "L1")).map (pyReplace (lit "L1") (lit "L2"))))))
    (by decide)

/-- Witness for C10: appending `Point0` to the field `Point2` writes
`Point2,Point0`, a well-joined field. -/
theorem c10_witness :
    appendPointAt (pointName 0) tFix 0 =
      some (tFix.setItem 0 2 (joinComma (noEmpty (splitComma (lit "Point2") ++ [pointName 0]))))
    ∧ wellJoined (joinComma (noEmpty (splitComma (lit "Point2") ++ [pointName 0]))) :=
  c10_no_empty_tokens.1 (pointName 0) tFix 0 (lit "Point2") (by decide) (by decide)

/-! ### Characterisation of the command constructors -/

/-- A successful `Option` `mapM` computes pointwise. -/
theorem mapM_option_forall2 {α β : Type} (f : α → Option β) :
    ∀ (l : List α) (ys : List β), l.mapM f = some ys →
      List.Forall₂ (fun x y => f x = some y) l ys := by
  intro l
  induction l with
  | nil =>
    intro ys h
    simp only [List.mapM_nil, Option.pure_def, Option.some.injEq] at h
    rw [← h]
    exact List.Forall₂.nil
  | cons x xs ih =>
    intro ys h
    rw [List.mapM_cons] at h
    cases hfx : f x with
    | none =>
      rw [hfx] at h
      simp at h
    | some y =>
      rw [hfx] at h
      cases hxs : xs.mapM f with
      | none =>
        rw [hxs] at h
        simp at h
      | some ys' =>
        rw [hxs] at h
        simp only [Option.bind_eq_bind, Option.some_bind, Option.pure_def,
          Option.some.injEq] at h
        rw [← h]
        exact List.Forall₂.cons hfx (ih ys' hxs)

/-- Reading every link name with `mapM` over the row range fixes the length
of the result and each of its entries. -/
theorem mapM_range_item_spec {n : Nat} {t : Table} {names : List Str}
    (h : (List.range n).mapM (fun r => t.item r 0) = some names) :
    names.length = n ∧ ∀ r, r < n → t.item r 0 = names[r]? := by
  have hf := mapM_option_forall2 (fun r => t.item r 0) (List.range n) names h
  rw [List.forall₂_iff_get] at hf
  obtain ⟨hlen, hget⟩ := hf
  have hlen' : names.length = n := by simpa using hlen.symm
  refine ⟨hlen', fun r hr => ?_⟩
  have hin : r < names.length := by omega
  have hg := hget r (by simpa using hr) (by omega)
  simp only [List.get_eq_getElem, List.getElem_range] at hg
  rw [hg, List.getElem?_eq_getElem hin]

/-- Membership in the row/name pair list built by `EditPointTable.__init__`. -/
theorem mem_zip_range {n : Nat} {names : List Str} (hlen : names.length = n)
    (p : Nat × Str) :
    p ∈ (List.range n).zip names ↔ p.1 < n ∧ names[p.1]? = some p.2 := by
  constructor
  · intro hp
    rcases List.mem_iff_getElem.1 hp with ⟨i, hi, hget⟩
    have hilt : i < n := by
      rw [List.length_zip, List.length_range, hlen] at hi
      simpa using hi
    have hin : i < names.length := by omega
    have hzip : ((List.range n).zip names)[i] = (i, names[i]) := by
      rw [List.getElem_zip]
      congr 1
      exact List.getElem_range i _
    rw [hzip] at hget
    subst hget
    exact ⟨hilt, List.getElem?_eq_getElem hin⟩
  · rintro ⟨hlt, hname⟩
    apply List.mem_iff_getElem.2
    have hin : p.1 < names.length := by omega
    have hrl : p.1 < (List.range n).length := by simpa using hlt
    refine ⟨p.1, ?_, ?_⟩
    · rw [List.length_zip, List.length_range, hlen]
      simpa using hlt
    · rw [List.getElem_zip]
      have hv : names[p.1] = p.2 := by
        have h2 := List.getElem?_eq_getElem (l := names) (n := p.1) hin
        rw [hname] at h2
        injection h2 with hx
        exact hx.symm
      have hr : (List.range n)[p.1] = p.1 := List.getElem_range p.1 _
      rw [hv, hr]

/-- Python `in` on a list of strings. -/
theorem contains_iff_mem {l : List Str} {a : Str} : l.contains a = true ↔ a ∈ l := by
  simp

/-- Everything `mkEditPoint` records: the captured row, tuples, and the
gained/lost link-row index lists — distinct, disjoint, and containing
exactly the rows whose name is in the new-minus-old (resp. old-minus-new)
raw part sets. -/
theorem mkEditPoint_spec {row : Nat} {args : PointArgs} {s : Sheets} {c : EditPointCmd}
    (hmk : mkEditPoint row args s = some c) :
    c.row = row ∧ c.args = args ∧ c.oldArgs = pointArgsOfRow s.pointTable row
    ∧ c.newLinkItems.Nodup ∧ c.oldLinkItems.Nodup
    ∧ (∀ r ∈ c.oldLinkItems, r ∉ c.newLinkItems)
    ∧ (∀ r, r ∈ c.newLinkItems ↔ r < s.linkTable.rowCount ∧ ∃ nm,
         s.linkTable.item r 0 = some nm ∧ nm ∈ splitComma args.links
         ∧ nm ∉ splitComma (pointArgsOfRow s.pointTable row).links)
    ∧ (∀ r, r ∈ c.oldLinkItems ↔ r < s.linkTable.rowCount ∧ ∃ nm,
         s.linkTable.item r 0 = some nm
         ∧ nm ∈ splitComma (pointArgsOfRow s.pointTable row).links
         ∧ nm ∉ splitComma args.links)
    ∧ (∀ r, r < s.linkTable.rowCount → ∃ nm, s.linkTable.item r 0 = some nm) := by
  unfold mkEditPoint at hmk
  cases hnames : (List.range s.linkTable.rowCount).mapM (fun r => s.linkTable.item r 0) with
  | none =>
    rw [hnames] at hmk
    simp at hmk
  | some names =>
    rw [hnames] at hmk
    simp only [Option.bind_eq_bind, Option.some_bind, Option.pure_def,
      Option.some.injEq] at hmk
    obtain ⟨hlen, hitem⟩ := mapM_range_item_spec hnames
    set n := s.linkTable.rowCount with hn
    set newL := splitComma args.links with hnewL
    set oldL := splitComma (pointArgsOfRow s.pointTable row).links with holdL
    set pairs := (List.range n).zip names with hpairs
    have hfst : pairs.map Prod.fst = List.range n :=
      List.map_fst_zip _ _ (by simp [hlen])
    have hnodup : ∀ (Q : Nat × Str → Bool), ((pairs.filter Q).map Prod.fst).Nodup := by
      intro Q
      have hsub : ((pairs.filter Q).map Prod.fst).Sublist (pairs.map Prod.fst) :=
        (List.filter_sublist pairs).map Prod.fst
      rw [hfst] at hsub
      exact hsub.nodup (List.nodup_range n)
    have hmemQ : ∀ (Q : Nat × Str → Bool) (r : Nat),
        r ∈ (pairs.filter Q).map Prod.fst ↔
          r < n ∧ ∃ nm, names[r]? = some nm ∧ Q (r, nm) = true := by
      intro Q r
      constructor
      · intro hr
        obtain ⟨⟨r', nm⟩, hp, hp1⟩ := List.mem_map.1 hr
        simp only at hp1
        subst hp1
        rcases List.mem_filter.1 hp with ⟨hpmem, hpQ⟩
        rcases (mem_zip_range hlen (r', nm)).1 hpmem with ⟨hlt, hname⟩
        exact ⟨hlt, nm, hname, hpQ⟩
      · rintro ⟨hlt, nm, hname, hQ⟩
        apply List.mem_map.2
        exact ⟨(r, nm),
          List.mem_filter.2 ⟨(mem_zip_range hlen (r, nm)).2 ⟨hlt, hname⟩, hQ⟩, rfl⟩
    have hitem_iff : ∀ r nm, r < n →
        (s.linkTable.item r 0 = some nm ↔ names[r]? = some nm) := by
      intro r nm hr
      have he : (s.linkTable.item r 0 = some nm) = (names[r]? = some nm) := by
        rw [hitem r hr]
      exact he.to_iff
    have hc1 : c.newLinkItems = (pairs.filter
        (fun rc => newL.contains rc.2 && !(oldL.contains rc.2))).map Prod.fst := by
      rw [← hmk]
    have hc2 : c.oldLinkItems = (pairs.filter
        (fun rc => oldL.contains rc.2 && !(newL.contains rc.2))).map Prod.fst := by
      rw [← hmk]
    have hQsplit : ∀ (A B : List Str) (nm : Str),
        (A.contains nm && !(B.contains nm)) = true ↔ nm ∈ A ∧ nm ∉ B := by
      intro A B nm
      constructor
      · intro hQ
        simp only [Bool.and_eq_true, Bool.not_eq_true'] at hQ
        refine ⟨contains_iff_mem.1 hQ.1, fun hmem => ?_⟩
        have hc := contains_iff_mem.2 hmem
        rw [hQ.2] at hc
        exact Bool.false_ne_true hc
      · rintro ⟨hin, hout⟩
        simp only [Bool.and_eq_true, Bool.not_eq_true']
        refine ⟨contains_iff_mem.2 hin, ?_⟩
        have : ¬ (B.contains nm = true) := fun hc => hout (contains_iff_mem.1 hc)
        exact Bool.eq_false_iff.2 this
    have hmem1 : ∀ r, r ∈ c.newLinkItems ↔ r < n ∧ ∃ nm,
        s.linkTable.item r 0 = some nm ∧ nm ∈ newL ∧ nm ∉ oldL := by
      intro r
      rw [hc1, hmemQ]
      constructor
      · rintro ⟨hlt, nm, hname, hQ⟩
        rcases (hQsplit newL oldL nm).1 hQ with ⟨hin, hout⟩
        exact ⟨hlt, nm, (hitem_iff r nm hlt).2 hname, hin, hout⟩
      · rintro ⟨hlt, nm, hname, hin, hout⟩
        exact ⟨hlt, nm, (hitem_iff r nm hlt).1 hname, (hQsplit newL oldL nm).2 ⟨hin, hout⟩⟩
    have hmem2 : ∀ r, r ∈ c.oldLinkItems ↔ r < n ∧ ∃ nm,
        s.linkTable.item r 0 = some nm ∧ nm ∈ oldL ∧ nm ∉ newL := by
      intro r
      rw [hc2, hmemQ]
      constructor
      · rintro ⟨hlt, nm, hname, hQ⟩
        rcases (hQsplit oldL newL nm).1 hQ with ⟨hin, hout⟩
        exact ⟨hlt, nm, (hitem_iff r nm hlt).2 hname, hin, hout⟩
      · rintro ⟨hlt, nm, hname, hin, hout⟩
        exact ⟨hlt, nm, (hitem_iff r nm hlt).1 hname, (hQsplit oldL newL nm).2 ⟨hin, hout⟩⟩
    refine ⟨by rw [← hmk], by rw [← hmk], by rw [← hmk], ?_, ?_, ?_, hmem1, hmem2, ?_⟩
    · rw [hc1]
      exact hnodup _
    · rw [hc2]
      exact hnodup _
    · intro r hr2 hr1
      rcases (hmem2 r).1 hr2 with ⟨hlt, nm, hname, hin2, hout2⟩
      rcases (hmem1 r).1 hr1 with ⟨_, nm', hname', hin1, hout1⟩
      have hnmeq : nm = nm' := Option.some.inj (hname.symm.trans hname')
      exact hout2 (hnmeq ▸ hin1)
    · intro r hr
      have hin : r < names.length := by omega
      refine ⟨names[r], ?_⟩
      rw [hitem r hr, List.getElem?_eq_getElem hin]

/-- Everything `mkEditLink` records: row, tuples, and distinct disjoint
gained/lost point-row index lists. -/
theorem mkEditLink_spec {row : Nat} {args : LinkArgs} {s : Sheets} {c : EditLinkCmd}
    (hmk : mkEditLink row args s = some c) :
    c.row = row ∧ c.args = args ∧ c.oldArgs = linkArgsOfRow s.linkTable row
    ∧ c.newPointItems.Nodup ∧ c.oldPointItems.Nodup
    ∧ (∀ r ∈ c.oldPointItems, r ∉ c.newPointItems) := by
  unfold mkEditLink at hmk
  simp only [Option.bind_eq_bind] at hmk
  cases hnew : parsePoints args.points with
  | none =>
    rw [hnew] at hmk
    simp at hmk
  | some newP =>
    rw [hnew] at hmk
    cases hold : parsePoints (linkArgsOfRow s.linkTable row).points with
    | none =>
      rw [hold] at hmk
      simp at hmk
    | some oldP =>
      rw [hold] at hmk
      simp only [Option.bind_eq_bind, Option.some_bind, Option.pure_def,
        Option.some.injEq] at hmk
      refine ⟨by rw [← hmk], by rw [← hmk], by rw [← hmk], ?_, ?_, ?_⟩
      · have : c.newPointItems = newP.dedup.filter (fun p => p ∉ oldP) := by
          rw [← hmk]
        rw [this]
        exact (List.nodup_dedup newP).filter _
      · have : c.oldPointItems = oldP.dedup.filter (fun p => p ∉ newP) := by
          rw [← hmk]
        rw [this]
        exact (List.nodup_dedup oldP).filter _
      · intro r hr2 hr1
        have h2 : c.oldPointItems = oldP.dedup.filter (fun p => p ∉ newP) := by
          rw [← hmk]
        have h1 : c.newPointItems = newP.dedup.filter (fun p => p ∉ oldP) := by
          rw [← hmk]
        rw [h2] at hr2
        rw [h1] at hr1
        have hnot : r ∉ newP := by
          have := (List.mem_filter.1 hr2).2
          simpa using this
        have hin : r ∈ newP := List.mem_dedup.1 (List.mem_filter.1 hr1).1
        exact hnot hin

/-! ### Structural table lemmas: extensionality and shape preservation -/

/-- Two tables with the same column count and row list are equal. -/
theorem Table.eq_of_parts {t1 t2 : Table} (hc : t1.cols = t2.cols)
    (hr : t1.rows = t2.rows) : t1 = t2 := by
  cases t1 with
  | mk c1 rows1 =>
    cases t2 with
    | mk c2 rows2 =>
      simp only at hc hr
      rw [hc, hr]

/-- `setItem` never changes the length of any row. -/
theorem Table.setItem_rows_lengths (t : Table) (r c : Nat) (s : Str) :
    (t.setItem r c s).rows.map List.length = t.rows.map List.length := by
  unfold Table.setItem
  cases h : t.rows[r]? with
  | none => rfl
  | some rw =>
    simp only
    rw [List.map_set]
    simp only [List.length_set]
    apply list_set_self
    rw [List.getElem?_map, h]
    rfl

/-- A successful fold of `rowStep`s keeps the column count and every row
length. -/
theorem foldlM_rowStep_lengths {col : Nat} {G : Str → Option Str} :
    ∀ (items : List Nat) (t t' : Table),
      items.foldlM (rowStep col G) t = some t' →
      t'.cols = t.cols ∧ t'.rows.map List.length = t.rows.map List.length := by
  intro items
  induction items with
  | nil =>
    intro t t' h
    simp only [List.foldlM_nil, Option.pure_def, Option.some.injEq] at h
    rw [← h]
    exact ⟨rfl, rfl⟩
  | cons r rs ih =>
    intro t t' h
    rw [List.foldlM_cons] at h
    cases hstep : rowStep col G t r with
    | none =>
      rw [hstep] at h
      simp at h
    | some t1 =>
      rw [hstep] at h
      simp only [Option.bind_eq_bind, Option.some_bind] at h
      obtain ⟨hc, hl⟩ := ih t1 t' h
      have hone : t1.cols = t.cols ∧ t1.rows.map List.length = t.rows.map List.length := by
        unfold rowStep at hstep
        cases hit : t.item r col with
        | none =>
          rw [hit] at hstep
          simp at hstep
        | some f =>
          rw [hit] at hstep
          simp only [Option.some_bind] at hstep
          cases hG : G f with
          | none =>
            rw [hG] at hstep
            simp at hstep
          | some v =>
            rw [hG] at hstep
            simp only [Option.map_some', Option.some.injEq] at hstep
            rw [← hstep]
            exact ⟨Table.cols_setItem t r col v, Table.setItem_rows_lengths t r col v⟩
      exact ⟨hc.trans hone.1, hl.trans hone.2⟩

/-- `EditPointTable.__write_rows` keeps the column count and all row
lengths. -/
theorem epWriteRows_lengths {pname : Str} {items1 items2 : List Nat} {link link' : Table}
    (h : epWriteRows pname items1 items2 link = some link') :
    link'.cols = link.cols ∧ link'.rows.map List.length = link.rows.map List.length := by
  unfold epWriteRows at h
  rw [appendPointAt_eq_rowStep, removePointAt_eq_rowStep] at h
  simp only [Option.bind_eq_bind] at h
  cases h1 : items1.foldlM (rowStep 2 (fun f =>
      some (joinComma (noEmpty (splitComma f ++ [pname]))))) link with
  | none =>
    rw [h1] at h
    simp at h
  | some t1 =>
    rw [h1] at h
    simp only [Option.some_bind] at h
    obtain ⟨hc1, hl1⟩ := foldlM_rowStep_lengths items1 link t1 h1
    obtain ⟨hc2, hl2⟩ := foldlM_rowStep_lengths items2 t1 link' h
    exact ⟨hc2.trans hc1, hl2.trans hl1⟩

/-- `EditLinkTable.__write_rows` keeps the column count and all row
lengths. -/
theorem elWriteRows_lengths {name : Str} {items1 items2 : List Nat} {pt pt' : Table}
    (h : elWriteRows name items1 items2 pt = some pt') :
    pt'.cols = pt.cols ∧ pt'.rows.map List.length = pt.rows.map List.length := by
  unfold elWriteRows at h
  rw [appendLinkAt_eq_rowStep, removeLinkAt_eq_rowStep] at h
  simp only [Option.bind_eq_bind] at h
  cases h1 : items1.foldlM (rowStep 1 (fun f =>
      some (joinComma (noEmpty (splitComma f ++ [name]))))) pt with
  | none =>
    rw [h1] at h
    simp at h
  | some t1 =>
    rw [h1] at h
    simp only [Option.some_bind] at h
    obtain ⟨hc1, hl1⟩ := foldlM_rowStep_lengths items1 pt t1 h1
    obtain ⟨hc2, hl2⟩ := foldlM_rowStep_lengths items2 t1 pt' h
    exact ⟨hc2.trans hc1, hl2.trans hl1⟩

/-- Well-shapedness transports along equal column counts and row lengths. -/
theorem rowsWf_of_map_length {t t' : Table} (hc : t'.cols = t.cols)
    (hl : t'.rows.map List.length = t.rows.map List.length) (hw : RowsWf t) :
    RowsWf t' := by
  intro rw hrw
  rcases List.mem_iff_getElem.1 hrw with ⟨i, hi, hget⟩
  have hlen : t'.rows.length = t.rows.length := by
    have := congrArg List.length hl
    simpa using this
  have hit : i < t.rows.length := by omega
  have hmap : (t'.rows.map List.length)[i]? = (t.rows.map List.length)[i]? := by
    rw [hl]
  rw [List.getElem?_map, List.getElem?_map, List.getElem?_eq_getElem hi,
    List.getElem?_eq_getElem hit] at hmap
  simp only [Option.map_some', Option.some.injEq] at hmap
  rw [← hget, hmap, hc]
  exact hw _ (List.getElem_mem hit)

/-- Cell-level extensionality: two well-shaped tables with equal column
counts, equal row counts and equal items everywhere are equal. -/
theorem Table.ext_item {t1 t2 : Table} (hc : t1.cols = t2.cols)
    (hrc : t1.rowCount = t2.rowCount) (hw1 : RowsWf t1) (hw2 : RowsWf t2)
    (h : ∀ r c, t1.item r c = t2.item r c) : t1 = t2 := by
  refine Table.eq_of_parts hc ?_
  have hlen : t1.rows.length = t2.rows.length := hrc
  apply List.ext_getElem?
  intro r
  by_cases hr : r < t1.rows.length
  · have hr2 : r < t2.rows.length := by omega
    rw [List.getElem?_eq_getElem hr, List.getElem?_eq_getElem hr2]
    have hl1 : t1.rows[r].length = t1.cols := hw1 _ (List.getElem_mem hr)
    have hl2 : t2.rows[r].length = t2.cols := hw2 _ (List.getElem_mem hr2)
    congr 1
    apply List.ext_getElem?
    intro cc
    by_cases hcc : cc < t1.cols
    · have hcc2 : cc < t2.cols := by omega
      have hi := h r cc
      unfold Table.item at hi
      rw [List.getElem?_eq_getElem hr, List.getElem?_eq_getElem hr2] at hi
      simp only at hi
      have hg1 : t1.rows[r][cc]? = some (t1.rows[r][cc]) :=
        List.getElem?_eq_getElem (by omega)
      have hg2 : t2.rows[r][cc]? = some (t2.rows[r][cc]) :=
        List.getElem?_eq_getElem (by omega)
      rw [hg1, hg2] at hi
      rw [hg1, hg2]
      have hjoin : ∀ (x : Option Str), (some x : Option (Option Str)).join = x :=
        fun x => rfl
      rw [hjoin, hjoin] at hi
      rw [hi]
    · rw [List.getElem?_eq_none (by omega), List.getElem?_eq_none (by omega)]
  · have hr2 : ¬ r < t2.rows.length := by omega
    rw [List.getElem?_eq_none (by omega), List.getElem?_eq_none (by omega)]

/-- Two writes to the same cell collapse to the second, with no hypothesis. -/
theorem Table.setItem_setItem_same (t : Table) (r c : Nat) (a b : Str) :
    (t.setItem r c a).setItem r c b = t.setItem r c b := by
  unfold Table.setItem
  cases h : t.rows[r]? with
  | none => simp only [h]
  | some rw =>
    have hr : r < t.rows.length := (List.getElem?_eq_some.1 h).1
    simp only [h, List.getElem?_set_eq_of_lt _ (by simpa using hr)]
    simp [List.set_set]

/-- Writes to different rows commute. -/
theorem Table.setItem_comm {t : Table} {r r' c c' : Nat} (h : r ≠ r') (a b : Str) :
    (t.setItem r c a).setItem r' c' b = (t.setItem r' c' b).setItem r c a := by
  unfold Table.setItem
  cases h1 : t.rows[r]? with
  | none =>
    cases h2 : t.rows[r']? with
    | none => simp only [h1, h2]
    | some rw' =>
      simp only [h1, h2, List.getElem?_set_ne (fun he => h he.symm), h1]
  | some rw =>
    cases h2 : t.rows[r']? with
    | none =>
      simp only [h1, h2, List.getElem?_set_ne h, h2]
    | some rw' =>
      simp only [h1, h2, List.getElem?_set_ne h, List.getElem?_set_ne (fun he => h he.symm),
        h1, h2]
      simp only [Table.mk.injEq, true_and]
      exact List.set_comm _ _ _ h

/-! ### Rewriting a row with the values it already holds -/

/-- `edit_point` with the row's current values (and the matching name and
Current cells) is the identity. -/
theorem editPoint_restore {pt : Table} {row : Nat} {rw : List (Option Str)}
    (h : pt.rows[row]? = some rw) (hlen : rw.length = 7)
    {links typ color x y : Str}
    (h0 : rw[0]? = some (some (pointName row)))
    (h1 : rw[1]? = some (some links)) (h2 : rw[2]? = some (some typ))
    (h3 : rw[3]? = some (some color)) (h4 : rw[4]? = some (some x))
    (h5 : rw[5]? = some (some y)) (h6 : rw[6]? = some (some (currentText x y))) :
    editPoint pt row links typ color x y = pt := by
  have hrows := editPoint_rows h links typ color x y
  have hrw : (((((((rw.set 0 (some (pointName row))).set 1 (some links)).set 2
      (some typ)).set 3 (some color)).set 4 (some x)).set 5 (some y)).set 6
      (some (currentText x y))) = rw := by
    apply List.ext_getElem?
    intro i
    by_cases hi : i < 7
    · interval_cases i <;>
        simp [List.getElem?_set, hlen, h0.symm, h1.symm, h2.symm, h3.symm, h4.symm,
          h5.symm, h6.symm]
    · have hh0 : i ≠ 0 := by omega
      have hh1 : i ≠ 1 := by omega
      have hh2 : i ≠ 2 := by omega
      have hh3 : i ≠ 3 := by omega
      have hh4 : i ≠ 4 := by omega
      have hh5 : i ≠ 5 := by omega
      have hh6 : i ≠ 6 := by omega
      simp [List.getElem?_set_ne (Ne.symm hh0), List.getElem?_set_ne (Ne.symm hh1),
        List.getElem?_set_ne (Ne.symm hh2), List.getElem?_set_ne (Ne.symm hh3),
        List.getElem?_set_ne (Ne.symm hh4), List.getElem?_set_ne (Ne.symm hh5),
        List.getElem?_set_ne (Ne.symm hh6)]
  refine Table.eq_of_parts ?_ ?_
  · exact editPoint_cols pt row links typ color x y
  · rw [hrows, hrw, list_set_self h]

/-- The row list of `edit_link`: the three cells of the edited row are
overwritten in sequence. -/
theorem editLink_rows {lk : Table} {row : Nat} {rw : List (Option Str)}
    (h : lk.rows[row]? = some rw) (name color points : Str) :
    (editLink lk row name color points).rows =
      lk.rows.set row
        (((rw.set 0 (some name)).set 1 (some color)).set 2 (some points)) := by
  have hlen : row < lk.rows.length := (List.getElem?_eq_some.1 h).1
  unfold editLink
  have s0 := Table.setItem_rows (c := 0) (s := name) h
  have h0 : (lk.setItem row 0 name).rows[row]? = some (rw.set 0 (some name)) := by
    rw [s0]
    exact List.getElem?_set_eq_of_lt _ (by simpa using hlen)
  have s1 := Table.setItem_rows (c := 1) (s := color) h0
  have h1 : ((lk.setItem row 0 name).setItem row 1 color).rows[row]? =
      some ((rw.set 0 (some name)).set 1 (some color)) := by
    rw [s1]
    exact List.getElem?_set_eq_of_lt _ (by simp [s0, hlen])
  have s2 := Table.setItem_rows (c := 2) (s := points) h1
  rw [s2, s1, s0]
  simp [List.set_set]

/-- `edit_link` leaves every other row's cells unchanged. -/
theorem editLink_item_other {lk : Table} {row q : Nat} (hq : q ≠ row)
    (name color points : Str) (c : Nat) :
    (editLink lk row name color points).item q c = lk.item q c := by
  unfold editLink
  rw [Table.item_setItem_other (Or.inl hq), Table.item_setItem_other (Or.inl hq),
    Table.item_setItem_other (Or.inl hq)]

theorem editLink_rowCount (lk : Table) (row : Nat) (name color points : Str) :
    (editLink lk row name color points).rowCount = lk.rowCount := by
  unfold editLink
  simp [Table.rowCount_setItem]

theorem editLink_cols (lk : Table) (row : Nat) (name color points : Str) :
    (editLink lk row name color points).cols = lk.cols := by
  unfold editLink
  simp [Table.cols_setItem]

/-- Reading back the edited link row when the table has the link table's
three columns. -/
theorem editLink_item_self {lk : Table} {row : Nat} {rw : List (Option Str)}
    (h : lk.rows[row]? = some rw) (hlen : rw.length = 3)
    (name color points : Str) :
    (editLink lk row name color points).item row 0 = some name
    ∧ (editLink lk row name color points).item row 1 = some color
    ∧ (editLink lk row name color points).item row 2 = some points := by
  have hrows := editLink_rows h name color points
  have hrlen : row < lk.rows.length := (List.getElem?_eq_some.1 h).1
  have hrow' : (editLink lk row name color points).rows[row]? =
      some (((rw.set 0 (some name)).set 1 (some color)).set 2 (some points)) := by
    rw [hrows]
    exact List.getElem?_set_eq_of_lt _ (by simpa using hrlen)
  refine ⟨?_, ?_, ?_⟩ <;>
    · apply Table.item_eq_some_iff.2
      refine ⟨_, hrow', ?_⟩
      simp [List.getElem?_set, hlen]

/-- Composing two `edit_link`s on the same row collapses to the second. -/
theorem editLink_editLink {lk : Table} {row : Nat} {rw : List (Option Str)}
    (h : lk.rows[row]? = some rw) (n1 c1 p1 n2 c2 p2 : Str) :
    editLink (editLink lk row n1 c1 p1) row n2 c2 p2 = editLink lk row n2 c2 p2 := by
  have hrlen : row < lk.rows.length := (List.getElem?_eq_some.1 h).1
  have hrows1 := editLink_rows h n1 c1 p1
  have hrow1 : (editLink lk row n1 c1 p1).rows[row]? =
      some (((rw.set 0 (some n1)).set 1 (some c1)).set 2 (some p1)) := by
    rw [hrows1]
    exact List.getElem?_set_eq_of_lt _ (by simpa using hrlen)
  have hrows2 := editLink_rows hrow1 n2 c2 p2
  have hrows3 := editLink_rows h n2 c2 p2
  have hrweq : (((((((rw.set 0 (some n1)).set 1 (some c1)).set 2 (some p1)).set 0
      (some n2)).set 1 (some c2)).set 2 (some p2)) : List (Option Str)) =
      ((rw.set 0 (some n2)).set 1 (some c2)).set 2 (some p2) := by
    apply List.ext_getElem?
    intro i
    by_cases hi : i < 3
    · interval_cases i <;> simp [List.getElem?_set]
    · have hh0 : i ≠ 0 := by omega
      have hh1 : i ≠ 1 := by omega
      have hh2 : i ≠ 2 := by omega
      simp [List.getElem?_set_ne (Ne.symm hh0), List.getElem?_set_ne (Ne.symm hh1),
        List.getElem?_set_ne (Ne.symm hh2)]
  refine Table.eq_of_parts ?_ ?_
  · rw [editLink_cols, editLink_cols, editLink_cols]
  · rw [hrows2, hrows3, hrows1, List.set_set, hrweq]

/-- `edit_link` with the row's current values is the identity. -/
theorem editLink_restore {lk : Table} {row : Nat} {rw : List (Option Str)}
    (h : lk.rows[row]? = some rw) (hlen : rw.length = 3)
    {name color points : Str}
    (h0 : rw[0]? = some (some name)) (h1 : rw[1]? = some (some color))
    (h2 : rw[2]? = some (some points)) :
    editLink lk row name color points = lk := by
  have hrows := editLink_rows h name color points
  have hrw : (((rw.set 0 (some name)).set 1 (some color)).set 2 (some points)) = rw := by
    apply List.ext_getElem?
    intro i
    by_cases hi : i < 3
    · interval_cases i <;> simp [List.getElem?_set, hlen, h0.symm, h1.symm, h2.symm]
    · have hh0 : i ≠ 0 := by omega
      have hh1 : i ≠ 1 := by omega
      have hh2 : i ≠ 2 := by omega
      simp [List.getElem?_set_ne (Ne.symm hh0), List.getElem?_set_ne (Ne.symm hh1),
        List.getElem?_set_ne (Ne.symm hh2)]
  refine Table.eq_of_parts ?_ ?_
  · exact editLink_cols lk row name color points
  · rw [hrows, hrw, list_set_self h]

/-! ### Round trip of the membership patch -/

/-- Revert-then-apply on a lost row is byte-exact when the removed name was
the last part of a well-joined field: removing it and appending it again
reproduces the field. -/
theorem appendWrite_removeWrite_exact {f P : Str} {l : List Str}
    (hsplit : splitComma f = l ++ [P]) (htok : ∀ u ∈ l, u ≠ [])
    (hnot : P ∉ l) (hP : P ≠ []) (hfree : ',' ∉ P) :
    removeWrite f P = joinComma l ∧ appendWrite (removeWrite f P) P = f := by
  have hlfree : ∀ u ∈ l, ',' ∉ u := by
    intro u hu
    have hm : u ∈ splitComma f := by
      rw [hsplit]
      exact List.mem_append_left _ hu
    exact not_mem_of_mem_splitCh hm
  have herase : (splitComma f).erase P = l := by
    rw [hsplit, List.erase_append_right _ hnot, List.erase_cons_head, List.append_nil]
  have hne : noEmpty l = l :=
    List.filter_eq_self.2 (fun u hu => by simpa using htok u hu)
  have hrem : removeWrite f P = joinComma l := by
    unfold removeWrite
    rw [herase, hne]
  refine ⟨hrem, ?_⟩
  rw [hrem]
  unfold appendWrite
  cases hl : l with
  | nil =>
    subst hl
    have hsp : splitComma (joinComma ([] : List Str)) = [[]] := rfl
    rw [hsp]
    have : noEmpty ([[]] ++ [P]) = [P] := by
      simp [noEmpty, hP]
    rw [this]
    have hf : joinComma [P] = joinComma (splitComma f) := by
      rw [hsplit]
      rfl
    rw [hf]
    exact joinCh_splitCh ',' f
  | cons u us =>
    rw [← hl]
    have hlne : l ≠ [] := by
      rw [hl]
      exact List.cons_ne_nil u us
    have hsp : splitComma (joinComma l) = l := splitCh_joinCh hlne hlfree
    rw [hsp]
    have hnoe : noEmpty (l ++ [P]) = l ++ [P] := by
      apply List.filter_eq_self.2
      intro u hu
      rcases List.mem_append.1 hu with h | h
      · simpa using htok u h
      · simp only [List.mem_singleton] at h
        subst h
        simpa using hP
    rw [hnoe, ← hsplit]
    exact joinCh_splitCh ',' f

/-- Apply-then-revert of `EditPointTable`: under the construction
precondition, a well-shaped point row whose cells are consistent, and
canonical points fields on the patched link rows (the gained rows must not
already hold the name, the losing rows hold it once, in last position), the
push succeeds and the undo restores the sheets byte-exactly. -/
theorem editPointCmd_states {s : Sheets} {row : Nat} {args : PointArgs} {c : EditPointCmd}
    {rw : List (Option Str)} {lnk ty co x y : Str}
    (hmk : mkEditPoint row args s = some c)
    (hwf : RowsWf s.linkTable)
    (hrow : s.pointTable.rows[row]? = some rw) (hlen : rw.length = 7)
    (h0 : rw[0]? = some (some (pointName row)))
    (h1 : rw[1]? = some (some lnk)) (h2 : rw[2]? = some (some ty))
    (h3 : rw[3]? = some (some co)) (h4 : rw[4]? = some (some x))
    (h5 : rw[5]? = some (some y)) (h6 : rw[6]? = some (some (currentText x y)))
    (hgain : ∀ r ∈ c.newLinkItems, ∃ f, s.linkTable.item r 2 = some f
       ∧ wellJoined f ∧ pointName row ∉ splitComma f)
    (hlose : ∀ r ∈ c.oldLinkItems, ∃ f l, s.linkTable.item r 2 = some f
       ∧ splitComma f = l ++ [pointName row] ∧ (∀ u ∈ l, u ≠ []) ∧ pointName row ∉ l) :
    ∃ s1, c.redo s = some s1
      ∧ s1 = { pointTable := editPointArgs s.pointTable row args, linkTable := s1.linkTable }
      ∧ c.undo s1 = some s := by
  obtain ⟨hcrow, hcargs, hcold, hnd1, hnd2, hdisj, _, _, _⟩ := mkEditPoint_spec hmk
  set P := pointName row with hP
  have hPne : P ≠ [] := pointName_ne_nil row
  have hPfree : ',' ∉ P := comma_not_mem_pointName row
  -- the captured old tuple is the row's visible text
  have hitem1 : s.pointTable.item row 1 = some lnk := Table.item_eq_some_iff.2 ⟨rw, hrow, h1⟩
  have hitem2 : s.pointTable.item row 2 = some ty := Table.item_eq_some_iff.2 ⟨rw, hrow, h2⟩
  have hitem3 : s.pointTable.item row 3 = some co := Table.item_eq_some_iff.2 ⟨rw, hrow, h3⟩
  have hitem4 : s.pointTable.item row 4 = some x := Table.item_eq_some_iff.2 ⟨rw, hrow, h4⟩
  have hitem5 : s.pointTable.item row 5 = some y := Table.item_eq_some_iff.2 ⟨rw, hrow, h5⟩
  have holdargs : pointArgsOfRow s.pointTable row = ⟨lnk, ty, co, x, y⟩ := by
    unfold pointArgsOfRow Table.itemText
    rw [hitem1, hitem2, hitem3, hitem4, hitem5]
    rfl
  -- the forward membership patch
  have hsucc1 : ∀ r ∈ c.newLinkItems, ∃ f, s.linkTable.item r 2 = some f := by
    intro r hr
    rcases hgain r hr with ⟨f, hf, _, _⟩
    exact ⟨f, hf⟩
  have hsucc2 : ∀ r ∈ c.oldLinkItems, ∃ f, s.linkTable.item r 2 = some f
      ∧ P ∈ splitComma f := by
    intro r hr
    rcases hlose r hr with ⟨f, l, hf, hsp, _, _⟩
    refine ⟨f, hf, ?_⟩
    rw [hsp]
    exact List.mem_append_right _ (List.mem_singleton.2 rfl)
  obtain ⟨lk1, hw1, hA1, hA2, hout1, hocol1, hrc1, hcols1⟩ :=
    epWriteRows_spec P c.newLinkItems c.oldLinkItems s.linkTable hnd1 hnd2 hdisj
      hsucc1 hsucc2
  have hredo : c.redo s = some ⟨editPointArgs s.pointTable row args, lk1⟩ := by
    unfold EditPointCmd.redo
    rw [hcrow, hcargs]
    simp only [Option.bind_eq_bind]
    rw [hw1]
    simp only [Option.some_bind, Option.pure_def]
  -- the backward membership patch
  have hdisj' : ∀ r ∈ c.newLinkItems, r ∉ c.oldLinkItems :=
    fun r hr hro => hdisj r hro hr
  have hsucc1' : ∀ r ∈ c.oldLinkItems, ∃ f, lk1.item r 2 = some f := by
    intro r hr
    rcases hA2 r hr with ⟨f, _, _, hf'⟩
    exact ⟨removeWrite f P, hf'⟩
  have hsucc2' : ∀ r ∈ c.newLinkItems, ∃ f, lk1.item r 2 = some f
      ∧ P ∈ splitComma f := by
    intro r hr
    rcases hA1 r hr with ⟨f, hf, hf'⟩
    rcases hgain r hr with ⟨f2, hf2, hwj, hmem⟩
    have hfeq : f = f2 := Option.some.inj (hf.symm.trans hf2)
    subst hfeq
    exact ⟨appendWrite f P, hf', (removeWrite_appendWrite hwj hmem hPne hPfree).1⟩
  obtain ⟨lk2, hw2, hB1, hB2, hout2, hocol2, hrc2, hcols2⟩ :=
    epWriteRows_spec P c.oldLinkItems c.newLinkItems lk1 hnd2 hnd1 hdisj'
      hsucc1' hsucc2'
  -- the patched-back link table is byte-identical to the original
  have hlk2 : lk2 = s.linkTable := by
    obtain ⟨hLc1, hLl1⟩ := epWriteRows_lengths hw1
    obtain ⟨hLc2, hLl2⟩ := epWriteRows_lengths hw2
    refine Table.ext_item (hcols2.trans hcols1) (hrc2.trans hrc1)
      (rowsWf_of_map_length (hLc2.trans hLc1) (hLl2.trans hLl1) hwf) hwf ?_
    intro r cc
    by_cases hcc : cc = 2
    · subst hcc
      by_cases hro : r ∈ c.oldLinkItems
      · rcases hB1 r hro with ⟨g, hg, hg'⟩
        rcases hA2 r hro with ⟨f, hf, _, hf'⟩
        rcases hlose r hro with ⟨f2, l, hf2, hsp, htoks, hnot⟩
        have hfeq : f = f2 := Option.some.inj (hf.symm.trans hf2)
        subst hfeq
        have hgeq : g = removeWrite f P := Option.some.inj (hg.symm.trans hf')
        subst hgeq
        rw [hg', hf]
        rw [(appendWrite_removeWrite_exact hsp htoks hnot hPne hPfree).2]
      · by_cases hrn : r ∈ c.newLinkItems
        · rcases hB2 r hrn with ⟨g, hg, _, hg'⟩
          rcases hA1 r hrn with ⟨f, hf, hf'⟩
          rcases hgain r hrn with ⟨f2, hf2, hwj, hmem⟩
          have hfeq : f = f2 := Option.some.inj (hf.symm.trans hf2)
          subst hfeq
          have hgeq : g = appendWrite f P := Option.some.inj (hg.symm.trans hf')
          subst hgeq
          rw [hg', hf]
          rw [(removeWrite_appendWrite hwj hmem hPne hPfree).2]
        · rw [hout2 r hro hrn, hout1 r hrn hro]
    · rw [hocol2 r cc hcc, hocol1 r cc hcc]
  -- the restored point table is byte-identical to the original
  have hptrestore : editPointArgs (editPointArgs s.pointTable row args) row c.oldArgs
      = s.pointTable := by
    rw [hcold, holdargs]
    have hcollapse : editPointArgs (editPointArgs s.pointTable row args) row
        ⟨lnk, ty, co, x, y⟩ = editPointArgs s.pointTable row ⟨lnk, ty, co, x, y⟩ := by
      unfold editPointArgs
      exact editPoint_editPoint hrow args.links args.typ args.color args.x args.y
        lnk ty co x y
    rw [hcollapse]
    unfold editPointArgs
    exact editPoint_restore hrow hlen h0 h1 h2 h3 h4 h5 h6
  refine ⟨⟨editPointArgs s.pointTable row args, lk1⟩, hredo, rfl, ?_⟩
  unfold EditPointCmd.undo
  rw [hcrow]
  simp only [Option.bind_eq_bind]
  rw [hw2]
  simp only [Option.some_bind, Option.pure_def, Option.some.injEq]
  rw [hptrestore, hlk2]

/-- Apply-then-revert of `EditLinkTable` when the name is unchanged: under
the construction precondition, a well-shaped link row, and canonical links
fields on the patched point rows, the push succeeds and the undo restores
the sheets byte-exactly. -/
theorem editLinkCmd_states {s : Sheets} {row : Nat} {args : LinkArgs} {c : EditLinkCmd}
    {rwL : List (Option Str)} {name0 col0 pts0 : Str}
    (hmk : mkEditLink row args s = some c)
    (hwf : RowsWf s.pointTable)
    (hrowL : s.linkTable.rows[row]? = some rwL) (hlenL : rwL.length = 3)
    (hL0 : rwL[0]? = some (some name0)) (hL1 : rwL[1]? = some (some col0))
    (hL2 : rwL[2]? = some (some pts0))
    (hsame : args.name = name0) (hnamene : args.name ≠ []) (hnfree : ',' ∉ args.name)
    (hgain : ∀ r ∈ c.newPointItems, ∃ f, s.pointTable.item r 1 = some f
       ∧ wellJoined f ∧ args.name ∉ splitComma f)
    (hlose : ∀ r ∈ c.oldPointItems, ∃ f l, s.pointTable.item r 1 = some f
       ∧ splitComma f = l ++ [args.name] ∧ (∀ u ∈ l, u ≠ []) ∧ args.name ∉ l) :
    ∃ s1, c.redo s = some s1 ∧ c.undo s1 = some s := by
  obtain ⟨hcrow, hcargs, hcold, hnd1, hnd2, hdisj⟩ := mkEditLink_spec hmk
  -- the captured old tuple is the row's visible text
  have hitem0 : s.linkTable.item row 0 = some name0 :=
    Table.item_eq_some_iff.2 ⟨rwL, hrowL, hL0⟩
  have hitem1 : s.linkTable.item row 1 = some col0 :=
    Table.item_eq_some_iff.2 ⟨rwL, hrowL, hL1⟩
  have hitem2 : s.linkTable.item row 2 = some pts0 :=
    Table.item_eq_some_iff.2 ⟨rwL, hrowL, hL2⟩
  have holdargs : linkArgsOfRow s.linkTable row = ⟨name0, col0, pts0⟩ := by
    unfold linkArgsOfRow Table.itemText
    rw [hitem0, hitem1, hitem2]
    rfl
  have hguardName : c.oldArgs.name = args.name := by
    rw [hcold, holdargs, hsame]
  -- the rename step is skipped in both directions
  have hren1 : elRename args c.oldArgs s.pointTable = some s.pointTable := by
    unfold elRename
    rw [if_pos hguardName]
  -- the forward membership patch
  have hsucc1 : ∀ r ∈ c.newPointItems, ∃ f, s.pointTable.item r 1 = some f := by
    intro r hr
    rcases hgain r hr with ⟨f, hf, _, _⟩
    exact ⟨f, hf⟩
  have hsucc2 : ∀ r ∈ c.oldPointItems, ∃ f, s.pointTable.item r 1 = some f
      ∧ args.name ∈ splitComma f := by
    intro r hr
    rcases hlose r hr with ⟨f, l, hf, hsp, _, _⟩
    refine ⟨f, hf, ?_⟩
    rw [hsp]
    exact List.mem_append_right _ (List.mem_singleton.2 rfl)
  obtain ⟨pt1, hw1, hA1, hA2, hout1, hocol1, hrc1, hcols1⟩ :=
    elWriteRows_spec args.name hnamene c.newPointItems c.oldPointItems s.pointTable
      hnd1 hnd2 hdisj hsucc1 hsucc2
  have hredo : c.redo s = some ⟨pt1, editLinkArgs s.linkTable row args⟩ := by
    unfold EditLinkCmd.redo
    rw [hcrow, hcargs]
    simp only [Option.bind_eq_bind]
    rw [hren1]
    simp only [Option.some_bind]
    rw [hw1]
    simp only [Option.some_bind, Option.pure_def]
  -- the backward membership patch
  have hdisj' : ∀ r ∈ c.newPointItems, r ∉ c.oldPointItems :=
    fun r hr hro => hdisj r hro hr
  have hsucc1' : ∀ r ∈ c.oldPointItems, ∃ f, pt1.item r 1 = some f := by
    intro r hr
    rcases hA2 r hr with ⟨f, _, _, hf'⟩
    exact ⟨removeWrite f args.name, hf'⟩
  have hsucc2' : ∀ r ∈ c.newPointItems, ∃ f, pt1.item r 1 = some f
      ∧ args.name ∈ splitComma f := by
    intro r hr
    rcases hA1 r hr with ⟨f, hf, hf'⟩
    rcases hgain r hr with ⟨f2, hf2, hwj, hmem⟩
    have hfeq : f = f2 := Option.some.inj (hf.symm.trans hf2)
    subst hfeq
    exact ⟨appendWrite f args.name, hf',
      (removeWrite_appendWrite hwj hmem hnamene hnfree).1⟩
  obtain ⟨pt2, hw2, hB1, hB2, hout2, hocol2, hrc2, hcols2⟩ :=
    elWriteRows_spec args.name hnamene c.oldPointItems c.newPointItems pt1
      hnd2 hnd1 hdisj' hsucc1' hsucc2'
  -- the patched-back point table is byte-identical to the original
  have hpt2 : pt2 = s.pointTable := by
    obtain ⟨hLc1, hLl1⟩ := elWriteRows_lengths hw1
    obtain ⟨hLc2, hLl2⟩ := elWriteRows_lengths hw2
    refine Table.ext_item (hcols2.trans hcols1) (hrc2.trans hrc1)
      (rowsWf_of_map_length (hLc2.trans hLc1) (hLl2.trans hLl1) hwf) hwf ?_
    intro r cc
    by_cases hcc : cc = 1
    · subst hcc
      by_cases hro : r ∈ c.oldPointItems
      · rcases hB1 r hro with ⟨g, hg, hg'⟩
        rcases hA2 r hro with ⟨f, hf, _, hf'⟩
        rcases hlose r hro with ⟨f2, l, hf2, hsp, htoks, hnot⟩
        have hfeq : f = f2 := Option.some.inj (hf.symm.trans hf2)
        subst hfeq
        have hgeq : g = removeWrite f args.name := Option.some.inj (hg.symm.trans hf')
        subst hgeq
        rw [hg', hf]
        rw [(appendWrite_removeWrite_exact hsp htoks hnot hnamene hnfree).2]
      · by_cases hrn : r ∈ c.newPointItems
        · rcases hB2 r hrn with ⟨g, hg, _, hg'⟩
          rcases hA1 r hrn with ⟨f, hf, hf'⟩
          rcases hgain r hrn with ⟨f2, hf2, hwj, hmem⟩
          have hfeq : f = f2 := Option.some.inj (hf.symm.trans hf2)
          subst hfeq
          have hgeq : g = appendWrite f args.name := Option.some.inj (hg.symm.trans hf')
          subst hgeq
          rw [hg', hf]
          rw [(removeWrite_appendWrite hwj hmem hnamene hnfree).2]
        · rw [hout2 r hro hrn, hout1 r hrn hro]
    · rw [hocol2 r cc hcc, hocol1 r cc hcc]
  -- the restored link table is byte-identical to the original
  have hlkrestore : editLinkArgs (editLinkArgs s.linkTable row args) row c.oldArgs
      = s.linkTable := by
    rw [hcold, holdargs]
    have hcollapse : editLinkArgs (editLinkArgs s.linkTable row args) row
        ⟨name0, col0, pts0⟩ = editLinkArgs s.linkTable row ⟨name0, col0, pts0⟩ := by
      unfold editLinkArgs
      exact editLink_editLink hrowL args.name args.color args.points name0 col0 pts0
    rw [hcollapse]
    unfold editLinkArgs
    exact editLink_restore hrowL hlenL hL0 hL1 hL2
  -- the backward rename step is skipped as well
  have hren2 : elRename c.oldArgs args pt2 = some pt2 := by
    unfold elRename
    rw [if_pos hguardName.symm]
  refine ⟨⟨pt1, editLinkArgs s.linkTable row args⟩, hredo, ?_⟩
  unfold EditLinkCmd.undo
  simp only [Option.bind_eq_bind]
  rw [hcrow, hguardName, hw2]
  simp only [Option.some_bind]
  rw [hcargs, hren2]
  simp only [Option.some_bind, Option.pure_def, Option.some.injEq]
  rw [hpt2, hlkrestore]

/-! ### Round trips of the path, storage and variable commands -/

theorem dict_keys_not_mem_any {d : List (Str × PathData)} {k : Str}
    (h : k ∉ d.map Prod.fst) : d.any (fun kv => kv.1 = k) = false := by
  rw [List.any_eq_false]
  intro kv hkv
  simp only [decide_eq_true_eq]
  intro he
  exact h (List.mem_map.2 ⟨kv, hkv, he⟩)

/-- Storing under a fresh key appends the entry. -/
theorem dictSet_append {d : List (Str × PathData)} {k : Str} (v : PathData)
    (h : k ∉ d.map Prod.fst) : dictSet d k v = d ++ [(k, v)] := by
  unfold dictSet
  rw [dict_keys_not_mem_any h]
  rfl

/-- Deleting a fresh key appended at the end recovers the dict. -/
theorem dictDel_append {d : List (Str × PathData)} {k : Str} (v : PathData)
    (h : k ∉ d.map Prod.fst) : dictDel (d ++ [(k, v)]) k = some d := by
  unfold dictDel
  have hmem : (d ++ [(k, v)]).any (fun kv => kv.1 = k) = true := by
    rw [List.any_eq_true]
    exact ⟨(k, v), List.mem_append_right _ (List.mem_singleton.2 rfl), by simp⟩
  rw [if_pos hmem]
  have hskip : List.eraseP (fun kv => decide (kv.1 = k)) (d ++ [(k, v)]) =
      d ++ List.eraseP (fun kv => decide (kv.1 = k)) [(k, v)] := by
    apply List.eraseP_append_right
    intro b hb
    simp only [decide_eq_true_eq]
    intro he
    exact h (List.mem_map.2 ⟨b, hb, he⟩)
  have hone : List.eraseP (fun kv => decide (kv.1 = k)) [(k, v)] = [] := by
    simp [List.eraseP_cons]
  rw [hskip, hone, List.append_nil]

/-- Reading back a fresh key appended at the end. -/
theorem dictGet_append {d : List (Str × PathData)} {k : Str} (v : PathData)
    (h : k ∉ d.map Prod.fst) : dictGet? (d ++ [(k, v)]) k = some v := by
  unfold dictGet?
  rw [List.find?_append]
  have hnone : d.find? (fun kv => kv.1 = k) = none := by
    rw [List.find?_eq_none]
    intro kv hkv
    simp only [decide_eq_true_eq]
    intro he
    exact h (List.mem_map.2 ⟨kv, hkv, he⟩)
  rw [hnone]
  simp [List.find?_cons]

/-- `AddPath` apply-then-revert with a fresh name restores the state. -/
theorem addPath_roundtrip (c : AddPathCmd) (st : PathState)
    (h : c.name ∉ st.data.map Prod.fst) : c.undo (c.redo st) = some st := by
  unfold AddPathCmd.redo AddPathCmd.undo
  simp only [dictSet_append c.path h, Option.bind_eq_bind]
  rw [dictDel_append c.path h]
  simp only [Option.some_bind, Option.pure_def, Option.some.injEq]
  rw [List.dropLast_concat]

/-- `DeletePath` of the *last* row whose dict entry is also last: apply then
revert restores the state byte-exactly. -/
theorem deletePath_last_roundtrip (ws : List Str) (it : Str)
    (d : List (Str × PathData)) (v : PathData) (c : DeletePathCmd)
    (hk : ((splitCh ':' it).headD []) ∉ d.map Prod.fst)
    (hmk : mkDeletePath ws.length
      ⟨ws ++ [it], d ++ [((splitCh ':' it).headD [], v)]⟩ = some c) :
    ∃ st1, c.redo ⟨ws ++ [it], d ++ [((splitCh ':' it).headD [], v)]⟩ = some st1
      ∧ c.undo st1 = ⟨ws ++ [it], d ++ [((splitCh ':' it).headD [], v)]⟩ := by
  have hitem : (ws ++ [it])[ws.length]? = some it := by
    rw [List.getElem?_append_right (le_refl _)]
    simp
  unfold mkDeletePath at hmk
  simp only [hitem, Option.bind_eq_bind, Option.some_bind] at hmk
  rw [dictGet_append v hk] at hmk
  simp only [Option.some_bind, Option.pure_def, Option.some.injEq] at hmk
  refine ⟨⟨ws, d⟩, ?_, ?_⟩
  · unfold DeletePathCmd.redo
    rw [← hmk]
    simp only [Option.bind_eq_bind]
    rw [dictDel_append v hk]
    simp only [Option.some_bind, Option.pure_def, Option.some.injEq]
    have he : (ws ++ [it]).eraseIdx ws.length = ws := by
      have := list_eraseIdx_middle ws it ([] : List Str)
      simpa using this
    rw [he]
  · unfold DeletePathCmd.undo
    rw [← hmk]
    simp only
    rw [dictSet_append v hk]

/-- `AddStorage` apply-then-revert restores the widget, always. -/
theorem addStorage_roundtrip (c : AddStorageCmd) (w : List SItem) :
    c.undo (c.redo w) = w := by
  unfold AddStorageCmd.redo AddStorageCmd.undo
  exact List.dropLast_concat

/-- `DeleteStorage` apply-then-revert restores the widget byte-exactly. -/
theorem deleteStorage_roundtrip (row : Nat) (w : List SItem) (c : DeleteStorageCmd)
    (hmk : mkDeleteStorage row w = some c) : c.undo (c.redo w) = w := by
  unfold mkDeleteStorage at hmk
  cases hit : w[row]? with
  | none =>
    rw [hit] at hmk
    simp at hmk
  | some it =>
    rw [hit] at hmk
    simp only [Option.bind_eq_bind, Option.some_bind, Option.pure_def,
      Option.some.injEq] at hmk
    have hlt : row < w.length := (List.getElem?_eq_some.1 hit).1
    unfold DeleteStorageCmd.redo DeleteStorageCmd.undo
    rw [← hmk]
    simp only
    have htl : (w.take row).length = row := by
      simp [Nat.min_eq_left (by omega : row ≤ w.length)]
    have herase : w.eraseIdx row = w.take row ++ w.drop (row + 1) :=
      List.eraseIdx_eq_take_drop_succ w row
    have htake : (w.eraseIdx row).take row = w.take row := by
      rw [herase]
      have hx := List.take_left (w.take row) (w.drop (row + 1))
      rw [htl] at hx
      exact hx
    have hdrop : (w.eraseIdx row).drop row = w.drop (row + 1) := by
      rw [herase]
      have hx := List.drop_left (w.take row) (w.drop (row + 1))
      rw [htl] at hx
      exact hx
    rw [htake, hdrop]
    have hsit : ({ text := it.text, expr := it.expr } : SItem) = it := rfl
    rw [hsit]
    have hgetit : w[row] = it := by
      have := List.getElem?_eq_getElem hlt
      rw [hit] at this
      injection this with hx
      exact hx.symm
    conv_rhs => rw [← List.take_append_drop row w]
    rw [List.drop_eq_getElem_cons hlt, hgetit]
    simp

/-- `AddVariable` apply-then-revert with a fresh text restores the widget. -/
theorem addVariable_roundtrip (c : AddVariableCmd) (w : List Str) (h : c.text ∉ w) :
    c.undo (c.redo w) = w := by
  unfold AddVariableCmd.redo AddVariableCmd.undo
  rw [List.erase_append_right _ h, List.erase_cons_head, List.append_nil]

/-- `DeleteVariable` of the last row, not duplicated above: apply then
revert restores the widget. -/
theorem deleteVariable_last_roundtrip (w : List Str) (t : Str) (c : DeleteVariableCmd)
    (hnot : t ∉ w) (hmk : mkDeleteVariable w.length (w ++ [t]) = some c) :
    c.undo (c.redo (w ++ [t])) = w ++ [t] := by
  have hitem : (w ++ [t])[w.length]? = some t := by
    rw [List.getElem?_append_right (le_refl _)]
    simp
  unfold mkDeleteVariable at hmk
  simp only [hitem, Option.bind_eq_bind, Option.some_bind, Option.pure_def,
    Option.some.injEq] at hmk
  unfold DeleteVariableCmd.redo DeleteVariableCmd.undo
  rw [← hmk]
  simp only
  rw [List.erase_append_right _ hnot, List.erase_cons_head, List.append_nil]

/-! ### Renaming is idempotent; the rename-enabled delete satisfies the
redo-after-undo law -/

theorem foldl_stamp_cols (g : Nat → Str) (js : List Nat) :
    ∀ (t : Table),
      (js.foldl (fun tb i => tb.setItem i 0 (g i)) t).cols = t.cols ∧
      (js.foldl (fun tb i => tb.setItem i 0 (g i)) t).rowCount = t.rowCount := by
  induction js with
  | nil => intro t; exact ⟨rfl, rfl⟩
  | cons j js ih =>
    intro t
    simp only [List.foldl_cons]
    obtain ⟨h1, h2⟩ := ih (t.setItem j 0 (g j))
    exact ⟨h1.trans (Table.cols_setItem t j 0 (g j)),
      h2.trans (Table.rowCount_setItem t j 0 (g j))⟩

theorem foldl_stamp_out (g : Nat → Str) :
    ∀ (js : List Nat) (t : Table) (j : Nat) (v : Str), j ∉ js →
      js.foldl (fun tb i => tb.setItem i 0 (g i)) (t.setItem j 0 v) =
        (js.foldl (fun tb i => tb.setItem i 0 (g i)) t).setItem j 0 v := by
  intro js
  induction js with
  | nil => intro t j v _; rfl
  | cons i is ih =>
    intro t j v hj
    have hne : j ≠ i := fun he => hj (he ▸ List.mem_cons_self i is)
    simp only [List.foldl_cons]
    rw [Table.setItem_comm hne v (g i)]
    exact ih _ j v (fun hmem => hj (List.mem_cons_of_mem _ hmem))

theorem foldl_stamp_idem (g : Nat → Str) :
    ∀ (js : List Nat), js.Nodup → ∀ (t : Table),
      js.foldl (fun tb i => tb.setItem i 0 (g i))
        (js.foldl (fun tb i => tb.setItem i 0 (g i)) t) =
      js.foldl (fun tb i => tb.setItem i 0 (g i)) t := by
  intro js
  induction js with
  | nil => intro _ t; rfl
  | cons j is ih =>
    intro hnd t
    obtain ⟨hj, hnd'⟩ := List.nodup_cons.1 hnd
    simp only [List.foldl_cons]
    have hout := foldl_stamp_out g is (t.setItem j 0 (g j)) j (g j) hj
    rw [← hout, Table.setItem_setItem_same]
    exact ih hnd' _

/-- `rename(row)` twice is `rename(row)` once. -/
theorem renameFrom_renameFrom (t : Table) (row : Nat) :
    (t.renameFrom row).renameFrom row = t.renameFrom row := by
  unfold Table.renameFrom
  have hrc : ((List.range' row (t.rowCount - row)).foldl
      (fun tb j => tb.setItem j 0 (pointName j)) t).rowCount = t.rowCount :=
    (foldl_stamp_cols pointName _ t).2
  rw [hrc]
  exact foldl_stamp_idem pointName _ (List.nodup_range' _ _) _

theorem renameFrom_cols (t : Table) (row : Nat) :
    (t.renameFrom row).cols = t.cols ∧ (t.renameFrom row).rowCount = t.rowCount := by
  unfold Table.renameFrom
  exact foldl_stamp_cols pointName _ t

/-- The rename-enabled `DeleteTable` does *not* restore the table on undo
(the re-inserted row is blank and the stamped names stay), but it does
satisfy `push; undo; redo = push`. -/
theorem deleteTable_rename_triple (t : Table) (row : Nat) (hrow : row < t.rowCount) :
    deleteTableRedo row true (deleteTableUndo row true (deleteTableRedo row true t))
      = deleteTableRedo row true t := by
  have hredoEq : ∀ (u : Table), deleteTableRedo row true u = (u.removeRow row).renameFrom row :=
    fun u => rfl
  have hundoEq : ∀ (u : Table), deleteTableUndo row true u =
      (List.range ((u.renameFrom row).insertRow row).cols).foldl
        (fun tb c => tb.setItem row c []) ((u.renameFrom row).insertRow row) :=
    fun u => rfl
  rw [hredoEq t, hundoEq, hredoEq]
  set t1 := (t.removeRow row).renameFrom row with ht1
  have hident : t1.renameFrom row = t1 := by
    rw [ht1]
    exact renameFrom_renameFrom _ _
  rw [hident]
  have ht1rc : t1.rowCount = t.rowCount - 1 := by
    rw [ht1]
    rw [(renameFrom_cols _ _).2]
    unfold Table.removeRow Table.rowCount
    simp only [List.length_eraseIdx]
    rw [if_pos (show row < t.rows.length from hrow)]
  have hrowle : row ≤ t1.rows.length := by
    have : t1.rows.length = t1.rowCount := rfl
    omega
  have htl : (t1.rows.take row).length = row := by
    simp [Nat.min_eq_left hrowle]
  have hins : (t1.insertRow row).rows =
      t1.rows.take row ++ List.replicate t1.cols none :: t1.rows.drop row :=
    Table.insertRow_rows t1 row
  have hcell : (t1.insertRow row).rows[row]? = some (List.replicate t1.cols none) := by
    rw [hins, List.getElem?_append_right (le_of_eq htl)]
    simp [htl]
  have hinscols : (t1.insertRow row).cols = t1.cols := rfl
  have hfold := foldl_setItem_sameRow (r := row) (v := [])
    (List.range (t1.insertRow row).cols) (t1.insertRow row) _ hcell
  set t2 := (List.range (t1.insertRow row).cols).foldl
    (fun tb c => tb.setItem row c []) (t1.insertRow row) with ht2
  have ht2rows : t2.rows = t1.rows.take row ++
      List.replicate t1.cols (some []) :: t1.rows.drop row := by
    rw [ht2, hfold, hins]
    have hm := list_set_middle (t1.rows.take row) (List.replicate t1.cols none)
      ((List.range (t1.insertRow row).cols).foldl (fun rww c => rww.set c (some []))
        (List.replicate t1.cols none)) (t1.rows.drop row)
    rw [htl] at hm
    rw [hm, hinscols, fillRow (some []) t1.cols _ (by simp)]
  have ht2cols : t2.cols = t1.cols := by
    rw [ht2]
    have hgen : ∀ (cs : List Nat) (tb : Table),
        (cs.foldl (fun tb c => tb.setItem row c []) tb).cols = tb.cols := by
      intro cs
      induction cs with
      | nil => intro tb; rfl
      | cons c cs ih => intro tb; rw [List.foldl_cons, ih, Table.cols_setItem]
    rw [hgen, hinscols]
  have hremove : t2.removeRow row = t1 := by
    refine Table.eq_of_parts ?_ ?_
    · unfold Table.removeRow
      exact ht2cols
    · unfold Table.removeRow
      simp only
      rw [ht2rows]
      have hm := list_eraseIdx_middle (t1.rows.take row)
        (List.replicate t1.cols (some [])) (t1.rows.drop row)
      rw [htl] at hm
      rw [hm, List.take_append_drop]
  rw [hremove, hident]

/-! ### The referential invariant across an `EditPointTable` push -/

theorem getLinks_of_item {t : Table} {r : Nat} {f : Str} (h : t.item r 1 = some f) :
    getLinks t r = tokensOf f := by
  unfold getLinks
  rw [h]
  rfl

theorem getLinks_congr {t t' : Table} {r : Nat} (h : t'.item r 1 = t.item r 1) :
    getLinks t' r = getLinks t r := by
  unfold getLinks
  rw [h]

theorem linkPointTokens_of_item {t : Table} {r : Nat} {f : Str}
    (h : t.item r 2 = some f) : linkPointTokens t r = tokensOf f := by
  unfold linkPointTokens
  rw [h]
  rfl

theorem linkPointTokens_congr {t t' : Table} {r : Nat} (h : t'.item r 2 = t.item r 2) :
    linkPointTokens t' r = linkPointTokens t r := by
  unfold linkPointTokens
  rw [h]

/-- Erasing a point name from a canonical list commutes with the encoding. -/
theorem map_pointName_erase (qs : List Nat) (a : Nat) :
    (qs.map pointName).erase (pointName a) = (qs.erase a).map pointName := by
  induction qs with
  | nil => rfl
  | cons q qs ih =>
    by_cases hq : q = a
    · subst hq
      rw [List.map_cons, List.erase_cons_head, List.erase_cons_head]
    · have hne : pointName q ≠ pointName a := fun h => hq (pointName_injective h)
      rw [List.map_cons, List.erase_cons_tail (by simpa using hne),
        List.erase_cons_tail (by simpa using hq), List.map_cons, ih]

set_option maxHeartbeats 400000 in
/-- Pushing `EditPointTable` preserves the §3 referential invariant, under
canonical-state preconditions: the edited row exists with the full seven
columns, every link row has a non-empty name, every token of the new links
value resolves to some link row, the gaining rows' points fields are
canonical lists of point names not referencing the edited point, and the
losing rows' fields are canonical and reference it exactly once. -/
theorem editPoint_redo_invariant {s : Sheets} {row : Nat} {args : PointArgs}
    {c : EditPointCmd} {rw : List (Option Str)}
    (hmk : mkEditPoint row args s = some c)
    (hInv : Invariant s)
    (hrow : s.pointTable.rows[row]? = some rw) (hlen : rw.length = 7)
    (hlinkname : ∀ r, r < s.linkTable.rowCount →
       ∃ nm, s.linkTable.item r 0 = some nm ∧ nm ≠ [])
    (hres : ∀ L ∈ tokensOf args.links,
       ∃ r, r < s.linkTable.rowCount ∧ s.linkTable.item r 0 = some L)
    (hgain : ∀ r ∈ c.newLinkItems, ∃ (f : Str) (qs : List Nat),
       s.linkTable.item r 2 = some f
       ∧ tokensOf f = qs.map pointName ∧ row ∉ qs)
    (hlose : ∀ r ∈ c.oldLinkItems, ∃ (f : Str) (qs : List Nat),
       s.linkTable.item r 2 = some f
       ∧ tokensOf f = qs.map pointName ∧ row ∈ qs ∧ row ∉ qs.erase row) :
    ∃ s1, c.redo s = some s1 ∧ Invariant s1 := by
  obtain ⟨hcrow, hcargs, hcold, hnd1, hnd2, hdisj, hI1, hI2, hnames⟩ := mkEditPoint_spec hmk
  have hPne : pointName row ≠ [] := pointName_ne_nil row
  have hPfree : ',' ∉ pointName row := comma_not_mem_pointName row
  have hrowlt : row < s.pointTable.rowCount := (List.getElem?_eq_some.1 hrow).1
  have hsucc1 : ∀ r ∈ c.newLinkItems, ∃ f, s.linkTable.item r 2 = some f := by
    intro r hr
    rcases hgain r hr with ⟨f, _, hf, _, _⟩
    exact ⟨f, hf⟩
  have hsucc2 : ∀ r ∈ c.oldLinkItems, ∃ f, s.linkTable.item r 2 = some f
      ∧ pointName row ∈ splitComma f := by
    intro r hr
    rcases hlose r hr with ⟨f, qs, hf, htokf, hrq, _⟩
    refine ⟨f, hf, ?_⟩
    have hmem : pointName row ∈ tokensOf f := by
      rw [htokf]
      exact List.mem_map.2 ⟨row, hrq, rfl⟩
    exact tokensOf_sub_split _ hmem
  obtain ⟨lk1, hw1, hA1, hA2, hout1, hocol1, hrc1, hcols1⟩ :=
    epWriteRows_spec (pointName row) c.newLinkItems c.oldLinkItems s.linkTable
      hnd1 hnd2 hdisj hsucc1 hsucc2
  have hredo : c.redo s = some ⟨editPointArgs s.pointTable row args, lk1⟩ := by
    unfold EditPointCmd.redo
    rw [hcrow, hcargs]
    simp only [Option.bind_eq_bind]
    rw [hw1]
    simp only [Option.some_bind, Option.pure_def]
  set pt' := editPointArgs s.pointTable row args with hptdef
  have hpt'row1 : pt'.item row 1 = some args.links := by
    rw [hptdef]
    unfold editPointArgs
    exact (editPoint_item_self hrow hlen args.links args.typ args.color args.x args.y).2.1
  have hpt'other : ∀ q cc, q ≠ row → pt'.item q cc = s.pointTable.item q cc := by
    intro q cc hq
    rw [hptdef]
    unfold editPointArgs
    exact editPoint_item_other hq args.links args.typ args.color args.x args.y cc
  have hpt'rc : pt'.rowCount = s.pointTable.rowCount := by
    rw [hptdef]
    unfold editPointArgs
    exact editPoint_rowCount s.pointTable row args.links args.typ args.color args.x args.y
  have hgl_row : getLinks pt' row = tokensOf args.links := getLinks_of_item hpt'row1
  have hgl_other : ∀ q, q ≠ row → getLinks pt' q = getLinks s.pointTable q :=
    fun q hq => getLinks_congr (hpt'other q 1 hq)
  have hname1 : ∀ r, lk1.item r 0 = s.linkTable.item r 0 :=
    fun r => hocol1 r 0 (by omega)
  have htext1 : ∀ r, Table.itemText lk1 r 0 = Table.itemText s.linkTable r 0 := by
    intro r
    unfold Table.itemText
    rw [hname1 r]
  have htoksNew : ∀ r ∈ c.newLinkItems, ∃ f, s.linkTable.item r 2 = some f
      ∧ linkPointTokens lk1 r = tokensOf f ++ [pointName row]
      ∧ linkPointTokens s.linkTable r = tokensOf f := by
    intro r hr
    rcases hA1 r hr with ⟨f, hf, hf'⟩
    refine ⟨f, hf, ?_, linkPointTokens_of_item hf⟩
    rw [linkPointTokens_of_item hf']
    exact (tokensOf_appendWrite hPne hPfree).2
  have htoksOld : ∀ r ∈ c.oldLinkItems, ∃ f, s.linkTable.item r 2 = some f
      ∧ linkPointTokens lk1 r = (tokensOf f).erase (pointName row)
      ∧ linkPointTokens s.linkTable r = tokensOf f := by
    intro r hr
    rcases hA2 r hr with ⟨f, hf, _, hf'⟩
    refine ⟨f, hf, ?_, linkPointTokens_of_item hf⟩
    rw [linkPointTokens_of_item hf']
    exact tokensOf_removeWrite hPne
  have htoksSame : ∀ r, r ∉ c.newLinkItems → r ∉ c.oldLinkItems →
      linkPointTokens lk1 r = linkPointTokens s.linkTable r :=
    fun r h1 h2 => linkPointTokens_congr (hout1 r h1 h2)
  have hold_of_mem : ∀ {z : Str}, z ∈ getLinks s.pointTable row →
      z ∈ splitComma (pointArgsOfRow s.pointTable row).links := by
    intro z hz
    unfold getLinks at hz
    cases hB : s.pointTable.item row 1 with
    | none =>
      rw [hB] at hz
      simp at hz
    | some fB =>
      rw [hB] at hz
      have hargsB : (pointArgsOfRow s.pointTable row).links = fB := by
        unfold pointArgsOfRow Table.itemText
        rw [hB]
        rfl
      rw [hargsB]
      exact List.mem_of_mem_filter hz
  have hmem_of_old : ∀ {z : Str},
      z ∈ splitComma (pointArgsOfRow s.pointTable row).links → z ≠ [] →
      z ∈ getLinks s.pointTable row := by
    intro z hz hzne
    unfold getLinks
    cases hB : s.pointTable.item row 1 with
    | none =>
      have hargsB : (pointArgsOfRow s.pointTable row).links = [] := by
        unfold pointArgsOfRow Table.itemText
        rw [hB]
        rfl
      rw [hargsB] at hz
      have : z = [] := by
        have hsp : splitComma ([] : Str) = [[]] := rfl
        rw [hsp] at hz
        simpa using hz
      exact absurd this hzne
    | some fB =>
      have hargsB : (pointArgsOfRow s.pointTable row).links = fB := by
        unfold pointArgsOfRow Table.itemText
        rw [hB]
        rfl
      rw [hargsB] at hz
      exact List.mem_filter.2 ⟨hz, by simpa using hzne⟩
  have hInvF := hInv.1
  have hInvB := hInv.2
  clear_value pt'
  refine ⟨⟨pt', lk1⟩, hredo, ?_, ?_⟩
  -- forward direction: every named link refers back
  · intro p hp L hL
    simp only [List.mem_range] at hp
    have hplt : p < s.pointTable.rowCount := by rw [← hpt'rc]; exact hp
    have hL' : L ∈ getLinks pt' p := hL
    by_cases hpq : p = row
    · subst hpq
      rw [hgl_row] at hL'
      have hLne : L ≠ [] := tokensOf_ne_nil hL'
      have hLnew : L ∈ splitComma args.links := tokensOf_sub_split L hL'
      by_cases hLold : L ∈ splitComma (pointArgsOfRow s.pointTable p).links
      · have hLoldG : L ∈ getLinks s.pointTable p := hmem_of_old hLold hLne
        obtain ⟨l, hlmem, hlname, hlref⟩ :=
          hInvF p (List.mem_range.2 hrowlt) L hLoldG
        have hllt : l < s.linkTable.rowCount := List.mem_range.1 hlmem
        obtain ⟨nm, hnm⟩ := hnames l hllt
        have hnmtext : Table.itemText s.linkTable l 0 = nm := by
          unfold Table.itemText
          rw [hnm]
          rfl
        have hnmL : nm = L := hnmtext.symm.trans hlname
        have hlnotnew : l ∉ c.newLinkItems := by
          intro hmem
          rcases (hI1 l).1 hmem with ⟨_, nm', hnm', hin', hout'⟩
          have he : nm = nm' := Option.some.inj (hnm.symm.trans hnm')
          refine hout' ?_
          rw [← he, hnmL]
          exact hLold
        have hlnotold : l ∉ c.oldLinkItems := by
          intro hmem
          rcases (hI2 l).1 hmem with ⟨_, nm', hnm', hin', hout'⟩
          have he : nm = nm' := Option.some.inj (hnm.symm.trans hnm')
          refine hout' ?_
          rw [← he, hnmL]
          exact hLnew
        refine ⟨l, List.mem_range.2 (by rw [hrc1]; exact hllt), ?_, ?_⟩
        · show Table.itemText lk1 l 0 = L
          rw [htext1 l]
          exact hlname
        · show refersTo lk1 l p
          unfold refersTo
          rw [htoksSame l hlnotnew hlnotold]
          exact hlref
      · obtain ⟨r0, hr0lt, hr0name⟩ := hres L hL'
        have hr0new : r0 ∈ c.newLinkItems :=
          (hI1 r0).2 ⟨hr0lt, L, hr0name, hLnew, hLold⟩
        obtain ⟨f, hf, htokN, _⟩ := htoksNew r0 hr0new
        refine ⟨r0, List.mem_range.2 (by rw [hrc1]; exact hr0lt), ?_, ?_⟩
        · show Table.itemText lk1 r0 0 = L
          rw [htext1 r0]
          unfold Table.itemText
          rw [hr0name]
          rfl
        · show refersTo lk1 r0 p
          unfold refersTo
          rw [htokN]
          exact ⟨pointName p, List.mem_append_right _ (List.mem_singleton.2 rfl),
            parsePointTok_pointName p⟩
    · have hLp : L ∈ getLinks s.pointTable p := by
        rw [← hgl_other p hpq]
        exact hL'
      obtain ⟨l, hlmem, hlname, hlref⟩ := hInvF p (List.mem_range.2 hplt) L hLp
      have hllt : l < s.linkTable.rowCount := List.mem_range.1 hlmem
      obtain ⟨tok, htokmem, hparse⟩ := hlref
      refine ⟨l, List.mem_range.2 (by rw [hrc1]; exact hllt), ?_, ?_⟩
      · show Table.itemText lk1 l 0 = L
        rw [htext1 l]
        exact hlname
      · show refersTo lk1 l p
        by_cases hlnew : l ∈ c.newLinkItems
        · obtain ⟨f, hf, htokN, htokO⟩ := htoksNew l hlnew
          unfold refersTo
          rw [htokN]
          rw [htokO] at htokmem
          exact ⟨tok, List.mem_append_left _ htokmem, hparse⟩
        · by_cases hlold : l ∈ c.oldLinkItems
          · obtain ⟨f, hf, htokN, htokO⟩ := htoksOld l hlold
            obtain ⟨f2, qs, hf2, htokf, hrq, honce⟩ := hlose l hlold
            have hfeq : f = f2 := Option.some.inj (hf.symm.trans hf2)
            subst hfeq
            rw [htokO] at htokmem
            have htokq : ∃ q ∈ qs, tok = pointName q := by
              rw [htokf] at htokmem
              rcases List.mem_map.1 htokmem with ⟨q, hq, hqe⟩
              exact ⟨q, hq, hqe.symm⟩
            obtain ⟨q, hq, htokeq⟩ := htokq
            have hqp : q = p := by
              rw [htokeq, parsePointTok_pointName] at hparse
              exact Option.some.inj hparse
            have htokne : tok ≠ pointName row := by
              rw [htokeq]
              intro he
              have hqrow : q = row := pointName_injective he
              exact hpq (hqp ▸ hqrow)
            unfold refersTo
            rw [htokN]
            exact ⟨tok, (List.mem_erase_of_ne htokne).2 htokmem, hparse⟩
          · unfold refersTo
            rw [htoksSame l hlnew hlold]
            exact ⟨tok, htokmem, hparse⟩
  -- backward direction: every referenced point names the link back
  · intro l hl tok htok p hp
    have hllt1 : l < lk1.rowCount := List.mem_range.1 hl
    have hllt : l < s.linkTable.rowCount := by rw [← hrc1]; exact hllt1
    have hparse : parsePointTok tok = some p := by
      cases hpt : parsePointTok tok with
      | none =>
        rw [hpt] at hp
        simp [Option.toList] at hp
      | some q =>
        rw [hpt] at hp
        simp only [Option.toList, List.mem_singleton] at hp
        exact congrArg some hp.symm
    obtain ⟨nm, hnm, hnmne⟩ := hlinkname l hllt
    have htextnm : Table.itemText lk1 l 0 = nm := by
      unfold Table.itemText
      rw [hname1 l, hnm]
      rfl
    have htok' : tok ∈ linkPointTokens lk1 l := htok
    have hgoalB : ∀ (hpnew : nm ∈ splitComma args.links),
        row ∈ List.range pt'.rowCount
        ∧ Table.itemText lk1 l 0 ∈ getLinks pt' row := by
      intro hpnew
      refine ⟨List.mem_range.2 (by rw [hpt'rc]; exact hrowlt), ?_⟩
      rw [htextnm, hgl_row]
      exact List.mem_filter.2 ⟨hpnew, by simpa using hnmne⟩
    have hgoalA : p ≠ row → tok ∈ linkPointTokens s.linkTable l →
        p ∈ List.range pt'.rowCount
        ∧ Table.itemText lk1 l 0 ∈ getLinks pt' p := by
      intro hpr htokOld
      obtain ⟨hpmem, hmemL⟩ := hInvB l (List.mem_range.2 hllt) tok htokOld p
        (by rw [hparse]; simp [Option.toList])
      have hplt : p < s.pointTable.rowCount := List.mem_range.1 hpmem
      refine ⟨List.mem_range.2 (by rw [hpt'rc]; exact hplt), ?_⟩
      rw [htextnm, hgl_other p hpr]
      have htexts : Table.itemText s.linkTable l 0 = nm := by
        unfold Table.itemText
        rw [hnm]
        rfl
      rw [htexts] at hmemL
      exact hmemL
    by_cases hlnew : l ∈ c.newLinkItems
    · have hnmnew : nm ∈ splitComma args.links := by
        rcases (hI1 l).1 hlnew with ⟨_, nm', hnm', hin', _⟩
        have he : nm = nm' := Option.some.inj (hnm.symm.trans hnm')
        rw [he]
        exact hin'
      obtain ⟨f, hf, htokN, htokO⟩ := htoksNew l hlnew
      rw [htokN] at htok'
      rcases List.mem_append.1 htok' with hmemf | hmemP
      · by_cases hpr : p = row
        · subst hpr
          exact hgoalB hnmnew
        · refine hgoalA hpr ?_
          rw [htokO]
          exact hmemf
      · have htokP : tok = pointName row := List.mem_singleton.1 hmemP
        have hprow : p = row := by
          rw [htokP, parsePointTok_pointName] at hparse
          exact (Option.some.inj hparse).symm
        subst hprow
        exact hgoalB hnmnew
    · by_cases hlold : l ∈ c.oldLinkItems
      · obtain ⟨f, hf, htokN, htokO⟩ := htoksOld l hlold
        obtain ⟨f2, qs, hf2, htokf, hrq, honce⟩ := hlose l hlold
        have hfeq : f = f2 := Option.some.inj (hf.symm.trans hf2)
        subst hfeq
        rw [htokN] at htok'
        have htokmemf : tok ∈ tokensOf f := List.mem_of_mem_erase htok'
        have htokqs : tok ∈ (qs.erase row).map pointName := by
          have herase : (tokensOf f).erase (pointName row) =
              (qs.erase row).map pointName := by
            rw [htokf, map_pointName_erase]
          rw [← herase]
          exact htok'
        rcases List.mem_map.1 htokqs with ⟨q, hq, hqe⟩
        have hqp : q = p := by
          rw [← hqe, parsePointTok_pointName] at hparse
          exact Option.some.inj hparse
        have hpr : p ≠ row := by
          intro he
          have hqrow : q = row := hqp.trans he
          rw [hqrow] at hq
          exact honce hq
        refine hgoalA hpr ?_
        rw [htokO]
        exact htokmemf
      · have htokOld : tok ∈ linkPointTokens s.linkTable l := by
          rw [← htoksSame l hlnew hlold]
          exact htok'
        by_cases hpr : p = row
        · subst hpr
          obtain ⟨hpmem, hmemL⟩ := hInvB l (List.mem_range.2 hllt) tok htokOld p
            (by rw [hparse]; simp [Option.toList])
          have htexts : Table.itemText s.linkTable l 0 = nm := by
            unfold Table.itemText
            rw [hnm]
            rfl
          rw [htexts] at hmemL
          have hnmold : nm ∈ splitComma (pointArgsOfRow s.pointTable p).links :=
            hold_of_mem hmemL
          have hnmnew : nm ∈ splitComma args.links := by
            by_contra hnot
            exact hlold ((hI2 l).2 ⟨hllt, nm, hnm, hnmold, hnot⟩)
          exact hgoalB hnmnew
        · exact hgoalA hpr htokOld


/-- C2, amended: `apply(); revert()` is byte-exact for every command under
its canonical precondition — `AddTable` unconditionally; `DeleteTable`
without rename on a row of empty strings; `FixSequenceNumber` on a
canonical field not referencing the benchmark; `EditPointTable` on a
well-shaped point row when the gaining link rows do not yet hold the
point's name and the losing rows hold it once, in last position;
`EditLinkTable` likewise when the name is unchanged; `AddPath` with a fresh
name; `DeletePath` of the last row whose dict entry is last;
`AddStorage`/`DeleteStorage` unconditionally; `AddVariable` with a fresh
text; `DeleteVariable` of a last, unduplicated row.  (The unconditional
claim is refuted by `c2_counterexample`.) -/
theorem c2_roundtrip_laws :
    (∀ t : Table, addTableUndo (addTableRedo t) = t)
  ∧ (∀ (t : Table) (row : Nat),
      t.rows[row]? = some (List.replicate t.cols (some [])) →
      deleteTableUndo row false (deleteTableRedo row false t) = t)
  ∧ (∀ (t : Table) (r B : Nat) (ps : List Nat),
      t.item r 2 = some (joinComma (ps.map pointName)) → ps ≠ [] → B ∉ ps →
      (fixSeqRedo r B t).bind (fixSeqUndo r B) = some t)
  ∧ (∀ (s : Sheets) (row : Nat) (args : PointArgs) (c : EditPointCmd)
        (rw : List (Option Str)) (lnk ty co x y : Str),
      mkEditPoint row args s = some c → RowsWf s.linkTable →
      s.pointTable.rows[row]? = some rw → rw.length = 7 →
      rw[0]? = some (some (pointName row)) → rw[1]? = some (some lnk) →
      rw[2]? = some (some ty) → rw[3]? = some (some co) →
      rw[4]? = some (some x) → rw[5]? = some (some y) →
      rw[6]? = some (some (currentText x y)) →
      (∀ r ∈ c.newLinkItems, ∃ f, s.linkTable.item r 2 = some f
        ∧ wellJoined f ∧ pointName row ∉ splitComma f) →
      (∀ r ∈ c.oldLinkItems, ∃ (f : Str) (l : List Str),
        s.linkTable.item r 2 = some f ∧ splitComma f = l ++ [pointName row]
        ∧ (∀ u ∈ l, u ≠ []) ∧ pointName row ∉ l) →
      ∃ s1, c.redo s = some s1 ∧ c.undo s1 = some s)
  ∧ (∀ (s : Sheets) (row : Nat) (args : LinkArgs) (c : EditLinkCmd)
        (rwL : List (Option Str)) (name0 col0 pts0 : Str),
      mkEditLink row args s = some c → RowsWf s.pointTable →
      s.linkTable.rows[row]? = some rwL → rwL.length = 3 →
      rwL[0]? = some (some name0) → rwL[1]? = some (some col0) →
      rwL[2]? = some (some pts0) →
      args.name = name0 → args.name ≠ [] → ',' ∉ args.name →
      (∀ r ∈ c.newPointItems, ∃ f, s.pointTable.item r 1 = some f
        ∧ wellJoined f ∧ args.name ∉ splitComma f) →
      (∀ r ∈ c.oldPointItems, ∃ (f : Str) (l : List Str),
        s.pointTable.item r 1 = some f ∧ splitComma f = l ++ [args.name]
        ∧ (∀ u ∈ l, u ≠ []) ∧ args.name ∉ l) →
      ∃ s1, c.redo s = some s1 ∧ c.undo s1 = some s)
  ∧ (∀ (c : AddPathCmd) (st : PathState), c.name ∉ st.data.map Prod.fst →
      c.undo (c.redo st) = some st)
  ∧ (∀ (ws : List Str) (it : Str) (d : List (Str × PathData)) (v : PathData)
        (c : DeletePathCmd),
      ((splitCh ':' it).headD []) ∉ d.map Prod.fst →
      mkDeletePath ws.length
        ⟨ws ++ [it], d ++ [((splitCh ':' it).headD [], v)]⟩ = some c →
      ∃ st1, c.redo ⟨ws ++ [it], d ++ [((splitCh ':' it).headD [], v)]⟩ = some st1
        ∧ c.undo st1 = ⟨ws ++ [it], d ++ [((splitCh ':' it).headD [], v)]⟩)
  ∧ (∀ (c : AddStorageCmd) (w : List SItem), c.undo (c.redo w) = w)
  ∧ (∀ (row : Nat) (w : List SItem) (c : DeleteStorageCmd),
      mkDeleteStorage row w = some c → c.undo (c.redo w) = w)
  ∧ (∀ (c : AddVariableCmd) (w : List Str), c.text ∉ w → c.undo (c.redo w) = w)
  ∧ (∀ (w : List Str) (t : Str) (c : DeleteVariableCmd), t ∉ w →
      mkDeleteVariable w.length (w ++ [t]) = some c →
      c.undo (c.redo (w ++ [t])) = w ++ [t]) := by
  refine ⟨addTable_roundtrip, deleteTable_noRename_roundtrip, fixSeq_roundtrip,
    ?_, ?_, addPath_roundtrip, deletePath_last_roundtrip, addStorage_roundtrip,
    deleteStorage_roundtrip, addVariable_roundtrip, deleteVariable_last_roundtrip⟩
  · intro s row args c rw lnk ty co x y hmk hwf hrow hlen h0 h1 h2 h3 h4 h5 h6
      hgain hlose
    obtain ⟨s1, hredo, _, hundo⟩ :=
      editPointCmd_states hmk hwf hrow hlen h0 h1 h2 h3 h4 h5 h6 hgain hlose
    exact ⟨s1, hredo, hundo⟩
  · intro s row args c rwL name0 col0 pts0 hmk hwf hrowL hlenL hL0 hL1 hL2
      hsame hne hfree hgain hlose
    exact editLinkCmd_states hmk hwf hrowL hlenL hL0 hL1 hL2 hsame hne hfree
      hgain hlose

/-- Witness for C2 at concrete states: each conditional round-trip law
instantiated and its preconditions discharged. -/
theorem c2_witness :
    (deleteTableUndo 0 false (deleteTableRedo 0 false
      ⟨2, [List.replicate 2 (some [])]⟩) = ⟨2, [List.replicate 2 (some [])]⟩)
  ∧ ((fixSeqRedo 0 0 tFix).bind (fixSeqUndo 0 0) = some tFix)
  ∧ (∃ s1, cW.redo sW = some s1 ∧ cW.undo s1 = some sW)
  ∧ (∃ s1, cLW.redo sW = some s1 ∧ cLW.undo s1 = some sW)
  ∧ ((AddPathCmd.mk (lit "P") [[(0, 0)]]).undo
      ((AddPathCmd.mk (lit "P") [[(0, 0)]]).redo ⟨[], []⟩) = some ⟨[], []⟩)
  ∧ (∃ st1, dpW.redo ⟨[lit "A: [0]", lit "B: [0]"],
        pwData ++ [(lit "B", [[(1, 2)]])]⟩ = some st1
      ∧ dpW.undo st1 = ⟨[lit "A: [0]", lit "B: [0]"], pwData ++ [(lit "B", [[(1, 2)]])]⟩)
  ∧ ((DeleteStorageCmd.mk 0 (lit "s0") (lit "e0")).undo
      ((DeleteStorageCmd.mk 0 (lit "s0") (lit "e0")).redo swW) = swW)
  ∧ ((AddVariableCmd.mk (lit "v")).undo ((AddVariableCmd.mk (lit "v")).redo []) = [])
  ∧ ((DeleteVariableCmd.mk (lit "b")).undo
      ((DeleteVariableCmd.mk (lit "b")).redo ([lit "a"] ++ [lit "b"]))
        = [lit "a"] ++ [lit "b"]) := by
  refine ⟨?_, ?_, ?_, ?_, ?_, ?_, ?_, ?_, ?_⟩
  · exact c2_roundtrip_laws.2.1 ⟨2, [List.replicate 2 (some [])]⟩ 0 (by decide)
  · exact c2_roundtrip_laws.2.2.1 tFix 0 0 [2] (by decide) (by decide) (by decide)
  · refine c2_roundtrip_laws.2.2.2.1 sW 0 argsW cW (pointRow 0 (lit "L2"))
      (lit "L2") (lit "R") (lit "Red") (lit "0") (lit "0")
      (by decide) (by decide) (by decide) (by decide) (by decide) (by decide)
      (by decide) (by decide) (by decide) (by decide) (by decide) ?_ ?_
    · intro r hr
      have hr1 : r = 1 := by simpa [cW] using hr
      subst hr1
      exact ⟨[], by decide, Or.inl rfl, by decide⟩
    · intro r hr
      have hr2 : r = 2 := by simpa [cW] using hr
      subst hr2
      exact ⟨lit "Point0", [], by decide, by decide, by decide, by decide⟩
  · refine c2_roundtrip_laws.2.2.2.2.1 sW 2 argsLW cLW
      (linkRow (lit "L2") (lit "Green") (lit "Point0"))
      (lit "L2") (lit "Green") (lit "Point0")
      (by decide) (by decide) (by decide) (by decide) (by decide) (by decide)
      (by decide) (by decide) (by decide) (by decide) ?_ ?_
    · intro r hr
      simp [cLW] at hr
    · intro r hr
      have hr0 : r = 0 := by simpa [cLW] using hr
      subst hr0
      exact ⟨lit "L2", [], by decide, by decide, by decide, by decide⟩
  · exact c2_roundtrip_laws.2.2.2.2.2.1 (AddPathCmd.mk (lit "P") [[(0, 0)]])
      ⟨[], []⟩ (by decide)
  · exact c2_roundtrip_laws.2.2.2.2.2.2.1 [lit "A: [0]"] (lit "B: [0]")
      pwData [[(1, 2)]] dpW (by decide) (by decide)
  · exact c2_roundtrip_laws.2.2.2.2.2.2.2.2.1 0 swW
      (DeleteStorageCmd.mk 0 (lit "s0") (lit "e0")) (by decide)
  · exact c2_roundtrip_laws.2.2.2.2.2.2.2.2.2.1 (AddVariableCmd.mk (lit "v"))
      [] (by decide)
  · exact c2_roundtrip_laws.2.2.2.2.2.2.2.2.2.2 [lit "a"] (lit "b")
      (DeleteVariableCmd.mk (lit "b")) (by decide) (by decide)

/-- C3, amended: `push(C); undo(); redo()` re-establishes the post-push
state for every command under its precondition — including the
rename-enabled `DeleteTable` and a benchmark-referencing
`FixSequenceNumber`, whose plain round trips fail — while `DeletePath`
satisfies it only for the last row (the general claim is refuted by
`c3_counterexample`). -/
theorem c3_redo_after_undo :
    (∀ t : Table, addTableRedo (addTableUndo (addTableRedo t)) = addTableRedo t)
  ∧ (∀ (t : Table) (row : Nat),
      t.rows[row]? = some (List.replicate t.cols (some [])) →
      deleteTableRedo row false (deleteTableUndo row false
        (deleteTableRedo row false t)) = deleteTableRedo row false t)
  ∧ (∀ (t : Table) (row : Nat), row < t.rowCount →
      deleteTableRedo row true (deleteTableUndo row true
        (deleteTableRedo row true t)) = deleteTableRedo row true t)
  ∧ (∀ (t : Table) (r B : Nat) (ps : List Nat),
      t.item r 2 = some (joinComma (ps.map pointName)) → ps ≠ [] →
      (fixSeqRedo r B t).bind (fun t1 => (fixSeqUndo r B t1).bind (fixSeqRedo r B))
        = fixSeqRedo r B t)
  ∧ (∀ (s : Sheets) (row : Nat) (args : PointArgs) (c : EditPointCmd)
        (rw : List (Option Str)) (lnk ty co x y : Str),
      mkEditPoint row args s = some c → RowsWf s.linkTable →
      s.pointTable.rows[row]? = some rw → rw.length = 7 →
      rw[0]? = some (some (pointName row)) → rw[1]? = some (some lnk) →
      rw[2]? = some (some ty) → rw[3]? = some (some co) →
      rw[4]? = some (some x) → rw[5]? = some (some y) →
      rw[6]? = some (some (currentText x y)) →
      (∀ r ∈ c.newLinkItems, ∃ f, s.linkTable.item r 2 = some f
        ∧ wellJoined f ∧ pointName row ∉ splitComma f) →
      (∀ r ∈ c.oldLinkItems, ∃ (f : Str) (l : List Str),
        s.linkTable.item r 2 = some f ∧ splitComma f = l ++ [pointName row]
        ∧ (∀ u ∈ l, u ≠ []) ∧ pointName row ∉ l) →
      ∃ s1, c.redo s = some s1 ∧ ∃ s2, c.undo s1 = some s2 ∧ c.redo s2 = some s1)
  ∧ (∀ (s : Sheets) (row : Nat) (args : LinkArgs) (c : EditLinkCmd)
        (rwL : List (Option Str)) (name0 col0 pts0 : Str),
      mkEditLink row args s = some c → RowsWf s.pointTable →
      s.linkTable.rows[row]? = some rwL → rwL.length = 3 →
      rwL[0]? = some (some name0) → rwL[1]? = some (some col0) →
      rwL[2]? = some (some pts0) →
      args.name = name0 → args.name ≠ [] → ',' ∉ args.name →
      (∀ r ∈ c.newPointItems, ∃ f, s.pointTable.item r 1 = some f
        ∧ wellJoined f ∧ args.name ∉ splitComma f) →
      (∀ r ∈ c.oldPointItems, ∃ (f : Str) (l : List Str),
        s.pointTable.item r 1 = some f ∧ splitComma f = l ++ [args.name]
        ∧ (∀ u ∈ l, u ≠ []) ∧ args.name ∉ l) →
      ∃ s1, c.redo s = some s1 ∧ ∃ s2, c.undo s1 = some s2 ∧ c.redo s2 = some s1)
  ∧ (∀ (c : AddPathCmd) (st : PathState), c.name ∉ st.data.map Prod.fst →
      (c.undo (c.redo st)).map c.redo = some (c.redo st))
  ∧ (∀ (ws : List Str) (it : Str) (d : List (Str × PathData)) (v : PathData)
        (c : DeletePathCmd),
      ((splitCh ':' it).headD []) ∉ d.map Prod.fst →
      mkDeletePath ws.length
        ⟨ws ++ [it], d ++ [((splitCh ':' it).headD [], v)]⟩ = some c →
      ∃ st1, c.redo ⟨ws ++ [it], d ++ [((splitCh ':' it).headD [], v)]⟩ = some st1
        ∧ c.redo (c.undo st1) = some st1)
  ∧ (∀ (c : AddStorageCmd) (w : List SItem),
      c.redo (c.undo (c.redo w)) = c.redo w)
  ∧ (∀ (row : Nat) (w : List SItem) (c : DeleteStorageCmd),
      mkDeleteStorage row w = some c → c.redo (c.undo (c.redo w)) = c.redo w)
  ∧ (∀ (c : AddVariableCmd) (w : List Str), c.text ∉ w →
      c.redo (c.undo (c.redo w)) = c.redo w)
  ∧ (∀ (w : List Str) (t : Str) (c : DeleteVariableCmd), t ∉ w →
      mkDeleteVariable w.length (w ++ [t]) = some c →
      c.redo (c.undo (c.redo (w ++ [t]))) = c.redo (w ++ [t])) := by
  refine ⟨?_, ?_, deleteTable_rename_triple, fixSeq_triple, ?_, ?_, ?_, ?_, ?_,
    ?_, ?_, ?_⟩
  · intro t
    rw [addTable_roundtrip]
  · intro t row h
    rw [deleteTable_noRename_roundtrip t row h]
  · intro s row args c rw lnk ty co x y hmk hwf hrow hlen h0 h1 h2 h3 h4 h5 h6
      hgain hlose
    obtain ⟨s1, hredo, _, hundo⟩ :=
      editPointCmd_states hmk hwf hrow hlen h0 h1 h2 h3 h4 h5 h6 hgain hlose
    exact ⟨s1, hredo, s, hundo, hredo⟩
  · intro s row args c rwL name0 col0 pts0 hmk hwf hrowL hlenL hL0 hL1 hL2
      hsame hne hfree hgain hlose
    obtain ⟨s1, hredo, hundo⟩ := editLinkCmd_states hmk hwf hrowL hlenL hL0 hL1
      hL2 hsame hne hfree hgain hlose
    exact ⟨s1, hredo, s, hundo, hredo⟩
  · intro c st h
    rw [addPath_roundtrip c st h]
    rfl
  · intro ws it d v c hk hmk
    obtain ⟨st1, hredo, hundo⟩ := deletePath_last_roundtrip ws it d v c hk hmk
    refine ⟨st1, hredo, ?_⟩
    rw [hundo]
    exact hredo
  · intro c w
    rw [addStorage_roundtrip]
  · intro row w c hmk
    rw [deleteStorage_roundtrip row w c hmk]
  · intro c w h
    rw [addVariable_roundtrip c w h]
  · intro w t c hnot hmk
    rw [deleteVariable_last_roundtrip w t c hnot hmk]

/-- Witness for C3 at concrete states: each conditional redo-after-undo law
instantiated and its preconditions discharged; the `DeleteTable` instance is
rename-enabled and the `FixSequenceNumber` field references the benchmark,
where the plain round trips fail. -/
theorem c3_witness :
    (deleteTableRedo 0 false (deleteTableUndo 0 false (deleteTableRedo 0 false
      ⟨2, [List.replicate 2 (some [])]⟩)) = deleteTableRedo 0 false
      ⟨2, [List.replicate 2 (some [])]⟩)
  ∧ (deleteTableRedo 0 true (deleteTableUndo 0 true (deleteTableRedo 0 true tDel))
      = deleteTableRedo 0 true tDel)
  ∧ ((fixSeqRedo 0 2 tFix).bind (fun t1 => (fixSeqUndo 0 2 t1).bind (fixSeqRedo 0 2))
      = fixSeqRedo 0 2 tFix)
  ∧ (∃ s1, cW.redo sW = some s1 ∧ ∃ s2, cW.undo s1 = some s2 ∧ cW.redo s2 = some s1)
  ∧ (∃ s1, cLW.redo sW = some s1 ∧ ∃ s2, cLW.undo s1 = some s2 ∧ cLW.redo s2 = some s1)
  ∧ (((AddPathCmd.mk (lit "P") [[(0, 0)]]).undo
      ((AddPathCmd.mk (lit "P") [[(0, 0)]]).redo ⟨[], []⟩)).map
        (AddPathCmd.mk (lit "P") [[(0, 0)]]).redo
      = some ((AddPathCmd.mk (lit "P") [[(0, 0)]]).redo ⟨[], []⟩))
  ∧ (∃ st1, dpW.redo ⟨[lit "A: [0]", lit "B: [0]"],
        pwData ++ [(lit "B", [[(1, 2)]])]⟩ = some st1
      ∧ dpW.redo (dpW.undo st1) = some st1)
  ∧ ((DeleteStorageCmd.mk 0 (lit "s0") (lit "e0")).redo
      ((DeleteStorageCmd.mk 0 (lit "s0") (lit "e0")).undo
        ((DeleteStorageCmd.mk 0 (lit "s0") (lit "e0")).redo swW))
      = (DeleteStorageCmd.mk 0 (lit "s0") (lit "e0")).redo swW)
  ∧ ((AddVariableCmd.mk (lit "v")).redo ((AddVariableCmd.mk (lit "v")).undo
      ((AddVariableCmd.mk (lit "v")).redo [])) = (AddVariableCmd.mk (lit "v")).redo [])
  ∧ ((DeleteVariableCmd.mk (lit "b")).redo ((DeleteVariableCmd.mk (lit "b")).undo
      ((DeleteVariableCmd.mk (lit "b")).redo ([lit "a"] ++ [lit "b"])))
      = (DeleteVariableCmd.mk (lit "b")).redo ([lit "a"] ++ [lit "b"])) := by
  refine ⟨?_, ?_, ?_, ?_, ?_, ?_, ?_, ?_, ?_, ?_⟩
  · exact c3_redo_after_undo.2.1 ⟨2, [List.replicate 2 (some [])]⟩ 0 (by decide)
  · exact c3_redo_after_undo.2.2.1 tDel 0 (by decide)
  · exact c3_redo_after_undo.2.2.2.1 tFix 0 2 [2] (by decide) (by decide)
  · refine c3_redo_after_undo.2.2.2.2.1 sW 0 argsW cW (pointRow 0 (lit "L2"))
      (lit "L2") (lit "R") (lit "Red") (lit "0") (lit "0")
      (by decide) (by decide) (by decide) (by decide) (by decide) (by decide)
      (by decide) (by decide) (by decide) (by decide) (by decide) ?_ ?_
    · intro r hr
      have hr1 : r = 1 := by simpa [cW] using hr
      subst hr1
      exact ⟨[], by decide, Or.inl rfl, by decide⟩
    · intro r hr
      have hr2 : r = 2 := by simpa [cW] using hr
      subst hr2
      exact ⟨lit "Point0", [], by decide, by decide, by decide, by decide⟩
  · refine c3_redo_after_undo.2.2.2.2.2.1 sW 2 argsLW cLW
      (linkRow (lit "L2") (lit "Green") (lit "Point0"))
      (lit "L2") (lit "Green") (lit "Point0")
      (by decide) (by decide) (by decide) (by decide) (by decide) (by decide)
      (by decide) (by decide) (by decide) (by decide) ?_ ?_
    · intro r hr
      simp [cLW] at hr
    · intro r hr
      have hr0 : r = 0 := by simpa [cLW] using hr
      subst hr0
      exact ⟨lit "L2", [], by decide, by decide, by decide, by decide⟩
  · exact c3_redo_after_undo.2.2.2.2.2.2.1 (AddPathCmd.mk (lit "P") [[(0, 0)]])
      ⟨[], []⟩ (by decide)
  · exact c3_redo_after_undo.2.2.2.2.2.2.2.1 [lit "A: [0]"] (lit "B: [0]")
      pwData [[(1, 2)]] dpW (by decide) (by decide)
  · exact c3_redo_after_undo.2.2.2.2.2.2.2.2.2.1 0 swW
      (DeleteStorageCmd.mk 0 (lit "s0") (lit "e0")) (by decide)
  · exact c3_redo_after_undo.2.2.2.2.2.2.2.2.2.2.1 (AddVariableCmd.mk (lit "v"))
      [] (by decide)
  · exact c3_redo_after_undo.2.2.2.2.2.2.2.2.2.2.2 [lit "a"] (lit "b")
      (DeleteVariableCmd.mk (lit "b")) (by decide) (by decide)

/-- C1, amended: the bidirectional referential invariant is *not* preserved
after every push of every command (`c1_counterexample`: `FixSequenceNumber`
alone breaks it, and an `EditLinkTable` rename corrupts substring-
overlapping names); it *is* preserved by `EditPointTable` — the command the
claim cites — after `push` and after `push; undo` (which restores the state
byte-exactly), on canonical states: well-shaped edited row, non-empty link
names, resolvable new links, and canonical points fields on the patched
rows with the edited point referenced exactly once, in last position, on
the losing rows. -/
theorem c1_editpoint_invariant :
    ∀ (s : Sheets) (row : Nat) (args : PointArgs) (c : EditPointCmd)
      (rw : List (Option Str)) (lnk ty co x y : Str),
      mkEditPoint row args s = some c → Invariant s → RowsWf s.linkTable →
      s.pointTable.rows[row]? = some rw → rw.length = 7 →
      rw[0]? = some (some (pointName row)) → rw[1]? = some (some lnk) →
      rw[2]? = some (some ty) → rw[3]? = some (some co) →
      rw[4]? = some (some x) → rw[5]? = some (some y) →
      rw[6]? = some (some (currentText x y)) →
      (∀ r, r < s.linkTable.rowCount →
        ∃ nm, s.linkTable.item r 0 = some nm ∧ nm ≠ []) →
      (∀ L ∈ tokensOf args.links,
        ∃ r, r < s.linkTable.rowCount ∧ s.linkTable.item r 0 = some L) →
      (∀ r ∈ c.newLinkItems, ∃ (f : Str) (qs : List Nat),
        s.linkTable.item r 2 = some f
        ∧ tokensOf f = qs.map pointName ∧ wellJoined f ∧ row ∉ qs) →
      (∀ r ∈ c.oldLinkItems, ∃ (f : Str) (qs : List Nat),
        s.linkTable.item r 2 = some f
        ∧ splitComma f = (qs ++ [row]).map pointName ∧ row ∉ qs) →
      ∃ s1, c.redo s = some s1 ∧ Invariant s1 ∧ c.undo s1 = some s := by
  intro s row args c rw lnk ty co x y hmk hInv hwf hrow hlen h0 h1 h2 h3 h4 h5 h6
    hlinkname hres hgain hlose
  have hPne := pointName_ne_nil row
  have hgainS : ∀ r ∈ c.newLinkItems, ∃ f, s.linkTable.item r 2 = some f
      ∧ wellJoined f ∧ pointName row ∉ splitComma f := by
    intro r hr
    obtain ⟨f, qs, hf, htokf, hwj, hrow'⟩ := hgain r hr
    refine ⟨f, hf, hwj, ?_⟩
    intro hmem
    rcases hwj with hnil | htoks
    · subst hnil
      have hsp : splitComma ([] : Str) = [[]] := rfl
      rw [hsp] at hmem
      exact hPne (by simpa using hmem)
    · have hsp : splitComma f = tokensOf f := by
        unfold tokensOf noEmpty
        rw [List.filter_eq_self.2 (fun t ht => by simpa using htoks t ht)]
      rw [hsp, htokf] at hmem
      rcases List.mem_map.1 hmem with ⟨q, hq, hqe⟩
      exact hrow' ((pointName_injective hqe) ▸ hq)
  have hgainI : ∀ r ∈ c.newLinkItems, ∃ (f : Str) (qs : List Nat),
      s.linkTable.item r 2 = some f ∧ tokensOf f = qs.map pointName ∧ row ∉ qs := by
    intro r hr
    obtain ⟨f, qs, hf, htokf, _, hrow'⟩ := hgain r hr
    exact ⟨f, qs, hf, htokf, hrow'⟩
  have hloseS : ∀ r ∈ c.oldLinkItems, ∃ (f : Str) (l : List Str),
      s.linkTable.item r 2 = some f ∧ splitComma f = l ++ [pointName row]
      ∧ (∀ u ∈ l, u ≠ []) ∧ pointName row ∉ l := by
    intro r hr
    obtain ⟨f, qs, hf, hsp, hrow'⟩ := hlose r hr
    refine ⟨f, qs.map pointName, hf, ?_, ?_, ?_⟩
    · rw [hsp, List.map_append]
      rfl
    · intro u hu
      rcases List.mem_map.1 hu with ⟨q, _, hqe⟩
      rw [← hqe]
      exact pointName_ne_nil q
    · intro hmem
      rcases List.mem_map.1 hmem with ⟨q, hq, hqe⟩
      exact hrow' ((pointName_injective hqe) ▸ hq)
  have hloseI : ∀ r ∈ c.oldLinkItems, ∃ (f : Str) (qs : List Nat),
      s.linkTable.item r 2 = some f ∧ tokensOf f = qs.map pointName
      ∧ row ∈ qs ∧ row ∉ qs.erase row := by
    intro r hr
    obtain ⟨f, qs, hf, hsp, hrow'⟩ := hlose r hr
    have hne : ∀ t ∈ (qs ++ [row]).map pointName, t ≠ [] := by
      intro t ht
      rcases List.mem_map.1 ht with ⟨q, _, hqe⟩
      rw [← hqe]
      exact pointName_ne_nil q
    refine ⟨f, qs ++ [row], hf, ?_,
      List.mem_append_right _ (List.mem_singleton.2 rfl), ?_⟩
    · unfold tokensOf noEmpty
      rw [hsp]
      rw [List.filter_eq_self.2 (fun t ht => by simpa using hne t ht)]
    · rw [List.erase_append_right _ hrow', List.erase_cons_head, List.append_nil]
      exact hrow'
  obtain ⟨s1, hredo, hInv1⟩ := editPoint_redo_invariant hmk hInv hrow hlen
    hlinkname hres hgainI hloseI
  obtain ⟨s1', hredo', _, hundo'⟩ := editPointCmd_states hmk hwf hrow hlen
    h0 h1 h2 h3 h4 h5 h6 hgainS hloseS
  have hs1 : s1' = s1 := Option.some.inj (hredo'.symm.trans hredo)
  rw [hs1] at hundo'
  exact ⟨s1, hredo, hInv1, hundo'⟩

/-- Witness for C1 on a three-link state satisfying the invariant: moving
point 0 from `L2` to `L1` keeps the invariant after push, and undo restores
the state. -/
theorem c1_witness :
    ∃ s1, cW.redo sW = some s1 ∧ Invariant s1 ∧ cW.undo s1 = some sW := by
  refine c1_editpoint_invariant sW 0 argsW cW (pointRow 0 (lit "L2"))
    (lit "L2") (lit "R") (lit "Red") (lit "0") (lit "0")
    (by decide) (by decide) (by decide) (by decide) (by decide) (by decide)
    (by decide) (by decide) (by decide) (by decide) (by decide) (by decide)
    ?_ ?_ ?_ ?_
  · intro r hr
    have hr3 : r < 3 := hr
    interval_cases r
    · exact ⟨lit "ground", by decide, by decide⟩
    · exact ⟨lit "L1", by decide, by decide⟩
    · exact ⟨lit "L2", by decide, by decide⟩
  · intro L hL
    rw [(by decide : tokensOf argsW.links = [lit "L1"])] at hL
    have hLeq : L = lit "L1" := List.mem_singleton.1 hL
    subst hLeq
    exact ⟨1, by decide, by decide⟩
  · intro r hr
    have hr1 : r = 1 := by simpa [cW] using hr
    subst hr1
    exact ⟨[], [], by decide, rfl, Or.inl rfl, by decide⟩
  · intro r hr
    have hr2 : r = 2 := by simpa [cW] using hr
    subst hr2
    exact ⟨lit "Point0", [], by decide, by decide, by decide⟩

end Pyslvs
